import Mathlib

/-! gui2d: quad batching and the mouse-handler quad tree.

A shallow embedding of `iQuadRenderable`, `QuadRendererBase`, `iMBR`,
`QuadTree`, `TexturedQuadRenderer::drawElements` and the mouse dispatch of
`Manager` from the gui2d sources, followed by the properties checked
against them.

Conventions of the embedding:

* `uint16_t` / `GLushort` values are natural numbers below `65536`; every
  store into such a variable is an explicit `wrap16`. `GLshort` values are
  integers, every store an explicit `toShort`.
* A pointer to an element (`U*`, `T*`) is a natural number (its address).
  The objects pointed to live in a heap, a function from addresses to
  object states.
* A pointer into an array (`&_vCoords[4*offset]`) is the array together
  with a start index. A `memcpy` that would leave the array is undefined
  behaviour in C++ and is `none` here.
* `float` values are rationals. An operation that rounds is the exact
  operation followed by `Float32.round` (binary32, nearest, ties to even);
  the scaling in the float overload of `setQuadXY` and `QuadTree.divide32`
  are modelled this way. The tree model `QuadTree` keeps the midpoint
  `(a+b)/2` of `divide()` exact, which is what the `float` operations give
  when the sum and its half are binary32 numbers.
* The tree models `QuadTree` and `QuadTreeNode` hold a node together with
  the objects below it; `QuadTreeHeap` keeps the objects in a memory, where
  the use of a deleted object is a result of its own (`useAfterFree`).
-/

namespace gui2d

/-! ## Machine integers -/

/-- Value kept by a store into a `uint16_t` (or `GLushort`) variable. -/
def wrap16 (n : Nat) : Nat := n % 65536

/-- Value kept by `a -= b` on `uint16_t` operands. -/
def sub16 (a b : Nat) : Nat := (a + 65536 - b % 65536) % 65536

/-- Value kept by a store into a `GLshort` variable (two's complement). -/
def toShort (n : Int) : Int := (n + 32768) % 65536 - 32768

/-- Constant `USHRT_MAX`. -/
def USHRT_MAX : Nat := 65535

/-! ## glm::i16vec3 and raw memory -/

/-- One vertex, `glm::i16vec3`. -/
structure i16vec3 where
  x : Int
  y : Int
  z : Int
deriving DecidableEq, Repr, Inhabited

/-- The block `calloc` hands out: `n` zeroed vertices. -/
def calloc (n : Nat) : List i16vec3 := List.replicate n ⟨0, 0, 0⟩

/-- `memcpy(dst + pos, src, n)` on arrays of equal element type: `none`
when the source or the destination region is out of bounds. -/
def memcpy {α : Type} (dst : List α) (pos : Nat) (src : List α) (n : Nat) : Option (List α) :=
  if pos + n ≤ dst.length ∧ n ≤ src.length then
    some (dst.take pos ++ src.take n ++ dst.drop (pos + n))
  else none

/-- `realloc(p, n)`: the old contents up to the new size are kept; the new
tail (indeterminate in C) is filled with `fill`. -/
def realloc {α : Type} (p : List α) (n : Nat) (fill : α) : List α :=
  p.take n ++ List.replicate (n - p.length) fill

/-! ## iQuadRenderable -/

/-- State of one `iQuadRenderable` object. -/
structure iQuadRenderable where
  _count : Nat
  _prevOffset : Nat
  _modified : Bool
  _vCoords : List i16vec3
deriving DecidableEq, Repr

namespace iQuadRenderable

/-- Constructor `iQuadRenderable(uint16_t quads)`. -/
def new (quads : Nat) : iQuadRenderable :=
  { _count := wrap16 quads
    _prevOffset := USHRT_MAX
    _modified := true
    _vCoords := calloc (wrap16 quads * 4) }

/-- Accessor `getQuadCount()`. -/
def getQuadCount (self : iQuadRenderable) : Nat := self._count

/-- Store `_vCoords[i].x = v` (no effect outside the array). -/
def storeX (l : List i16vec3) (i : Nat) (v : Int) : List i16vec3 :=
  match l[i]? with
  | some c => l.set i { c with x := toShort v }
  | none => l

/-- Store `_vCoords[i].y = v` (no effect outside the array). -/
def storeY (l : List i16vec3) (i : Nat) (v : Int) : List i16vec3 :=
  match l[i]? with
  | some c => l.set i { c with y := toShort v }
  | none => l

/-- Store `_vCoords[i].z = v` (no effect outside the array). -/
def storeZ (l : List i16vec3) (i : Nat) (v : Int) : List i16vec3 :=
  match l[i]? with
  | some c => l.set i { c with z := toShort v }
  | none => l

/-- Overload `setQuadXY(uint16_t quad, GLshort x, GLshort y, GLshort w, GLshort h)`. -/
def setQuadXY (self : iQuadRenderable) (quad : Nat) (x y w h : Int) : iQuadRenderable :=
  let i := 4 * wrap16 quad
  let x := toShort x
  let y := toShort y
  let w := toShort w
  let h := toShort h
  let v := storeX self._vCoords i x
  let v := storeY v i y
  let v := storeX v (i + 1) (x + w)
  let v := storeY v (i + 1) y
  let v := storeX v (i + 2) (x + w)
  let v := storeY v (i + 2) (y + h)
  let v := storeX v (i + 3) x
  let v := storeY v (i + 3) (y + h)
  { self with _vCoords := v, _modified := true }

/-- Method `setQuadZ(uint16_t quad, GLshort z)`. -/
def setQuadZ (self : iQuadRenderable) (quad : Nat) (z : Int) : iQuadRenderable :=
  let i := 4 * wrap16 quad
  let v := storeZ self._vCoords i z
  let v := storeZ v (i + 1) z
  let v := storeZ v (i + 2) z
  let v := storeZ v (i + 3) z
  { self with _vCoords := v, _modified := true }

/-- Method `render(glm::i16vec3 *vCoords, uint16_t offset, bool force)`.
The destination pointer is the array `mem` with start index `pos`. The
result is the returned flag, the destination array and the object state
afterwards. -/
def render (self : iQuadRenderable) (mem : List i16vec3) (pos : Nat) (offset : Nat)
    (force : Bool) : Option (Bool × List i16vec3 × iQuadRenderable) :=
  let offset := wrap16 offset
  if force || self._modified || (offset != self._prevOffset) then
    match memcpy mem pos self._vCoords (self._count * 4) with
    | some mem1 => some (true, mem1, { self with _modified := false, _prevOffset := offset })
    | none => none
  else
    some (false, mem, self)

/-- Class invariant: the vertex block holds `4 * _count` vertices and the
16-bit fields are in range. -/
def WF (self : iQuadRenderable) : Prop :=
  self._vCoords.length = self._count * 4 ∧ self._count < 65536 ∧ self._prevOffset < 65536

instance (self : iQuadRenderable) : Decidable self.WF := by
  unfold WF; infer_instance

end iQuadRenderable

/-! ## QuadRendererBase -/

/-- The heap of quad elements: object state by address. -/
abbrev Heap := Nat → iQuadRenderable

/-- State of a `QuadRendererBase<T, U>`: the CPU-side members. `_drawItems`
is the `std::set<U*>`, kept as the ascending list of its addresses (the
iteration order of the set). -/
structure QuadRendererBase where
  _bufferSize : Nat
  _count : Nat
  _updateIndex : Bool
  _vCoords : List i16vec3
  _index : List Nat
  _drawItems : List Nat
deriving DecidableEq, Repr

namespace QuadRendererBase

/-- Constructor: capacity 0, count 0, null arrays, empty set. -/
def new : QuadRendererBase :=
  { _bufferSize := 0, _count := 0, _updateIndex := false, _vCoords := [], _index := [],
    _drawItems := [] }

/-- Body of the index loop of `ensureCapacity` for one quad `i`. -/
def writeQuadIndices (index : List Nat) (i : Nat) : List Nat :=
  let index := index.set (6 * i) (wrap16 (4 * i))
  let index := index.set (6 * i + 1) (wrap16 (4 * i + 2))
  let index := index.set (6 * i + 2) (wrap16 (4 * i + 3))
  let index := index.set (6 * i + 3) (wrap16 (4 * i))
  let index := index.set (6 * i + 4) (wrap16 (4 * i + 1))
  index.set (6 * i + 5) (wrap16 (4 * i + 2))

/-- Loop `for (i = lo; i < hi; ++i)` of `ensureCapacity`. -/
def indexLoop (index : List Nat) (lo hi : Nat) : List Nat :=
  (List.range' lo (hi - lo)).foldl writeQuadIndices index

/-- Method `ensureCapacity(uint16_t quads)`. The secondary buffer resized by
the subclass hook `resizeBuffers` is not part of this state. -/
def ensureCapacity (self : QuadRendererBase) (quads : Nat) : QuadRendererBase :=
  let quads := wrap16 quads
  if quads > self._bufferSize then
    let vCoords := realloc self._vCoords (quads * 4) ⟨0, 0, 0⟩
    let index := realloc self._index (quads * 6) 0
    { self with
      _vCoords := vCoords
      _index := indexLoop index self._bufferSize quads
      _bufferSize := quads
      _updateIndex := true }
  else self

/-- Method `show(U *r)`: `std::set::insert`, then the count update and the
capacity check when the address was new. -/
def show_ (heap : Heap) (self : QuadRendererBase) (r : Nat) : QuadRendererBase :=
  if r ∈ self._drawItems then self
  else
    let s1 := { self with _drawItems := List.orderedInsert (· ≤ ·) r self._drawItems }
    let s2 := { s1 with _count := wrap16 (s1._count + (heap r).getQuadCount) }
    s2.ensureCapacity s2._count

/-- Method `hide(U *r)`: `std::set::erase` returns the number of erased
entries, which is 1 exactly when the address was present. -/
def hide (heap : Heap) (self : QuadRendererBase) (r : Nat) : QuadRendererBase :=
  if r ∈ self._drawItems then
    { self with
      _drawItems := self._drawItems.filter (· ≠ r)
      _count := sub16 self._count (heap r).getQuadCount }
  else self

/-- Hook `renderItem(iter, offset)` of the subclasses, position part:
`(*iter)->render(&_vCoords[4*offset], .., offset, false)`. -/
def renderItem (heap : Heap) (vCoords : List i16vec3) (r : Nat) (offset : Nat) :
    Option (Bool × List i16vec3 × iQuadRenderable) :=
  (heap r).render vCoords (4 * offset) offset false

/-- The loop of `render()` over the rest `items` of the set. -/
def renderLoop : List Nat → Heap → List i16vec3 → Nat → Bool →
    Option (Heap × List i16vec3 × Bool)
  | [], heap, vCoords, _, updateVBO => some (heap, vCoords, updateVBO)
  | r :: items, heap, vCoords, offset, updateVBO =>
    match renderItem heap vCoords r offset with
    | none => none
    | some (changed, vCoords1, e1) =>
      renderLoop items (Function.update heap r e1) vCoords1
        (wrap16 (offset + (heap r).getQuadCount)) (changed || updateVBO)

/-- Method `render()`: the CPU-side effect (the uploads and the draw call
change no member). -/
def render (heap : Heap) (self : QuadRendererBase) : Option (Heap × QuadRendererBase) :=
  match renderLoop self._drawItems heap self._vCoords 0 false with
  | none => none
  | some (heap1, vCoords1, _) => some (heap1, { self with _vCoords := vCoords1 })

/-- What the position mirror should hold for the items `items` starting at
quad offset `offset`: each item has its `4 * N` vertices at index
`4 * offset`, the next item follows after its quads. -/
def mirrorHolds (heap : Heap) (vCoords : List i16vec3) : List Nat → Nat → Bool
  | [], _ => true
  | r :: items, offset =>
    decide (((vCoords.drop (4 * offset)).take ((heap r)._count * 4)) = (heap r)._vCoords)
      && mirrorHolds heap vCoords items (offset + (heap r)._count)

/-- Calls a client can make on a batch renderer. -/
inductive Call where
  | show_ (r : Nat)
  | hide (r : Nat)
  | ensureCapacity (quads : Nat)
deriving DecidableEq, Repr

/-- One call. -/
def step (heap : Heap) (s : QuadRendererBase) : Call → QuadRendererBase
  | .show_ r => s.show_ heap r
  | .hide r => s.hide heap r
  | .ensureCapacity q => s.ensureCapacity q

/-- A sequence of calls. -/
def run (heap : Heap) (s : QuadRendererBase) (cs : List Call) : QuadRendererBase :=
  cs.foldl (step heap) s

end QuadRendererBase

/-! ## Predicates used in the statements about `QuadRendererBase` -/

namespace QuadRendererBase

/-- The six index entries of quad `i` hold the stored (16-bit) values. -/
def QuadIndexed (index : List Nat) (i : Nat) : Prop :=
  index[6 * i]? = some (wrap16 (4 * i)) ∧
  index[6 * i + 1]? = some (wrap16 (4 * i + 2)) ∧
  index[6 * i + 2]? = some (wrap16 (4 * i + 3)) ∧
  index[6 * i + 3]? = some (wrap16 (4 * i)) ∧
  index[6 * i + 4]? = some (wrap16 (4 * i + 1)) ∧
  index[6 * i + 5]? = some (wrap16 (4 * i + 2))

/-- Invariant of the index mirror: it holds six entries per quad of
capacity, each quad indexed as written by `ensureCapacity`. -/
def IndexInv (s : QuadRendererBase) : Prop :=
  s._index.length = 6 * s._bufferSize ∧ ∀ i, i < s._bufferSize → QuadIndexed s._index i

/-- The true number of quads of the items in the visible set. -/
def visibleQuads (heap : Heap) (items : List Nat) : Nat :=
  (items.map fun r => (heap r).getQuadCount).sum

/-- No `show` of the call sequence, run from `s`, takes the true number of
visible quads beyond what a `uint16_t` holds. -/
def NoWrap (heap : Heap) : QuadRendererBase → List Call → Bool
  | _, [] => true
  | s, c :: cs =>
    (match c with
      | .show_ r => decide (r ∈ s._drawItems) ||
          decide (visibleQuads heap s._drawItems + (heap r).getQuadCount < 65536)
      | _ => true) && NoWrap heap (step heap s c) cs

/-- Invariant linking `_count` to the visible set while nothing wrapped. -/
def CountInv (heap : Heap) (s : QuadRendererBase) : Prop :=
  s._count = visibleQuads heap s._drawItems ∧ s._count ≤ s._bufferSize ∧
  s._bufferSize < 65536 ∧ s._drawItems.Nodup

/-- Example heap: address 1 holds a 1-quad element, every other address a
65535-quad element. -/
def heapWide : Heap := fun a =>
  if a = 1 then iQuadRenderable.new 1 else iQuadRenderable.new 65535

/-- Example heap: every address holds a 40000-quad element. -/
def heapBig : Heap := fun _ => iQuadRenderable.new 40000

/-- Example heap: two one-quad elements with different corners, the one at
address 1 at `(10,10)..(15,15)`, the others at `(20,20)..(25,25)`. -/
def heapTwo : Heap := fun a =>
  if a = 1 then (iQuadRenderable.new 1).setQuadXY 0 10 10 5 5
  else (iQuadRenderable.new 1).setQuadXY 0 20 20 5 5

/-- The history `show(1); show(2); render(); hide(1); render(); show(1);
render()` on `heapTwo`, from a new renderer. -/
def hideShowTrace : Option (Heap × QuadRendererBase) :=
  let s := (QuadRendererBase.new.show_ heapTwo 1).show_ heapTwo 2
  (render heapTwo s).bind fun (h1, s1) =>
  (render h1 (s1.hide h1 1)).bind fun (h2, s2) =>
  render h2 (s2.show_ h2 1)

end QuadRendererBase

/-! ## binary32 (`float`) arithmetic

The value of a `float` operation on finite operands is the exact value
rounded to the nearest binary32 number, ties to the even significand, and
an infinity when the rounded magnitude reaches `2 ^ 128`. -/

/-- A `float` as produced by an operation on finite operands: a finite value
or an infinity. -/
inductive Float32 where
  | finite (q : ℚ)
  | infinity (negative : Bool)
deriving DecidableEq, Repr

namespace Float32

/-- Search for the binade of the magnitude `a`, upwards from exponent `e`:
the first exponent with `a < 2 ^ (e + 1)`. -/
def expSearch (a : ℚ) : Nat → Int → Int
  | 0, e => e
  | fuel + 1, e => if a < 2 ^ (e + 1) then e else expSearch a fuel (e + 1)

/-- Exponent of the binade of `v`: `-126` for zero, the subnormals and the
smallest normal binade, up to `127` for the largest finite binade, `128`
beyond. -/
def expOf (v : ℚ) : Int := expSearch |v| 254 (-126)

/-- Spacing of the binary32 numbers in the binade of `v` (24-bit
significand). -/
def ulp (v : ℚ) : ℚ := 2 ^ (expOf v - 23)

/-- Nearest integer, ties to even. -/
def roundHalfEven (q : ℚ) : Int :=
  if q - ⌊q⌋ < 1 / 2 then ⌊q⌋
  else if 1 / 2 < q - ⌊q⌋ then ⌊q⌋ + 1
  else if ⌊q⌋ % 2 = 0 then ⌊q⌋ else ⌊q⌋ + 1

/-- The exact value `v` rounded to the binary32 grid (the exponent range
unbounded above). -/
def round (v : ℚ) : ℚ := (roundHalfEven (v / ulp v) : ℚ) * ulp v

/-- The `float` result of an operation whose exact value is `v`. -/
def ofRat (v : ℚ) : Float32 :=
  if (2 : ℚ) ^ 128 ≤ |round v| then infinity (decide (v < 0)) else finite (round v)

/-- Sum `a + b` of two finite floats. -/
def add (a b : ℚ) : Float32 := ofRat (a + b)

/-- Quotient `s / 2`. -/
def half : Float32 → Float32
  | finite q => ofRat (q / 2)
  | infinity negative => infinity negative

/-- Whether the value is finite. -/
def isFinite : Float32 → Bool
  | finite _ => true
  | infinity _ => false

/-- Comparison `a <= b`. -/
def le : Float32 → Float32 → Bool
  | finite a, finite b => decide (a ≤ b)
  | finite _, infinity negative => !negative
  | infinity negative, finite _ => negative
  | infinity n, infinity m => n || !m

/-- A rational that is a finite binary32 number. -/
def Representable (r : ℚ) : Prop := |r| < 2 ^ 128 ∧ round r = r

instance (r : ℚ) : Decidable (Representable r) := by
  unfold Representable; infer_instance

end Float32

/-! ## iMBR -/

/-- State of an `iMBR`: its `_bounds` vector, by the index constants
`MIN_X = 0`, `MAX_X = 1`, `MIN_Y = 2`, `MAX_Y = 3`. -/
structure iMBR where
  MIN_X : ℚ
  MAX_X : ℚ
  MIN_Y : ℚ
  MAX_Y : ℚ
deriving DecidableEq, Repr

namespace iMBR

/-- Method `contains(float x, float y)`. -/
def contains (self : iMBR) (x y : ℚ) : Bool :=
  (decide (x ≥ self.MIN_X) && decide (x ≤ self.MAX_X)) &&
    (decide (y ≥ self.MIN_Y) && decide (y ≤ self.MAX_Y))

/-- Method `overlaps(const iMBR& other)`. -/
def overlaps (self other : iMBR) : Bool :=
  let leftFail := decide (other.MAX_X < self.MIN_X)
  let rightFail := decide (other.MIN_X > self.MAX_X)
  let botFail := decide (other.MAX_Y < self.MIN_Y)
  let topFail := decide (other.MIN_Y > self.MAX_Y)
  !(leftFail || rightFail || botFail || topFail)

/-- A well-formed rectangle: `min <= max` on both axes. -/
def WF (self : iMBR) : Prop := self.MIN_X ≤ self.MAX_X ∧ self.MIN_Y ≤ self.MAX_Y

instance (self : iMBR) : Decidable self.WF := by
  unfold WF; infer_instance

/-- Center point of a rectangle, x coordinate. -/
def centerX (self : iMBR) : ℚ := (self.MIN_X + self.MAX_X) / 2

/-- Center point of a rectangle, y coordinate. -/
def centerY (self : iMBR) : ℚ := (self.MIN_Y + self.MAX_Y) / 2

end iMBR

/-! ## QuadTree -/

/-- A `QuadTree<T>` node with everything it owns. `leaf` is the mode
`_useImmediate == true`, `node` the mode with four children (whose
`_immediates` list is empty: `insert` clears it when it subdivides and
nothing fills it while the children exist). Stored items are the addresses
of the `T` objects. The `_parent` pointer is the position in the tree. -/
inductive QuadTree where
  | leaf (_bounds : iMBR) (_depth : Int) (_immediates : List Nat)
  | node (_bounds : iMBR) (_depth : Int) (c0 c1 c2 c3 : QuadTree)
deriving DecidableEq, Repr

namespace QuadTree

/-- Constant `MAX_DEPTH`. -/
def MAX_DEPTH : Int := 10

/-- Constructor `QuadTree(bounds, parent, depth)`: a leaf without items. -/
def new (bounds : iMBR) (depth : Int) : QuadTree := .leaf bounds depth []

/-- Member `_bounds` (accessor `getMBR()`). -/
def getMBR : QuadTree → iMBR
  | .leaf b _ _ => b
  | .node b _ _ _ _ _ => b

/-- Method `empty()`. -/
def empty : QuadTree → Bool
  | .leaf _ _ imm => imm.length == 0
  | .node _ _ c0 c1 c2 c3 => c0.empty && c1.empty && c2.empty && c3.empty

/-- Bounds given to `_children[0]` by `divide()`: the bottom-left quadrant,
with the exact midpoints. `divide32` has the midpoints as the `float`
operations give them. -/
def bounds0 (b : iMBR) : iMBR :=
  { MIN_X := b.MIN_X, MAX_X := (b.MIN_X + b.MAX_X) / 2,
    MIN_Y := b.MIN_Y, MAX_Y := (b.MIN_Y + b.MAX_Y) / 2 }

/-- Bounds given to `_children[1]` by `divide()`: the bottom-right quadrant. -/
def bounds1 (b : iMBR) : iMBR :=
  { MIN_X := (bounds0 b).MAX_X, MAX_X := b.MAX_X,
    MIN_Y := (bounds0 b).MIN_Y, MAX_Y := (bounds0 b).MAX_Y }

/-- Bounds given to `_children[2]` by `divide()`: the top-right quadrant. -/
def bounds2 (b : iMBR) : iMBR :=
  { MIN_X := (bounds1 b).MIN_X, MAX_X := (bounds1 b).MAX_X,
    MIN_Y := (bounds1 b).MAX_Y, MAX_Y := b.MAX_Y }

/-- Bounds given to `_children[3]` by `divide()`: the top-left quadrant. -/
def bounds3 (b : iMBR) : iMBR :=
  { MIN_X := b.MIN_X, MAX_X := (bounds2 b).MIN_X,
    MIN_Y := (bounds2 b).MIN_Y, MAX_Y := (bounds2 b).MAX_Y }

/-- Method `divide()` on a node with bounds `b` and depth `d`, after
`_useImmediate = false`: the node with its four new children. -/
def divide (b : iMBR) (d : Int) : QuadTree :=
  .node b d (new (bounds0 b) (d + 1)) (new (bounds1 b) (d + 1))
    (new (bounds2 b) (d + 1)) (new (bounds3 b) (d + 1))

/-- Method `insert(T *node)` with a bound `fuel` on the nesting of calls.
`mbr` gives the bounding rectangle of the object at an address. In the
subdividing branch the old `_immediates` are re-inserted into the node in
its new mode, the list is dropped, and the new item is inserted. -/
def insertFuel (mbr : Nat → iMBR) : Nat → QuadTree → Nat → QuadTree
  | 0, t, _ => t
  | fuel + 1, t, item =>
    if !(t.getMBR.overlaps (mbr item)) then t
    else
      match t with
      | .leaf b d imm =>
        if d < MAX_DEPTH ∧ imm.length = 4 then
          insertFuel mbr fuel (imm.foldl (insertFuel mbr fuel) (divide b d)) item
        else .leaf b d (imm ++ [item])
      | .node b d c0 c1 c2 c3 =>
        .node b d (insertFuel mbr fuel c0 item) (insertFuel mbr fuel c1 item)
          (insertFuel mbr fuel c2 item) (insertFuel mbr fuel c3 item)

/-- Nesting of `insert` calls that a tree can cause: a leaf at depth `d`
can subdivide `MAX_DEPTH - d` times in a row, each costing two calls. -/
def need : QuadTree → Nat
  | .leaf _ d _ => 2 * (MAX_DEPTH - d).toNat + 1
  | .node _ _ c0 c1 c2 c3 => 1 + max (max c0.need c1.need) (max c2.need c3.need)

/-- Method `insert(T *node)`. -/
def insert (mbr : Nat → iMBR) (t : QuadTree) (item : Nat) : QuadTree :=
  insertFuel mbr t.need t item

/-- Method `undivide()` as run by a node on itself: an empty node with
children deletes them and goes back to leaf mode. -/
def undivide : QuadTree → QuadTree
  | .leaf b d imm => .leaf b d imm
  | .node b d c0 c1 c2 c3 =>
    if (QuadTree.node b d c0 c1 c2 c3).empty then .leaf b d []
    else .node b d c0 c1 c2 c3

/-- Method `remove(T *node)`, for the calls that use no deleted object: the
tree they leave. The closing `undivide()` of each node is also what the
upward call `_parent->undivide()` of an emptied child amounts to: every
ancestor of a visited node is itself inside `remove`, and a node that is
empty when a child reports is still empty when its own loop ends. In C++
the upward call deletes the children of a node whose loop may still be
running; a call whose loop goes on to a deleted child has undefined
behaviour and no resulting tree. `QuadTreeHeap.remove` tells these calls
apart. -/
def remove (mbr : Nat → iMBR) : QuadTree → Nat → QuadTree
  | .leaf b d imm, item =>
    if !(b.overlaps (mbr item)) then .leaf b d imm
    else undivide (.leaf b d (imm.filter (· ≠ item)))
  | .node b d c0 c1 c2 c3, item =>
    if !(b.overlaps (mbr item)) then .node b d c0 c1 c2 c3
    else undivide (.node b d (remove mbr c0 item) (remove mbr c1 item)
      (remove mbr c2 item) (remove mbr c3 item))

/-- The leaf loop of `locate`: `found` and `results` after the scan. -/
def locateScan (mbr : Nat → iMBR) (x y : ℚ) : List Nat → Int → List Nat → Int × List Nat
  | [], found, results => (found, results)
  | item :: rest, found, results =>
    if (mbr item).contains x y then locateScan mbr x y rest (found + 1) (results ++ [item])
    else locateScan mbr x y rest found results

/-- Method `locate(float x, float y, std::vector<T*>& results)`: the
returned count and the vector afterwards. -/
def locate (mbr : Nat → iMBR) : QuadTree → ℚ → ℚ → List Nat → Int × List Nat
  | .leaf b _ imm, x, y, results =>
    if !(b.contains x y) then (0, results)
    else locateScan mbr x y imm 0 results
  | .node b _ c0 c1 c2 c3, x, y, results =>
    if !(b.contains x y) then (0, results)
    else
      let r0 := locate mbr c0 x y results
      let r1 := locate mbr c1 x y r0.2
      let r2 := locate mbr c2 x y r1.2
      let r3 := locate mbr c3 x y r2.2
      (0 + r0.1 + r1.1 + r2.1 + r3.1, r3.2)

/-- Calls a client can make that change the tree. -/
inductive Call where
  | insert (item : Nat)
  | remove (item : Nat)
deriving DecidableEq, Repr

/-- The item a call is about. -/
def Call.item : Call → Nat
  | .insert item => item
  | .remove item => item

/-- One call on the root. -/
def step (mbr : Nat → iMBR) (t : QuadTree) : Call → QuadTree
  | .insert item => t.insert mbr item
  | .remove item => t.remove mbr item

/-- A sequence of calls on the root. -/
def run (mbr : Nat → iMBR) (t : QuadTree) (cs : List Call) : QuadTree :=
  cs.foldl (step mbr) t

/-- The items currently inserted after a sequence of calls: `insert` adds
one occurrence, `remove` takes every occurrence of the item away. -/
def inserted : List Nat → List Call → List Nat
  | s, [] => s
  | s, .insert item :: cs => inserted (item :: s) cs
  | s, .remove item :: cs => inserted (s.filter (· ≠ item)) cs

/-- The leaves of a tree: rectangle and local list of each. -/
def leaves : QuadTree → List (iMBR × List Nat)
  | .leaf b _ imm => [(b, imm)]
  | .node _ _ c0 c1 c2 c3 => c0.leaves ++ c1.leaves ++ c2.leaves ++ c3.leaves

/-- Example rectangles: item 0 is the square around the origin, items 1 to 4
are squares inside the four quadrants, every other item a square far away. -/
def mbrFive : Nat → iMBR := fun a =>
  if a = 0 then ⟨-1/4, 1/4, -1/4, 1/4⟩
  else if a = 1 then ⟨1/2, 3/4, 1/2, 3/4⟩
  else if a = 2 then ⟨-3/4, -1/2, 1/2, 3/4⟩
  else if a = 3 then ⟨-3/4, -1/2, -3/4, -1/2⟩
  else if a = 4 then ⟨1/2, 3/4, -3/4, -1/2⟩
  else ⟨5, 6, 5, 6⟩

/-- The root of the mouse-handler tree: the screen rectangle, depth 1. -/
def screenRoot : QuadTree := new ⟨-1, 1, -1, 1⟩ 1

/-- What `locate` appends to `results`. -/
def hits (mbr : Nat → iMBR) : QuadTree → ℚ → ℚ → List Nat
  | .leaf b _ imm, x, y =>
    if b.contains x y then imm.filter (fun item => (mbr item).contains x y) else []
  | .node b _ c0 c1 c2 c3, x, y =>
    if b.contains x y then
      hits mbr c0 x y ++ hits mbr c1 x y ++ hits mbr c2 x y ++ hits mbr c3 x y
    else []

/-- Invariant of a tree against the list `s` of inserted items: every
rectangle is well formed, the children of a node have the quadrants of its
rectangle, and a leaf holds an item as often as `s` does if the item's
rectangle overlaps the leaf's, and not at all otherwise. -/
def Good (mbr : Nat → iMBR) (s : List Nat) : QuadTree → Prop
  | .leaf b _ imm =>
    b.WF ∧ ∀ e, imm.count e = if b.overlaps (mbr e) then s.count e else 0
  | .node b _ c0 c1 c2 c3 =>
    b.WF ∧ c0.getMBR = bounds0 b ∧ c1.getMBR = bounds1 b ∧ c2.getMBR = bounds2 b ∧
    c3.getMBR = bounds3 b ∧ Good mbr s c0 ∧ Good mbr s c1 ∧ Good mbr s c2 ∧ Good mbr s c3

/-- Number of leaves whose rectangle contains the point. -/
def leavesAt (t : QuadTree) (x y : ℚ) : Nat :=
  (t.leaves.filter (fun lf => lf.1.contains x y)).length

end QuadTree

/-! ## iQuadRenderable: `setQuadsZ` and the float overload of `setQuadXY` -/

namespace iQuadRenderable

/-- Loop `for (i = 0; i < _count*4; ++i) _vCoords[i].z = z` of `setQuadsZ`,
from the value `i` of the `uint16_t` counter (the bound `_count*4` is an
`int`). `fuel` bounds the number of loop tests; `none` when it runs out. -/
def setQuadsZLoop (count : Nat) (z : Int) : Nat → Nat → List i16vec3 → Option (List i16vec3)
  | 0, _, _ => none
  | fuel + 1, i, v =>
    if i < count * 4 then setQuadsZLoop count z fuel (wrap16 (i + 1)) (storeZ v i z)
    else some v

/-- Method `setQuadsZ(GLshort z)` with a bound on the loop tests. It stores
the z values and nothing else: `_modified` is not touched. -/
def setQuadsZ (fuel : Nat) (self : iQuadRenderable) (z : Int) : Option iQuadRenderable :=
  match setQuadsZLoop self._count z fuel 0 self._vCoords with
  | some v => some { self with _vCoords := v }
  | none => none

/-- Constant `SHRT_MAX`. -/
def SHRT_MAX : Int := 32767

/-- Function `glm::clamp(x, minVal, maxVal)`: `min(max(x, minVal), maxVal)`. -/
def clamp (x minVal maxVal : ℚ) : ℚ := min (max x minVal) maxVal

/-- Conversion `static_cast<GLshort>(float)`: the fraction is dropped
(rounding toward zero). -/
def castShort (x : ℚ) : Int := toShort (x.num.tdiv x.den)

/-- Expression `static_cast<GLshort>(glm::clamp(x, -1.0f, 1.0f)*SHRT_MAX)`
of the float overload of `setQuadXY`: the clamp, the `float` product with
`32767.0f` (the exact product rounded to binary32; its magnitude is at most
32767, so it is finite), and the conversion. -/
def scaleShort (x : ℚ) : Int := castShort (Float32.round (clamp x (-1) 1 * (SHRT_MAX : ℚ)))

/-- Overload `setQuadXY(uint16_t quad, float x, float y, float w, float h)`. -/
def setQuadXYf (self : iQuadRenderable) (quad : Nat) (x y w h : ℚ) : iQuadRenderable :=
  let sx := scaleShort x
  let sy := scaleShort y
  let sw := scaleShort w
  let sh := scaleShort h
  self.setQuadXY quad sx sy sw sh

/-- Element `_vCoords[i]` (zero outside the block). -/
def corner (self : iQuadRenderable) (i : Nat) : i16vec3 := self._vCoords.getD i ⟨0, 0, 0⟩

/-- The vertex block `v'` differs from `v` at most in the x and y of the
four corners `lo .. lo+3`. -/
def XYFrame (lo : Nat) (v v' : List i16vec3) : Prop :=
  ∀ j, (v'[j]?).map (fun c => c.z) = (v[j]?).map (fun c => c.z) ∧
    (¬(lo ≤ j ∧ j < lo + 4) → v'[j]? = v[j]?)

/-- One quad rendered at offset 0 into a four-vertex array, then
`setQuadsZ(5)`, then rendered at offset 0 again: the flag returned by the
second render, the array after it, and the element's own vertices. -/
def depthThenRender : Option (Bool × List i16vec3 × List i16vec3) :=
  ((iQuadRenderable.new 1).render (calloc 4) 0 0 false).bind fun r1 =>
  (setQuadsZ 8 r1.2.2 5).bind fun e2 =>
  (e2.render r1.2.1 0 0 false).map fun r2 => (r2.1, r2.2.1, e2._vCoords)

end iQuadRenderable

/-! ## iTexturedQuadRenderable and TexturedQuadRenderer::drawElements -/

/-- State of an `iTexturedQuadRenderable`: the `iQuadRenderable` part and
the texture handle of each quad (`_tId`). The block `_tCoords` is not read
by `drawElements` and is left out. -/
structure iTexturedQuadRenderable where
  toQuad : iQuadRenderable
  _tId : List Nat
deriving DecidableEq, Repr

namespace iTexturedQuadRenderable

/-- Accessor `getQuadCount()` of the base class. -/
def getQuadCount (self : iTexturedQuadRenderable) : Nat := self.toQuad.getQuadCount

/-- Accessor `getTextureId(uint16_t quad)`: `_tId[quad]` (0 outside the
block). -/
def getTextureId (self : iTexturedQuadRenderable) (quad : Nat) : Nat :=
  self._tId.getD (wrap16 quad) 0

end iTexturedQuadRenderable

/-- An OpenGL call made by `drawElements`. `glDrawElements` carries its
index count and the byte offset passed as the `indices` pointer. -/
inductive GLCall where
  | glActiveTexture
  | glUniform1i
  | glBindTexture (texture : Nat)
  | glDrawElements (count : Nat) (indices : Nat)
deriving DecidableEq, Repr

namespace TexturedQuadRenderer

/-- Locals of `drawElements` and the calls made so far. -/
structure DrawState where
  lastTextureId : Nat
  offset : Nat
  calls : List GLCall
deriving DecidableEq, Repr

/-- Body of the inner loop of `drawElements` for the texture handle `t` of
the current quad (`sizeof(GLushort)` is 2). -/
def drawQuad (st : DrawState) (t : Nat) : DrawState :=
  let st1 : DrawState :=
    if st.lastTextureId != t then
      { st with lastTextureId := t, calls := st.calls ++ [GLCall.glBindTexture t] }
    else st
  { st1 with
    calls := st1.calls ++ [GLCall.glDrawElements 6 (st1.offset * 6 * 2)]
    offset := wrap16 (st1.offset + 1) }

/-- Inner loop of `drawElements` over the quads of one item. -/
def drawItem (heap : Nat → iTexturedQuadRenderable) (st : DrawState) (r : Nat) : DrawState :=
  (List.range (heap r).getQuadCount).foldl
    (fun st currentQuad => drawQuad st ((heap r).getTextureId currentQuad)) st

/-- Method `drawElements()`: the OpenGL calls it makes, in order. -/
def drawElements (heap : Nat → iTexturedQuadRenderable) (self : QuadRendererBase) :
    List GLCall :=
  (self._drawItems.foldl (drawItem heap)
    { lastTextureId := 0, offset := 0,
      calls := [GLCall.glActiveTexture, GLCall.glUniform1i] }).calls

/-- The texture handles of the visible quads in iteration order. -/
def handles (heap : Nat → iTexturedQuadRenderable) (items : List Nat) : List Nat :=
  (items.map fun r =>
    (List.range (heap r).getQuadCount).map fun q => (heap r).getTextureId q).flatten

/-- Number of maximal contiguous runs of equal handles. -/
def runs : List Nat → Nat
  | [] => 0
  | [_] => 1
  | a :: b :: l => (if a = b then 0 else 1) + runs (b :: l)

/-- The handles that differ from the one before them, `last` standing
before the first. -/
def changes : Nat → List Nat → List Nat
  | _, [] => []
  | last, t :: l => (if last = t then [] else [t]) ++ changes t l

/-- The draw calls among a list of calls. -/
def drawCalls (calls : List GLCall) : List GLCall :=
  calls.filter fun c => match c with
    | .glDrawElements _ _ => true
    | _ => false

/-- The textures bound by a list of calls. -/
def boundTextures : List GLCall → List Nat
  | [] => []
  | .glBindTexture t :: l => t :: boundTextures l
  | _ :: l => boundTextures l

/-- One draw call of six indices per quad, for `n` quads, the first at
quad offset `offset`. -/
def quadDraws : Nat → Nat → List GLCall
  | _, 0 => []
  | offset, n + 1 => GLCall.glDrawElements 6 (offset * 6 * 2) :: quadDraws (wrap16 (offset + 1)) n

/-- Example heap: every address holds a two-quad element whose quads both
use texture 7. -/
def heapSameTexture : Nat → iTexturedQuadRenderable := fun _ =>
  { toQuad := iQuadRenderable.new 2, _tId := [7, 7] }

end TexturedQuadRenderer

/-! ## Manager: mouse button events -/

namespace Manager

/-- The `while` loop of `mousePressed` / `mouseReleased` over the located
handlers. `callback h` is the virtual call on handler `h` (it may change
the program state `s`); the last component records the calls made, each
with the value it returned. -/
def callHandlers {σ : Type} (callback : Nat → σ → Bool × σ) :
    List Nat → σ → List (Nat × Bool) → Bool × σ × List (Nat × Bool)
  | [], s, called => (true, s, called)
  | h :: rest, s, called =>
    if !(callback h s).1 then (false, (callback h s).2, called ++ [(h, (callback h s).1)])
    else callHandlers callback rest (callback h s).2 (called ++ [(h, (callback h s).1)])

/-- Method `Manager::mousePressed`: `(mpx, mpy)` is the cursor position,
`handlerMousePressed h x y id` the call `h->mousePressed(x, y, id)`. -/
def mousePressed {σ : Type} (mbr : Nat → iMBR) (_mouseHandlers : QuadTree)
    (handlerMousePressed : Nat → ℚ → ℚ → Nat → σ → Bool × σ) (mpx mpy : ℚ) (id : Nat)
    (s : σ) : Bool × σ × List (Nat × Bool) :=
  let x := 2 * (mpx - 1 / 2)
  let y := 2 * (1 / 2 - mpy)
  let found := QuadTree.locate mbr _mouseHandlers x y []
  if found.1 = 0 then (false, s, [])
  else callHandlers (fun h => handlerMousePressed h x y id) found.2 s []

/-- Method `Manager::mouseReleased`: as `mousePressed`, with the call
`h->mouseReleased(x, y, id)`. -/
def mouseReleased {σ : Type} (mbr : Nat → iMBR) (_mouseHandlers : QuadTree)
    (handlerMouseReleased : Nat → ℚ → ℚ → Nat → σ → Bool × σ) (mpx mpy : ℚ) (id : Nat)
    (s : σ) : Bool × σ × List (Nat × Bool) :=
  let x := 2 * (mpx - 1 / 2)
  let y := 2 * (1 / 2 - mpy)
  let found := QuadTree.locate mbr _mouseHandlers x y []
  if found.1 = 0 then (false, s, [])
  else callHandlers (fun h => handlerMouseReleased h x y id) found.2 s []

/-- The handlers `locate` returns for a cursor position. -/
def located (mbr : Nat → iMBR) (_mouseHandlers : QuadTree) (mpx mpy : ℚ) : List Nat :=
  (QuadTree.locate mbr _mouseHandlers (2 * (mpx - 1 / 2)) (2 * (1 / 2 - mpy)) []).2

/-- What the dispatch loop must have done on the handlers `hs`: either it
called a first part of them, all but the last returning true and the last
false, and returned false; or it called every one, each returning true,
and returned true. -/
def Dispatched (hs : List Nat) (result : Bool) (called : List (Nat × Bool)) : Prop :=
  (∃ before h after, hs = before ++ h :: after ∧
      called = before.map (fun a => (a, true)) ++ [(h, false)] ∧ result = false) ∨
  (called = hs.map (fun a => (a, true)) ∧ result = true)

end Manager

/-! ## QuadTree: further accessors and predicates -/

namespace QuadTree

/-- Member `_depth`. -/
def getDepth : QuadTree → Int
  | .leaf _ d _ => d
  | .node _ d _ _ _ _ => d

/-- Member `_useImmediate`. -/
def isLeaf : QuadTree → Bool
  | .leaf _ _ _ => true
  | .node _ _ _ _ _ _ => false

/-- Every node with children holds at least one item. -/
def Full : QuadTree → Prop
  | .leaf _ _ _ => True
  | .node b d c0 c1 c2 c3 =>
    (QuadTree.node b d c0 c1 c2 c3).empty = false ∧ Full c0 ∧ Full c1 ∧ Full c2 ∧ Full c3

/-- The rectangles of the leaves whose local list holds the item. -/
def holders (t : QuadTree) (item : Nat) : List iMBR :=
  (t.leaves.filter fun lf => decide (item ∈ lf.2)).map fun lf => lf.1

end QuadTree

/-! ## QuadRendererBase: the slices written by `render()` -/

namespace QuadRendererBase

/-- The slices of the position mirror that the loop of `render()` hands to
the items `items`, the running offset being `offset`: for each item the
index of its first vertex (`&_vCoords[4*offset]`) and the number of
vertices its `render` copies (`_count*4`). -/
def slices (heap : Heap) : List Nat → Nat → List (Nat × Nat)
  | [], _ => []
  | r :: items, offset =>
    (4 * offset, (heap r)._count * 4) ::
      slices heap items (wrap16 (offset + (heap r).getQuadCount))

/-- Invariant linking `_count` to the visible set in 16-bit arithmetic. -/
def ModInv (heap : Heap) (s : QuadRendererBase) : Prop :=
  s._count = visibleQuads heap s._drawItems % 65536 ∧ s._drawItems.Nodup

end QuadRendererBase

/-! ## TexturedQuadRenderer: the texture bound at each draw call -/

namespace iTexturedQuadRenderable

/-- Constructor `iTexturedQuadRenderable(uint16_t quads)`: the handles come
from `calloc`, so every quad starts with handle 0. -/
def new (quads : Nat) : iTexturedQuadRenderable :=
  { toQuad := iQuadRenderable.new quads
    _tId := List.replicate (iQuadRenderable.new quads)._count 0 }

/-- Method `setTextureId(uint16_t quad, GLuint tId)` (no effect outside the
block). -/
def setTextureId (self : iTexturedQuadRenderable) (quad : Nat) (tId : Nat) :
    iTexturedQuadRenderable :=
  { self with _tId := self._tId.set (wrap16 quad) tId }

end iTexturedQuadRenderable

namespace TexturedQuadRenderer

/-- The texture bound to `GL_TEXTURE_2D` when each draw call of `calls` is
issued, `bound` being the texture bound before the first call. -/
def texturesDrawn : Nat → List GLCall → List Nat
  | _, [] => []
  | _, .glBindTexture t :: l => texturesDrawn t l
  | bound, .glDrawElements _ _ :: l => bound :: texturesDrawn bound l
  | bound, _ :: l => texturesDrawn bound l

/-- The texture left bound by `calls`. -/
def boundAfter : Nat → List GLCall → Nat
  | bound, [] => bound
  | _, .glBindTexture t :: l => boundAfter t l
  | bound, _ :: l => boundAfter bound l

/-- Example heap: address 1 holds a one-quad element whose handle was never
set (it is 0), every other address a one-quad element with texture 7. -/
def heapUnset : Nat → iTexturedQuadRenderable := fun a =>
  if a = 1 then iTexturedQuadRenderable.new 1
  else (iTexturedQuadRenderable.new 1).setTextureId 0 7

end TexturedQuadRenderer

/-! ## QuadTree: nodes, depths and the nesting of `insert` -/

namespace QuadTree

/-- The nodes `_children[0..3]` of a node with children (none in leaf
mode). -/
def children : QuadTree → List QuadTree
  | .leaf _ _ _ => []
  | .node _ _ c0 c1 c2 c3 => [c0, c1, c2, c3]

/-- Every node of a tree: the node itself and the nodes below it. -/
def subtrees : QuadTree → List QuadTree
  | .leaf b d imm => [.leaf b d imm]
  | .node b d c0 c1 c2 c3 =>
    .node b d c0 c1 c2 c3 :: (c0.subtrees ++ c1.subtrees ++ c2.subtrees ++ c3.subtrees)

/-- Depth invariant: no depth is below `lo`, a node with children has a
depth below `MAX_DEPTH`, and its children have its depth plus one. -/
def Depths (lo : Int) : QuadTree → Prop
  | .leaf _ d _ => lo ≤ d
  | .node _ d c0 c1 c2 c3 =>
    lo ≤ d ∧ d < MAX_DEPTH ∧
    c0.getDepth = d + 1 ∧ c1.getDepth = d + 1 ∧ c2.getDepth = d + 1 ∧ c3.getDepth = d + 1 ∧
    Depths lo c0 ∧ Depths lo c1 ∧ Depths lo c2 ∧ Depths lo c3

/-- Size invariant: a leaf whose depth is below `MAX_DEPTH` holds at most
four entries. -/
def Small : QuadTree → Prop
  | .leaf _ d imm => d < MAX_DEPTH → imm.length ≤ 4
  | .node _ _ c0 c1 c2 c3 => Small c0 ∧ Small c1 ∧ Small c2 ∧ Small c3

/-- Method `insert(T *node)` with the nesting of calls made explicit:
`none` when the calls nest deeper than `fuel`, otherwise the tree
afterwards and the number of levels below the node that the calls reached
(0 when the call returns without calling a child). In the subdividing
branch the calls `insert(*iter)` and `insert(node)` run on the node itself,
which then forwards to its new children. -/
def insertTrace (mbr : Nat → iMBR) : Nat → QuadTree → Nat → Option (QuadTree × Nat)
  | 0, _, _ => none
  | fuel + 1, t, item =>
    if !(t.getMBR.overlaps (mbr item)) then some (t, 0)
    else
      match t with
      | .leaf b d imm =>
        if d < MAX_DEPTH ∧ imm.length = 4 then
          (imm.foldlM (fun (acc : QuadTree × Nat) x =>
              (insertTrace mbr fuel acc.1 x).map fun r => (r.1, max acc.2 r.2))
            (divide b d, 0)).bind fun acc =>
          (insertTrace mbr fuel acc.1 item).map fun r => (r.1, max acc.2 r.2)
        else some (.leaf b d (imm ++ [item]), 0)
      | .node b d c0 c1 c2 c3 =>
        (insertTrace mbr fuel c0 item).bind fun r0 =>
        (insertTrace mbr fuel c1 item).bind fun r1 =>
        (insertTrace mbr fuel c2 item).bind fun r2 =>
        (insertTrace mbr fuel c3 item).map fun r3 =>
          (.node b d r0.1 r1.1 r2.1 r3.1, 1 + max (max r0.2 r1.2) (max r2.2 r3.2))

/-- Example rectangles: every item has the same one-point rectangle at
`(1/3, 1/3)`, which lies on no midline of the screen's quadrants. -/
def mbrSame : Nat → iMBR := fun _ => ⟨1/3, 1/3, 1/3, 1/3⟩

end QuadTree

/-! ## QuadTree objects with every member

`QuadTree` above keeps, for each node, the members that are in use in its
mode. `QuadTreeNode` is the object as declared: `_immediates` and
`_useImmediate` side by side, and the four `_children` pointers as the
objects they point to. `QuadTreeNode.abs` reads a `QuadTree` off it. -/

/-- A `QuadTree<T>` object with the members `_bounds`, `_depth`,
`_immediates`, `_useImmediate` and `_children[0..3]`; `null` is what a
child pointer leads to when it is 0 or its object has been deleted. The
`_parent` pointer is the position in the tree. -/
inductive QuadTreeNode where
  | null
  | mk (_bounds : iMBR) (_depth : Int) (_immediates : List Nat) (_useImmediate : Bool)
      (c0 c1 c2 c3 : QuadTreeNode)
deriving DecidableEq, Repr

namespace QuadTreeNode

/-- Constructor `QuadTree(bounds, parent, depth)`. -/
def new (bounds : iMBR) (depth : Int) : QuadTreeNode :=
  .mk bounds depth [] true .null .null .null .null

/-- Member `_depth`. -/
def getDepth : QuadTreeNode → Int
  | .null => 0
  | .mk _ d _ _ _ _ _ _ => d

/-- Member `_immediates`. -/
def getImmediates : QuadTreeNode → List Nat
  | .null => []
  | .mk _ _ imm _ _ _ _ _ => imm

/-- Member `_useImmediate`. -/
def getUseImmediate : QuadTreeNode → Bool
  | .null => true
  | .mk _ _ _ u _ _ _ _ => u

/-- Method `divide()`: the four children are created, nothing else
changes. -/
def divide : QuadTreeNode → QuadTreeNode
  | .null => .null
  | .mk b d imm u _ _ _ _ =>
    .mk b d imm u (new (QuadTree.bounds0 b) (d + 1)) (new (QuadTree.bounds1 b) (d + 1))
      (new (QuadTree.bounds2 b) (d + 1)) (new (QuadTree.bounds3 b) (d + 1))

/-- Statement `_immediates.clear()`. -/
def clear : QuadTreeNode → QuadTreeNode
  | .null => .null
  | .mk b d _ u c0 c1 c2 c3 => .mk b d [] u c0 c1 c2 c3

/-- Method `insert(T *node)` with a bound `fuel` on the nesting of calls.
In the subdividing branch the flag is cleared, `divide()` creates the
children, the loop calls `insert(*iter)` on the node for every entry of
`_immediates` (which these calls do not touch), then the list is cleared
and the new item inserted. -/
def insertFuel (mbr : Nat → iMBR) : Nat → QuadTreeNode → Nat → QuadTreeNode
  | 0, t, _ => t
  | _ + 1, .null, _ => .null
  | fuel + 1, .mk b d imm u c0 c1 c2 c3, item =>
    if !(b.overlaps (mbr item)) then .mk b d imm u c0 c1 c2 c3
    else if u then
      if d < QuadTree.MAX_DEPTH ∧ imm.length = 4 then
        insertFuel mbr fuel
          (clear (imm.foldl (insertFuel mbr fuel) (divide (.mk b d imm false c0 c1 c2 c3)))) item
      else .mk b d (imm ++ [item]) u c0 c1 c2 c3
    else
      .mk b d imm u (insertFuel mbr fuel c0 item) (insertFuel mbr fuel c1 item)
        (insertFuel mbr fuel c2 item) (insertFuel mbr fuel c3 item)

/-- Nesting of `insert` calls that an object can cause. -/
def need : QuadTreeNode → Nat
  | .null => 1
  | .mk _ d _ true _ _ _ _ => 2 * (QuadTree.MAX_DEPTH - d).toNat + 1
  | .mk _ _ _ false c0 c1 c2 c3 => 1 + max (max c0.need c1.need) (max c2.need c3.need)

/-- Method `insert(T *node)`. -/
def insert (mbr : Nat → iMBR) (t : QuadTreeNode) (item : Nat) : QuadTreeNode :=
  insertFuel mbr t.need t item

/-- Method `empty()`. -/
def empty : QuadTreeNode → Bool
  | .null => true
  | .mk _ _ imm true _ _ _ _ => imm.length == 0
  | .mk _ _ _ false c0 c1 c2 c3 => c0.empty && c1.empty && c2.empty && c3.empty

/-- Method `undivide()` as run by a node on itself: when the node is empty
and has children they are deleted and `_useImmediate` is set; the list
`_immediates` is not touched. -/
def undivide : QuadTreeNode → QuadTreeNode
  | .null => .null
  | .mk b d imm u c0 c1 c2 c3 =>
    if !(QuadTreeNode.mk b d imm u c0 c1 c2 c3).empty then .mk b d imm u c0 c1 c2 c3
    else if !u then .mk b d imm true .null .null .null .null
    else .mk b d imm u c0 c1 c2 c3

/-- Method `remove(T *node)`, for the calls that use no deleted object, the
upward calls `_parent->undivide()` being the closing `undivide()` of each
node as in `QuadTree.remove`. `QuadTreeHeap.remove` is the method with the
deleted objects told apart. -/
def remove (mbr : Nat → iMBR) : QuadTreeNode → Nat → QuadTreeNode
  | .null, _ => .null
  | .mk b d imm u c0 c1 c2 c3, item =>
    if !(b.overlaps (mbr item)) then .mk b d imm u c0 c1 c2 c3
    else if u then undivide (.mk b d (imm.filter (· ≠ item)) u c0 c1 c2 c3)
    else undivide (.mk b d imm u (remove mbr c0 item) (remove mbr c1 item)
      (remove mbr c2 item) (remove mbr c3 item))

/-- One call on the root. -/
def step (mbr : Nat → iMBR) (t : QuadTreeNode) : QuadTree.Call → QuadTreeNode
  | .insert item => t.insert mbr item
  | .remove item => t.remove mbr item

/-- A sequence of calls on the root. -/
def run (mbr : Nat → iMBR) (t : QuadTreeNode) (cs : List QuadTree.Call) : QuadTreeNode :=
  cs.foldl (step mbr) t

/-- The objects in use: the node and, when it has children, the objects
below it. -/
def nodes : QuadTreeNode → List QuadTreeNode
  | .null => []
  | .mk b d imm true c0 c1 c2 c3 => [.mk b d imm true c0 c1 c2 c3]
  | .mk b d imm false c0 c1 c2 c3 =>
    .mk b d imm false c0 c1 c2 c3 :: (c0.nodes ++ c1.nodes ++ c2.nodes ++ c3.nodes)

/-- The `QuadTree` a node stands for: its list in leaf mode, its children
otherwise. -/
def abs : QuadTreeNode → QuadTree
  | .null => .leaf ⟨0, 0, 0, 0⟩ 0 []
  | .mk b d imm true _ _ _ _ => .leaf b d imm
  | .mk b d _ false c0 c1 c2 c3 => .node b d c0.abs c1.abs c2.abs c3.abs

/-- Invariant of the objects in use: none is `null`, a node in leaf mode
below `MAX_DEPTH` holds at most four entries, a node with children has an
empty `_immediates`. -/
def Tidy : QuadTreeNode → Prop
  | .null => False
  | .mk _ d imm true _ _ _ _ => d < QuadTree.MAX_DEPTH → imm.length ≤ 4
  | .mk _ _ imm false c0 c1 c2 c3 => imm = [] ∧ Tidy c0 ∧ Tidy c1 ∧ Tidy c2 ∧ Tidy c3

end QuadTreeNode

/-! ## QuadTree objects on the heap

`QuadTree` and `QuadTreeNode` above hold a node together with the objects
below it. `QuadTreeHeap` is the same class with its objects in memory: the
members `_parent` and `_children[0..3]` are addresses, `delete` turns a cell
into a dead one, and a member function that reads a member of a deleted
object stops with `useAfterFree`. Address 0 is the null pointer; `new` takes
a fresh address every time, so a deleted cell stays dead. -/

/-- What a call on the heap comes to: it returns `a`, or it reads through a
null pointer, or it reads a member of the deleted object at `addr`, or the
bound on the nesting of calls is used up. -/
inductive Outcome (α : Type) where
  | ok (a : α)
  | nullDeref
  | useAfterFree (addr : Nat)
  | outOfFuel
deriving DecidableEq, Repr

namespace Outcome

/-- Sequencing: the rest of a function body runs when the call returned. -/
def bind {α β : Type} : Outcome α → (α → Outcome β) → Outcome β
  | ok a, f => f a
  | nullDeref, _ => nullDeref
  | useAfterFree addr, _ => useAfterFree addr
  | outOfFuel, _ => outOfFuel

instance : Monad Outcome where
  pure := ok
  bind := bind

end Outcome

namespace QuadTreeHeap

/-- The members of a `QuadTree<T>` object. -/
structure Object where
  _bounds : iMBR
  _parent : Nat
  _children : List Nat
  _depth : Int
  _immediates : List Nat
  _useImmediate : Bool
deriving DecidableEq, Repr

/-- The heap: cell `p` holds the object at address `p`, or `none` when
there is none (address 0) or it has been deleted. -/
abbrev Memory := List (Option Object)

/-- Access to a member of the object at address `p`. -/
def read (m : Memory) (p : Nat) : Outcome Object :=
  if p = 0 then .nullDeref
  else
    match m.getD p none with
    | some o => .ok o
    | none => .useAfterFree p

/-- Member `_children[i]`. -/
def child (o : Object) (i : Nat) : Nat := o._children.getD i 0

/-- Expression `new QuadTree<T>(bounds, parent, depth)`: the constructor
sets `_useImmediate`, the four child pointers to 0 and leaves the list
empty; the result is the heap and the address of the new object. -/
def new (m : Memory) (bounds : iMBR) (parent : Nat) (depth : Int) : Memory × Nat :=
  (m ++ [some ⟨bounds, parent, [0, 0, 0, 0], depth, [], true⟩], m.length)

/-- A root node alone on the heap, at address 1. -/
def init (bounds : iMBR) (depth : Int) : Memory := (new [none] bounds 0 depth).1

/-- Method `empty()`; `&&` stops at the first child that is not empty. -/
def empty (m : Memory) : Nat → Nat → Outcome Bool
  | 0, _ => .outOfFuel
  | fuel + 1, p => do
    let o ← read m p
    if o._useImmediate then pure (o._immediates.length == 0)
    else do
      let e0 ← empty m fuel (child o 0)
      if !e0 then pure false
      else do
        let e1 ← empty m fuel (child o 1)
        if !e1 then pure false
        else do
          let e2 ← empty m fuel (child o 2)
          if !e2 then pure false
          else empty m fuel (child o 3)

/-- Method `divide()`: four objects are created with this node as parent
and their addresses stored in `_children`. -/
def divide (m : Memory) (p : Nat) : Outcome Memory := do
  let o ← read m p
  let r0 := new m (QuadTree.bounds0 o._bounds) p (o._depth + 1)
  let r1 := new r0.1 (QuadTree.bounds1 o._bounds) p (o._depth + 1)
  let r2 := new r1.1 (QuadTree.bounds2 o._bounds) p (o._depth + 1)
  let r3 := new r2.1 (QuadTree.bounds3 o._bounds) p (o._depth + 1)
  pure (r3.1.set p (some { o with _children := [r0.2, r1.2, r2.2, r3.2] }))

/-- Method `insert(T *node)` on the object at address `p`, with a bound
`fuel` on the nesting of calls. -/
def insert (mbr : Nat → iMBR) : Nat → Memory → Nat → Nat → Outcome Memory
  | 0, _, _, _ => .outOfFuel
  | fuel + 1, m, p, item => do
    let o ← read m p
    if !(o._bounds.overlaps (mbr item)) then pure m
    else if o._useImmediate then
      if o._depth < QuadTree.MAX_DEPTH ∧ o._immediates.length = 4 then do
        let m ← divide (m.set p (some { o with _useImmediate := false })) p
        let m ← o._immediates.foldl
          (fun (acc : Outcome Memory) it => acc.bind fun m => insert mbr fuel m p it) (pure m)
        let o ← read m p
        insert mbr fuel (m.set p (some { o with _immediates := [] })) p item
      else pure (m.set p (some { o with _immediates := o._immediates ++ [item] }))
    else do
      let m ← insert mbr fuel m (child o 0) item
      let o ← read m p
      let m ← insert mbr fuel m (child o 1) item
      let o ← read m p
      let m ← insert mbr fuel m (child o 2) item
      let o ← read m p
      insert mbr fuel m (child o 3) item

/-- Expression `delete p`: nothing for a null pointer; otherwise the
destructor `~QuadTree()` deletes the four children unless the node is in
leaf mode, and the cell of the object dies. -/
def delete : Nat → Memory → Nat → Outcome Memory
  | 0, _, _ => .outOfFuel
  | fuel + 1, m, p =>
    if p = 0 then pure m
    else do
      let o ← read m p
      if o._useImmediate then pure (m.set p none)
      else do
        let m ← delete fuel m (child o 0)
        let m ← delete fuel m (child o 1)
        let m ← delete fuel m (child o 2)
        let m ← delete fuel m (child o 3)
        pure (m.set p none)

/-- Method `undivide()` on the object at address `p`: nothing unless the
node is empty; a node with children checks them, deletes them and sets
`_useImmediate` (the four pointers keep their values); then the parent, if
there is one, runs `undivide()` in turn. -/
def undivide : Nat → Memory → Nat → Outcome Memory
  | 0, _, _ => .outOfFuel
  | fuel + 1, m, p => do
    let e ← empty m fuel p
    if !e then pure m
    else do
      let o ← read m p
      if !o._useImmediate then do
        let e0 ← empty m fuel (child o 0)
        let e1 ← empty m fuel (child o 1)
        let e2 ← empty m fuel (child o 2)
        let e3 ← empty m fuel (child o 3)
        if !(e0 && e1 && e2 && e3) then pure m
        else do
          let m ← delete fuel m (child o 0)
          let m ← delete fuel m (child o 1)
          let m ← delete fuel m (child o 2)
          let m ← delete fuel m (child o 3)
          let o ← read m p
          let m := m.set p (some { o with _useImmediate := true })
          if o._parent ≠ 0 then undivide fuel m o._parent else pure m
      else if o._parent ≠ 0 then undivide fuel m o._parent
      else pure m

/-- Method `remove(T *node)` on the object at address `p`. Every round of
the loop reads `_children[i]` of this object and calls `remove` on the
object it points to, whatever the rounds before have done to it. -/
def remove (mbr : Nat → iMBR) : Nat → Memory → Nat → Nat → Outcome Memory
  | 0, _, _, _ => .outOfFuel
  | fuel + 1, m, p, item => do
    let o ← read m p
    if !(o._bounds.overlaps (mbr item)) then pure m
    else if o._useImmediate then
      undivide fuel (m.set p (some { o with _immediates := o._immediates.filter (· ≠ item) })) p
    else do
      let m ← remove mbr fuel m (child o 0) item
      let o ← read m p
      let m ← remove mbr fuel m (child o 1) item
      let o ← read m p
      let m ← remove mbr fuel m (child o 2) item
      let o ← read m p
      let m ← remove mbr fuel m (child o 3) item
      undivide fuel m p

/-- One call on the root (address 1). -/
def step (mbr : Nat → iMBR) (fuel : Nat) (m : Memory) : QuadTree.Call → Outcome Memory
  | .insert item => insert mbr fuel m 1 item
  | .remove item => remove mbr fuel m 1 item

/-- A sequence of calls on the root; it stops at the first call that does
not return. -/
def run (mbr : Nat → iMBR) (fuel : Nat) (m : Memory) (cs : List QuadTree.Call) :
    Outcome Memory :=
  cs.foldl (fun (acc : Outcome Memory) c => acc.bind fun m => step mbr fuel m c) (pure m)

/-- The `QuadTree` that the objects reachable from address `p` make up. -/
def tree (m : Memory) : Nat → Nat → Outcome QuadTree
  | 0, _ => .outOfFuel
  | fuel + 1, p => do
    let o ← read m p
    if o._useImmediate then pure (.leaf o._bounds o._depth o._immediates)
    else do
      let c0 ← tree m fuel (child o 0)
      let c1 ← tree m fuel (child o 1)
      let c2 ← tree m fuel (child o 2)
      let c3 ← tree m fuel (child o 3)
      pure (.node o._bounds o._depth c0 c1 c2 c3)

/-- Example rectangles: items 0 to 3 are squares inside the four quadrants
of the bottom-left quarter of the screen, item 4 is a second square in its
top-right quadrant, item 5 a square in the top-right quarter of the screen,
every other item a square far away. -/
def mbrNest : Nat → iMBR := fun a =>
  if a = 0 then ⟨-7/8, -3/4, -7/8, -3/4⟩
  else if a = 1 then ⟨-3/8, -1/4, -7/8, -3/4⟩
  else if a = 2 then ⟨-3/8, -1/4, -3/8, -1/4⟩
  else if a = 3 then ⟨-7/8, -3/4, -3/8, -1/4⟩
  else if a = 4 then ⟨-1/4, -1/8, -1/4, -1/8⟩
  else if a = 5 then ⟨1/2, 3/4, 1/2, 3/4⟩
  else ⟨5, 6, 5, 6⟩

end QuadTreeHeap

/-! ## `QuadTree::divide` in `float` arithmetic -/

/-- A `glm::vec4` of bounds whose entries are `float` results. -/
structure Bounds32 where
  MIN_X : Float32
  MAX_X : Float32
  MIN_Y : Float32
  MAX_Y : Float32
deriving DecidableEq, Repr

namespace Bounds32

/-- Method `iMBR::contains(float x, float y)` on such bounds. -/
def contains (self : Bounds32) (x y : ℚ) : Bool :=
  (Float32.le self.MIN_X (.finite x) && Float32.le (.finite x) self.MAX_X) &&
    (Float32.le self.MIN_Y (.finite y) && Float32.le (.finite y) self.MAX_Y)

/-- Bounds with finite entries. -/
def ofMBR (b : iMBR) : Bounds32 :=
  ⟨.finite b.MIN_X, .finite b.MAX_X, .finite b.MIN_Y, .finite b.MAX_Y⟩

end Bounds32

namespace QuadTree

/-- Method `divide()` in `float` arithmetic: the value of `newBounds` at
each of the four constructor calls. The midpoints are the `float` results
of `(_bounds[MIN_X]+_bounds[MAX_X])/2` and
`(_bounds[MIN_Y]+_bounds[MAX_Y])/2`. -/
def divide32 (b : iMBR) : List Bounds32 :=
  let n0 : Bounds32 :=
    { MIN_X := .finite b.MIN_X, MIN_Y := .finite b.MIN_Y,
      MAX_X := Float32.half (Float32.add b.MIN_X b.MAX_X),
      MAX_Y := Float32.half (Float32.add b.MIN_Y b.MAX_Y) }
  let n1 : Bounds32 := { n0 with MIN_X := n0.MAX_X, MAX_X := .finite b.MAX_X }
  let n2 : Bounds32 := { n1 with MIN_Y := n1.MAX_Y, MAX_Y := .finite b.MAX_Y }
  let n3 : Bounds32 := { n2 with MAX_X := n2.MIN_X, MIN_X := .finite b.MIN_X }
  [n0, n1, n2, n3]

end QuadTree

/-! ## Properties of `iQuadRenderable::render` -/

theorem memcpy_eq_some {α : Type} (dst : List α) (pos : Nat) (src : List α) (n : Nat)
    (h1 : pos + n ≤ dst.length) (h2 : n ≤ src.length) :
    memcpy dst pos src n = some (dst.take pos ++ src.take n ++ dst.drop (pos + n)) := by
  unfold memcpy
  rw [if_pos ⟨h1, h2⟩]

theorem memcpy_length {α : Type} (dst : List α) (pos : Nat) (src : List α) (n : Nat)
    (h1 : pos + n ≤ dst.length) (h2 : n ≤ src.length) :
    (dst.take pos ++ src.take n ++ dst.drop (pos + n)).length = dst.length := by
  simp only [List.length_append, List.length_take, List.length_drop]
  omega

theorem memcpy_slice {α : Type} (dst : List α) (pos : Nat) (src : List α) (n : Nat)
    (h1 : pos + n ≤ dst.length) (h2 : n ≤ src.length) :
    ((dst.take pos ++ src.take n ++ dst.drop (pos + n)).drop pos).take n = src.take n := by
  have hp : (dst.take pos).length = pos := by
    rw [List.length_take]; omega
  have hn : (src.take n).length = n := by
    rw [List.length_take]; omega
  rw [List.append_assoc, List.drop_append_of_le_length (by omega)]
  rw [List.drop_of_length_le (by omega), List.nil_append]
  rw [List.take_append_of_le_length (by omega), List.take_of_length_le (by omega)]

theorem memcpy_before {α : Type} (dst : List α) (pos : Nat) (src : List α) (n : Nat)
    (h1 : pos + n ≤ dst.length) :
    (dst.take pos ++ src.take n ++ dst.drop (pos + n)).take pos = dst.take pos := by
  have hp : (dst.take pos).length = pos := by
    rw [List.length_take]; omega
  rw [List.append_assoc, List.take_append_of_le_length (by omega), List.take_of_length_le (by omega)]

theorem memcpy_after {α : Type} (dst : List α) (pos : Nat) (src : List α) (n : Nat)
    (h1 : pos + n ≤ dst.length) (h2 : n ≤ src.length) :
    (dst.take pos ++ src.take n ++ dst.drop (pos + n)).drop (pos + n) = dst.drop (pos + n) := by
  have hp : (dst.take pos ++ src.take n).length = pos + n := by
    rw [List.length_append, List.length_take, List.length_take]; omega
  rw [List.drop_append_of_le_length (by omega), List.drop_of_length_le (by omega), List.nil_append]

theorem wrap16_of_lt {n : Nat} (h : n < 65536) : wrap16 n = n := Nat.mod_eq_of_lt h

theorem iQuadRenderable.new_modified (quads : Nat) :
    (iQuadRenderable.new quads)._modified = true := rfl

theorem iQuadRenderable.new_length (quads : Nat) :
    (iQuadRenderable.new quads)._vCoords.length = (iQuadRenderable.new quads)._count * 4 := by
  simp only [iQuadRenderable.new, calloc, List.length_replicate]

theorem iQuadRenderable.setQuadXY_modified (e : iQuadRenderable) (quad : Nat) (x y w h : Int) :
    (e.setQuadXY quad x y w h)._modified = true := rfl

theorem iQuadRenderable.setQuadZ_modified (e : iQuadRenderable) (quad : Nat) (z : Int) :
    (e.setQuadZ quad z)._modified = true := rfl

/-- C2: `iQuadRenderable::render` on a valid destination returns true exactly
when `force` is set, the element is dirty, or the offset differs from the
recorded one. On true the destination slice holds exactly the element's
`4 * N` vertices (the rest of the array is untouched), the dirty flag is
cleared and the offset recorded; on false the array and the element are
unchanged. -/
theorem C2_render_contract (e : iQuadRenderable) (mem : List i16vec3) (pos offset : Nat)
    (force : Bool) (hoff : offset < 65536) (hwf : e._vCoords.length = e._count * 4)
    (hdst : pos + e._count * 4 ≤ mem.length) :
    ∃ b mem1 e1, e.render mem pos offset force = some (b, mem1, e1) ∧
      (b = true ↔ (force = true ∨ e._modified = true ∨ offset ≠ e._prevOffset)) ∧
      (b = true →
        mem1.length = mem.length ∧
        (mem1.drop pos).take (e._count * 4) = e._vCoords ∧
        mem1.take pos = mem.take pos ∧
        mem1.drop (pos + e._count * 4) = mem.drop (pos + e._count * 4) ∧
        e1 = { e with _modified := false, _prevOffset := offset }) ∧
      (b = false → mem1 = mem ∧ e1 = e) := by
  have hle : e._count * 4 ≤ e._vCoords.length := by omega
  by_cases hc : (force || e._modified || (offset != e._prevOffset)) = true
  · refine ⟨true, mem.take pos ++ e._vCoords.take (e._count * 4) ++ mem.drop (pos + e._count * 4),
      { e with _modified := false, _prevOffset := offset }, ?_, ?_, ?_, ?_⟩
    · unfold iQuadRenderable.render
      simp only [wrap16_of_lt hoff]
      rw [if_pos hc, memcpy_eq_some _ _ _ _ hdst hle]
    · simp only [Bool.or_eq_true, bne_iff_ne, ne_eq] at hc
      simp only [true_iff, ne_eq]
      tauto
    · intro _
      refine ⟨memcpy_length _ _ _ _ hdst hle, ?_, memcpy_before _ _ _ _ hdst,
        memcpy_after _ _ _ _ hdst hle, rfl⟩
      rw [memcpy_slice _ _ _ _ hdst hle, List.take_of_length_le (by omega)]
    · intro h; cases h
  · refine ⟨false, mem, e, ?_, ?_, ?_, ?_⟩
    · unfold iQuadRenderable.render
      simp only [wrap16_of_lt hoff]
      rw [if_neg hc]
    · simp only [Bool.or_eq_true, bne_iff_ne, ne_eq] at hc
      constructor
      · intro h; cases h
      · intro h; exact absurd h (by tauto)
    · intro h; cases h
    · intro _; exact ⟨rfl, rfl⟩

/-- Witness for C2: a fresh one-quad element rendered at offset 0 into a
four-vertex array. -/
theorem C2_render_contract_witness :
    ∃ b mem1 e1, (iQuadRenderable.new 1).render (calloc 4) 0 0 false = some (b, mem1, e1) ∧
      (b = true ↔ (false = true ∨ (iQuadRenderable.new 1)._modified = true ∨
        0 ≠ (iQuadRenderable.new 1)._prevOffset)) ∧
      (b = true →
        mem1.length = (calloc 4).length ∧
        (mem1.drop 0).take ((iQuadRenderable.new 1)._count * 4) = (iQuadRenderable.new 1)._vCoords ∧
        mem1.take 0 = (calloc 4).take 0 ∧
        mem1.drop (0 + (iQuadRenderable.new 1)._count * 4)
          = (calloc 4).drop (0 + (iQuadRenderable.new 1)._count * 4) ∧
        e1 = { iQuadRenderable.new 1 with _modified := false, _prevOffset := 0 }) ∧
      (b = false → mem1 = calloc 4 ∧ e1 = iQuadRenderable.new 1) :=
  C2_render_contract (iQuadRenderable.new 1) (calloc 4) 0 0 false (by decide) (by decide)
    (by decide)

/-- For an element whose `_modified` flag is set (freshly constructed, or
just mutated by a setter that sets the flag) and two distinct 16-bit
offsets `o`, `o2`: render at `o` without force returns true, a second
render at `o` returns false, and a third render at `o2` returns true, with
no mutation between the calls. -/
theorem render_thrice_of_modified (e : iQuadRenderable) (mem mem' mem'' : List i16vec3)
    (pos pos' pos'' o o2 : Nat)
    (hdirty : e._modified = true) (ho : o < 65536) (ho2 : o2 < 65536) (hne : o ≠ o2)
    (hwf : e._vCoords.length = e._count * 4)
    (hdst : pos + e._count * 4 ≤ mem.length) (hdst2 : pos'' + e._count * 4 ≤ mem''.length) :
    ∃ m1 e1 m3 e3,
      e.render mem pos o false = some (true, m1, e1) ∧
      e1.render mem' pos' o false = some (false, mem', e1) ∧
      e1.render mem'' pos'' o2 false = some (true, m3, e3) := by
  have hle : e._count * 4 ≤ e._vCoords.length := by omega
  refine ⟨mem.take pos ++ e._vCoords.take (e._count * 4) ++ mem.drop (pos + e._count * 4),
    { e with _modified := false, _prevOffset := o },
    mem''.take pos'' ++ e._vCoords.take (e._count * 4) ++ mem''.drop (pos'' + e._count * 4),
    { e with _modified := false, _prevOffset := o2 }, ?_, ?_, ?_⟩
  · unfold iQuadRenderable.render
    simp only [wrap16_of_lt ho, hdirty, Bool.or_true, Bool.true_or, if_true]
    rw [memcpy_eq_some _ _ _ _ hdst hle]
  · unfold iQuadRenderable.render
    simp [wrap16_of_lt ho]
  · unfold iQuadRenderable.render
    simp only [wrap16_of_lt ho2]
    have hb : (false || false || (o2 != o)) = true := by
      simp only [Bool.false_or, bne_iff_ne, ne_eq]
      exact fun h => hne h.symm
    rw [if_pos hb, memcpy_eq_some _ _ _ _ hdst2 hle]

namespace iQuadRenderable

/-- C3 (evaluation at the failing input): a fresh two-quad element is
rendered at offset 3 (the call returns true), then `setQuadsZ(9)` changes
the z of its eight corners; the render at offset 3 without force that
follows this mutation returns false and leaves the array as it was, with
the old z values. Only the render at the other offset 5 returns true and
copies the new values. -/
theorem C3_render_after_setQuadsZ :
    (iQuadRenderable.new 2).render (calloc 32) 12 3 false
      = some (true, calloc 32, ⟨2, 3, false, calloc 8⟩) ∧
    setQuadsZ 16 ⟨2, 3, false, calloc 8⟩ 9
      = some ⟨2, 3, false, List.replicate 8 ⟨0, 0, 9⟩⟩ ∧
    (⟨2, 3, false, List.replicate 8 ⟨0, 0, 9⟩⟩ : iQuadRenderable).render (calloc 32) 12 3 false
      = some (false, calloc 32, ⟨2, 3, false, List.replicate 8 ⟨0, 0, 9⟩⟩) ∧
    (⟨2, 3, false, List.replicate 8 ⟨0, 0, 9⟩⟩ : iQuadRenderable).render (calloc 32) 20 5 false
      = some (true, calloc 20 ++ List.replicate 8 ⟨0, 0, 9⟩ ++ calloc 4,
          ⟨2, 5, false, List.replicate 8 ⟨0, 0, 9⟩⟩) := by
  decide

end iQuadRenderable

/-! ## Properties of `QuadRendererBase` -/

namespace QuadRendererBase

theorem writeQuadIndices_length (index : List Nat) (i : Nat) :
    (writeQuadIndices index i).length = index.length := by
  simp [writeQuadIndices]

theorem writeQuadIndices_self (index : List Nat) (i : Nat) (h : 6 * i + 6 ≤ index.length) :
    QuadIndexed (writeQuadIndices index i) i := by
  unfold QuadIndexed writeQuadIndices
  simp only [List.getElem?_set, List.length_set]
  refine ⟨?_, ?_, ?_, ?_, ?_, ?_⟩ <;> simp <;> omega

theorem writeQuadIndices_other (index : List Nat) (i j : Nat) (hij : j ≠ i)
    (h : QuadIndexed index j) : QuadIndexed (writeQuadIndices index i) j := by
  unfold QuadIndexed writeQuadIndices at *
  simp only [List.getElem?_set, List.length_set]
  obtain ⟨h0, h1, h2, h3, h4, h5⟩ := h
  refine ⟨?_, ?_, ?_, ?_, ?_, ?_⟩ <;>
    (repeat rw [if_neg (by omega)]) <;> assumption

theorem foldl_writeQuadIndices (n : Nat) : ∀ (lo : Nat) (index : List Nat),
    6 * (lo + n) ≤ index.length → (∀ i, i < lo → QuadIndexed index i) →
    ((List.range' lo n).foldl writeQuadIndices index).length = index.length ∧
    ∀ i, i < lo + n → QuadIndexed ((List.range' lo n).foldl writeQuadIndices index) i := by
  induction n with
  | zero =>
    intro lo index _ hgood
    exact ⟨rfl, fun i hi => hgood i (by omega)⟩
  | succ n ih =>
    intro lo index hlen hgood
    rw [List.range'_succ, List.foldl_cons]
    have hstep : ∀ i, i < lo + 1 → QuadIndexed (writeQuadIndices index lo) i := by
      intro i hi
      by_cases hil : i = lo
      · subst hil
        exact writeQuadIndices_self index i (by omega)
      · exact writeQuadIndices_other index lo i hil (hgood i (by omega))
    have := ih (lo + 1) (writeQuadIndices index lo)
      (by rw [writeQuadIndices_length]; omega) hstep
    rw [writeQuadIndices_length] at this
    refine ⟨this.1, fun i hi => this.2 i (by omega)⟩

theorem realloc_length {α : Type} (p : List α) (n : Nat) (fill : α) :
    (realloc p n fill).length = n := by
  unfold realloc
  simp only [List.length_append, List.length_take, List.length_replicate]
  omega

theorem realloc_getElem? {α : Type} (p : List α) (n : Nat) (fill : α) (j : Nat)
    (hj : j < p.length) (hn : p.length ≤ n) : (realloc p n fill)[j]? = p[j]? := by
  unfold realloc
  rw [List.take_of_length_le hn, List.getElem?_append_left hj]

theorem indexInv_new : IndexInv QuadRendererBase.new :=
  ⟨rfl, fun i hi => absurd hi (Nat.not_lt_zero i)⟩

theorem indexInv_ensureCapacity (s : QuadRendererBase) (quads : Nat) (h : IndexInv s) :
    IndexInv (s.ensureCapacity quads) := by
  unfold ensureCapacity
  simp only
  split
  · rename_i hgt
    obtain ⟨hlen, hgood⟩ := h
    have hpre : ∀ i, i < s._bufferSize →
        QuadIndexed (realloc s._index (wrap16 quads * 6) 0) i := by
      intro i hi
      have := hgood i hi
      unfold QuadIndexed at *
      repeat rw [realloc_getElem? _ _ _ _ (by omega) (by omega)]
      exact this
    have hfold := foldl_writeQuadIndices (wrap16 quads - s._bufferSize) s._bufferSize
      (realloc s._index (wrap16 quads * 6) 0) (by rw [realloc_length]; omega) hpre
    unfold IndexInv indexLoop
    simp only
    rw [hfold.1, realloc_length]
    refine ⟨by omega, fun i hi => hfold.2 i (by omega)⟩
  · exact h

theorem ensureCapacity_bufferSize (s : QuadRendererBase) (quads : Nat) :
    (s.ensureCapacity quads)._bufferSize = max s._bufferSize (wrap16 quads) := by
  unfold ensureCapacity
  simp only
  split
  · simp only; omega
  · omega

theorem ensureCapacity_count (s : QuadRendererBase) (quads : Nat) :
    (s.ensureCapacity quads)._count = s._count := by
  unfold ensureCapacity
  simp only
  split <;> rfl

theorem ensureCapacity_drawItems (s : QuadRendererBase) (quads : Nat) :
    (s.ensureCapacity quads)._drawItems = s._drawItems := by
  unfold ensureCapacity
  simp only
  split <;> rfl

theorem wrap16_lt (n : Nat) : wrap16 n < 65536 := Nat.mod_lt _ (by decide)

theorem wrap16_wrap16 (n : Nat) : wrap16 (wrap16 n) = wrap16 n :=
  wrap16_of_lt (wrap16_lt n)

theorem show_bufferSize_ge (heap : Heap) (s : QuadRendererBase) (r : Nat) :
    s._bufferSize ≤ (s.show_ heap r)._bufferSize := by
  unfold show_
  split
  · exact Nat.le_refl _
  · simp only [ensureCapacity_bufferSize]; omega

theorem hide_bufferSize (heap : Heap) (s : QuadRendererBase) (r : Nat) :
    (s.hide heap r)._bufferSize = s._bufferSize := by
  unfold hide
  split <;> rfl

theorem show_new_count (heap : Heap) (s : QuadRendererBase) (r : Nat) (h : r ∉ s._drawItems) :
    (s.show_ heap r)._count = wrap16 (s._count + (heap r).getQuadCount) := by
  unfold show_
  rw [if_neg h]
  simp only [ensureCapacity_count]

theorem show_new_drawItems (heap : Heap) (s : QuadRendererBase) (r : Nat)
    (h : r ∉ s._drawItems) :
    (s.show_ heap r)._drawItems = List.orderedInsert (· ≤ ·) r s._drawItems := by
  unfold show_
  rw [if_neg h]
  simp only [ensureCapacity_drawItems]

theorem show_count_le_bufferSize (heap : Heap) (s : QuadRendererBase) (r : Nat)
    (h : r ∉ s._drawItems) : (s.show_ heap r)._count ≤ (s.show_ heap r)._bufferSize := by
  unfold show_
  rw [if_neg h]
  simp only [ensureCapacity_bufferSize, ensureCapacity_count, wrap16_wrap16]
  omega

theorem step_bufferSize_ge (heap : Heap) (s : QuadRendererBase) (c : Call) :
    s._bufferSize ≤ (step heap s c)._bufferSize := by
  cases c with
  | show_ r => exact show_bufferSize_ge heap s r
  | hide r => exact Nat.le_of_eq (hide_bufferSize heap s r).symm
  | ensureCapacity q =>
    show s._bufferSize ≤ (s.ensureCapacity q)._bufferSize
    rw [ensureCapacity_bufferSize]; omega

theorem visibleQuads_filter (heap : Heap) (r : Nat) : ∀ (l : List Nat), l.Nodup → r ∈ l →
    visibleQuads heap (l.filter (· ≠ r)) + (heap r).getQuadCount = visibleQuads heap l := by
  intro l
  induction l with
  | nil => intro _ h; cases h
  | cons a t ih =>
    intro hnd hmem
    rw [List.nodup_cons] at hnd
    by_cases har : a = r
    · subst har
      have hself : t.filter (· ≠ a) = t := by
        rw [List.filter_eq_self]
        intro x hx
        simp only [ne_eq, decide_not, Bool.not_eq_eq_eq_not, Bool.not_true,
          decide_eq_false_iff_not]
        intro hxa
        exact hnd.1 (hxa ▸ hx)
      rw [List.filter_cons_of_neg (by simp), hself]
      simp only [visibleQuads, List.map_cons, List.sum_cons]
      omega
    · have hrt : r ∈ t := by
        rcases List.mem_cons.mp hmem with h | h
        · exact absurd h.symm har
        · exact h
      have := ih hnd.2 hrt
      rw [List.filter_cons_of_pos (by simpa using har)]
      simp only [visibleQuads, List.map_cons, List.sum_cons] at this ⊢
      omega

theorem visibleQuads_orderedInsert (heap : Heap) (r : Nat) (l : List Nat) :
    visibleQuads heap (List.orderedInsert (· ≤ ·) r l)
      = visibleQuads heap l + (heap r).getQuadCount := by
  have hp : (List.orderedInsert (· ≤ ·) r l).Perm (r :: l) := List.perm_orderedInsert _ _ _
  have := (hp.map fun r => (heap r).getQuadCount).sum_eq
  simp only [visibleQuads]
  rw [this, List.map_cons, List.sum_cons]
  omega

theorem mem_of_visibleQuads (heap : Heap) (r : Nat) (l : List Nat) (h : r ∈ l) :
    (heap r).getQuadCount ≤ visibleQuads heap l := by
  induction l with
  | nil => cases h
  | cons a t ih =>
    simp only [visibleQuads, List.map_cons, List.sum_cons]
    rcases List.mem_cons.mp h with h | h
    · subst h; omega
    · have := ih h
      simp only [visibleQuads] at this
      omega

theorem countInv_new (heap : Heap) : CountInv heap QuadRendererBase.new :=
  ⟨rfl, Nat.le_refl _, by decide, List.nodup_nil⟩

theorem countInv_ensureCapacity (heap : Heap) (s : QuadRendererBase) (q : Nat)
    (h : CountInv heap s) : CountInv heap (s.ensureCapacity q) := by
  obtain ⟨h1, h2, h3, h4⟩ := h
  have hq := wrap16_lt q
  refine ⟨?_, ?_, ?_, ?_⟩
  · rw [ensureCapacity_count, ensureCapacity_drawItems]; exact h1
  · rw [ensureCapacity_count, ensureCapacity_bufferSize]; omega
  · rw [ensureCapacity_bufferSize]; omega
  · rw [ensureCapacity_drawItems]; exact h4

theorem countInv_hide (heap : Heap) (s : QuadRendererBase) (r : Nat)
    (h : CountInv heap s) : CountInv heap (s.hide heap r) := by
  obtain ⟨h1, h2, h3, h4⟩ := h
  unfold hide
  split
  · rename_i hmem
    have hle := mem_of_visibleQuads heap r _ hmem
    have hsum := visibleQuads_filter heap r _ h4 hmem
    have hsub : sub16 s._count (heap r).getQuadCount = s._count - (heap r).getQuadCount := by
      unfold sub16
      rw [Nat.mod_eq_of_lt (a := (heap r).getQuadCount) (by omega)]
      omega
    refine ⟨?_, ?_, h3, h4.filter _⟩
    · simp only [hsub]; omega
    · simp only [hsub]; omega
  · exact ⟨h1, h2, h3, h4⟩

theorem countInv_show (heap : Heap) (s : QuadRendererBase) (r : Nat)
    (h : CountInv heap s)
    (hw : r ∈ s._drawItems ∨ visibleQuads heap s._drawItems + (heap r).getQuadCount < 65536) :
    CountInv heap (s.show_ heap r) := by
  by_cases hmem : r ∈ s._drawItems
  · unfold show_
    rw [if_pos hmem]
    exact h
  · obtain ⟨h1, h2, h3, h4⟩ := h
    have hlt : visibleQuads heap s._drawItems + (heap r).getQuadCount < 65536 := by
      rcases hw with hw | hw
      · exact absurd hw hmem
      · exact hw
    have hc := show_new_count heap s r hmem
    rw [h1, wrap16_of_lt hlt] at hc
    have hb := show_count_le_bufferSize heap s r hmem
    refine ⟨?_, hb, ?_, ?_⟩
    · rw [hc, show_new_drawItems heap s r hmem, visibleQuads_orderedInsert]
    · unfold show_
      rw [if_neg hmem]
      simp only [ensureCapacity_bufferSize]
      have := wrap16_lt (wrap16 (s._count + (heap r).getQuadCount))
      omega
    · rw [show_new_drawItems heap s r hmem]
      exact (List.perm_orderedInsert _ _ _).nodup_iff.mpr (List.nodup_cons.mpr ⟨hmem, h4⟩)

theorem countInv_run (heap : Heap) (cs : List Call) : ∀ (s : QuadRendererBase),
    CountInv heap s → NoWrap heap s cs = true → CountInv heap (run heap s cs) := by
  induction cs with
  | nil => intro s h _; exact h
  | cons c cs ih =>
    intro s h hw
    simp only [NoWrap, Bool.and_eq_true] at hw
    obtain ⟨hc, hrest⟩ := hw
    have hstep : CountInv heap (step heap s c) := by
      cases c with
      | show_ r =>
        simp only [Bool.or_eq_true, decide_eq_true_eq] at hc
        exact countInv_show heap s r h hc
      | hide r => exact countInv_hide heap s r h
      | ensureCapacity q => exact countInv_ensureCapacity heap s q h
    exact ih (step heap s c) hstep hrest

theorem noWrap_initial (heap : Heap) (pre suf : List Call) : ∀ (s : QuadRendererBase),
    NoWrap heap s (pre ++ suf) = true → NoWrap heap s pre = true := by
  induction pre with
  | nil => intro _ _; rfl
  | cons c cs ih =>
    intro s h
    simp only [List.cons_append, NoWrap, Bool.and_eq_true] at h ⊢
    exact ⟨h.1, ih (step heap s c) h.2⟩

theorem run_bufferSize_ge (heap : Heap) (cs : List Call) : ∀ (s : QuadRendererBase),
    s._bufferSize ≤ (run heap s cs)._bufferSize := by
  induction cs with
  | nil => intro s; exact Nat.le_refl _
  | cons c cs ih =>
    intro s
    exact Nat.le_trans (step_bufferSize_ge heap s c) (ih (step heap s c))

theorem run_append (heap : Heap) (s : QuadRendererBase) (pre suf : List Call) :
    run heap s (pre ++ suf) = run heap (run heap s pre) suf := by
  unfold run
  rw [List.foldl_append]

theorem indexInv_show (heap : Heap) (s : QuadRendererBase) (r : Nat) (h : IndexInv s) :
    IndexInv (s.show_ heap r) := by
  unfold show_
  split
  · exact h
  · exact indexInv_ensureCapacity _ _ h

theorem indexInv_hide (heap : Heap) (s : QuadRendererBase) (r : Nat) (h : IndexInv s) :
    IndexInv (s.hide heap r) := by
  unfold hide
  split
  · exact h
  · exact h

theorem indexInv_run (heap : Heap) (cs : List Call) : ∀ (s : QuadRendererBase),
    IndexInv s → IndexInv (run heap s cs) := by
  induction cs with
  | nil => intro s h; exact h
  | cons c cs ih =>
    intro s h
    have hstep : IndexInv (step heap s c) := by
      cases c with
      | show_ r => exact indexInv_show heap s r h
      | hide r => exact indexInv_hide heap s r h
      | ensureCapacity q => exact indexInv_ensureCapacity s q h
    exact ih (step heap s c) hstep

/-- C1 (evaluation at the failing history): after `show(1); show(2);
render(); hide(1); render(); show(1); render()` both elements are visible,
in the order 1, 2, yet the mirror slice of element 1 (vertices 0..3) holds
the corners of element 2 and not its own: the position mirror does not
hold the visible elements' vertices. -/
theorem C1_mirror_stale_after_hide_show :
    hideShowTrace.map (fun p =>
      (p.2._drawItems, mirrorHolds p.1 p.2._vCoords p.2._drawItems 0,
       p.2._vCoords.take 4, (p.1 1)._vCoords, (p.1 2)._vCoords))
    = some ([1, 2], false,
        [⟨20, 20, 0⟩, ⟨25, 20, 0⟩, ⟨25, 25, 0⟩, ⟨20, 25, 0⟩],
        [⟨10, 10, 0⟩, ⟨15, 10, 0⟩, ⟨15, 15, 0⟩, ⟨10, 15, 0⟩],
        [⟨20, 20, 0⟩, ⟨25, 20, 0⟩, ⟨25, 25, 0⟩, ⟨20, 25, 0⟩]) := by
  decide

/-- C4 (as stated, refuted): after `show(1); show(2); hide(1)` with a
1-quad and a 65535-quad element the count is 65535 and the capacity 1. -/
theorem C4_counterexample :
    ¬ ((run heapWide QuadRendererBase.new [.show_ 1, .show_ 2, .hide 1])._count
        ≤ (run heapWide QuadRendererBase.new [.show_ 1, .show_ 2, .hide 1])._bufferSize) := by
  decide

/-- C4 (amended): the capacity never decreases over any call; and along
every sequence of `show`, `hide` and `ensureCapacity` calls from the new
renderer in which the true number of visible quads stays below 65536 at
every `show`, every state reached has capacity at least the visible quad
count, and every later state has at least that capacity. -/
theorem C4_capacity_monotone_and_bound (heap : Heap) :
    (∀ (s : QuadRendererBase) (c : Call), s._bufferSize ≤ (step heap s c)._bufferSize) ∧
    (∀ pre suf : List Call, NoWrap heap QuadRendererBase.new (pre ++ suf) = true →
      (run heap QuadRendererBase.new pre)._count ≤ (run heap QuadRendererBase.new pre)._bufferSize ∧
      (run heap QuadRendererBase.new pre)._bufferSize
        ≤ (run heap QuadRendererBase.new (pre ++ suf))._bufferSize) := by
  refine ⟨step_bufferSize_ge heap, ?_⟩
  intro pre suf hw
  have hinv := countInv_run heap pre QuadRendererBase.new (countInv_new heap)
    (noWrap_initial heap pre suf _ hw)
  refine ⟨hinv.2.1, ?_⟩
  rw [run_append]
  exact run_bufferSize_ge heap suf _

/-- Witness for C4: `show(1); ensureCapacity(8); hide(1)`, then `show(1)`
again, on a heap of 40000-quad elements. -/
theorem C4_capacity_monotone_and_bound_witness :
    NoWrap heapBig QuadRendererBase.new
      ([.show_ 1, .ensureCapacity 8, .hide 1] ++ [.show_ 1]) = true ∧
    ((run heapBig QuadRendererBase.new [.show_ 1, .ensureCapacity 8, .hide 1])._count
        ≤ (run heapBig QuadRendererBase.new [.show_ 1, .ensureCapacity 8, .hide 1])._bufferSize ∧
      (run heapBig QuadRendererBase.new [.show_ 1, .ensureCapacity 8, .hide 1])._bufferSize
        ≤ (run heapBig QuadRendererBase.new
            ([.show_ 1, .ensureCapacity 8, .hide 1] ++ [.show_ 1]))._bufferSize) :=
  ⟨by decide, (C4_capacity_monotone_and_bound heapBig).2
    [.show_ 1, .ensureCapacity 8, .hide 1] [.show_ 1] (by decide)⟩

/-- C5 (as stated, refuted): at capacity 16385 the first index entry of
quad 16384 is not `4 * 16384`: a `GLushort` cannot hold 65536. -/
theorem C5_counterexample :
    16384 < (QuadRendererBase.new.ensureCapacity 16385)._bufferSize ∧
    (QuadRendererBase.new.ensureCapacity 16385)._index[6 * 16384]? ≠ some (4 * 16384) := by
  have hb : (QuadRendererBase.new.ensureCapacity 16385)._bufferSize = 16385 := by
    rw [ensureCapacity_bufferSize]; decide
  have hinv := indexInv_ensureCapacity QuadRendererBase.new 16385 indexInv_new
  have hq := (hinv.2 16384 (by rw [hb]; decide)).1
  refine ⟨by rw [hb]; decide, ?_⟩
  rw [hq]
  decide

/-- C5 (amended): in every state reached from the new renderer by `show`,
`hide` and `ensureCapacity` calls, for every quad `i` below the capacity
the six index entries at `6i .. 6i+5` are `4i, 4i+2, 4i+3, 4i, 4i+1, 4i+2`
reduced modulo 65536 (the `GLushort` store); for `i < 16384` they are
exactly `4i, 4i+2, 4i+3, 4i, 4i+1, 4i+2`. -/
theorem C5_index_layout (heap : Heap) (cs : List Call) (i : Nat)
    (hi : i < (run heap QuadRendererBase.new cs)._bufferSize) :
    QuadIndexed (run heap QuadRendererBase.new cs)._index i ∧
    (i < 16384 →
      (run heap QuadRendererBase.new cs)._index[6 * i]? = some (4 * i) ∧
      (run heap QuadRendererBase.new cs)._index[6 * i + 1]? = some (4 * i + 2) ∧
      (run heap QuadRendererBase.new cs)._index[6 * i + 2]? = some (4 * i + 3) ∧
      (run heap QuadRendererBase.new cs)._index[6 * i + 3]? = some (4 * i) ∧
      (run heap QuadRendererBase.new cs)._index[6 * i + 4]? = some (4 * i + 1) ∧
      (run heap QuadRendererBase.new cs)._index[6 * i + 5]? = some (4 * i + 2)) := by
  have hq := (indexInv_run heap cs QuadRendererBase.new indexInv_new).2 i hi
  refine ⟨hq, fun hlt => ?_⟩
  obtain ⟨h0, h1, h2, h3, h4, h5⟩ := hq
  rw [wrap16_of_lt (by omega)] at h0 h1 h2 h3 h4 h5
  exact ⟨h0, h1, h2, h3, h4, h5⟩

/-- Witness for C5: capacity grown in two steps, 2 then 5, quad 3. -/
theorem C5_index_layout_witness :
    3 < (run heapBig QuadRendererBase.new [.ensureCapacity 2, .ensureCapacity 5])._bufferSize ∧
    (QuadIndexed (run heapBig QuadRendererBase.new [.ensureCapacity 2, .ensureCapacity 5])._index 3 ∧
    (3 < 16384 →
      (run heapBig QuadRendererBase.new [.ensureCapacity 2, .ensureCapacity 5])._index[6 * 3]?
        = some (4 * 3) ∧
      (run heapBig QuadRendererBase.new [.ensureCapacity 2, .ensureCapacity 5])._index[6 * 3 + 1]?
        = some (4 * 3 + 2) ∧
      (run heapBig QuadRendererBase.new [.ensureCapacity 2, .ensureCapacity 5])._index[6 * 3 + 2]?
        = some (4 * 3 + 3) ∧
      (run heapBig QuadRendererBase.new [.ensureCapacity 2, .ensureCapacity 5])._index[6 * 3 + 3]?
        = some (4 * 3) ∧
      (run heapBig QuadRendererBase.new [.ensureCapacity 2, .ensureCapacity 5])._index[6 * 3 + 4]?
        = some (4 * 3 + 1) ∧
      (run heapBig QuadRendererBase.new [.ensureCapacity 2, .ensureCapacity 5])._index[6 * 3 + 5]?
        = some (4 * 3 + 2))) :=
  ⟨by decide, C5_index_layout heapBig [.ensureCapacity 2, .ensureCapacity 5] 3 (by decide)⟩

/-- C6 (as stated, refuted): with a 40000-quad element visible, showing a
second 40000-quad element does not raise the count by 40000. -/
theorem C6_counterexample :
    2 ∉ (QuadRendererBase.new.show_ heapBig 1)._drawItems ∧
    ((QuadRendererBase.new.show_ heapBig 1).show_ heapBig 2)._count
      ≠ (QuadRendererBase.new.show_ heapBig 1)._count + (heapBig 2).getQuadCount := by
  decide

/-- C6 (amended): `show` of an element already in the visible set returns
the state unchanged. `show` of an element not in the set adds it (and
nothing else) to the set, sets the count to the old count plus the
element's quad count reduced modulo 65536, which is an increase by exactly
the quad count whenever that sum is below 65536, and leaves the capacity at
least the new count. -/
theorem C6_show (heap : Heap) (s : QuadRendererBase) (r : Nat) :
    (r ∈ s._drawItems → s.show_ heap r = s) ∧
    (r ∉ s._drawItems →
      (∀ x, x ∈ (s.show_ heap r)._drawItems ↔ x = r ∨ x ∈ s._drawItems) ∧
      (s.show_ heap r)._count = wrap16 (s._count + (heap r).getQuadCount) ∧
      (s._count + (heap r).getQuadCount < 65536 →
        (s.show_ heap r)._count = s._count + (heap r).getQuadCount) ∧
      (s.show_ heap r)._count ≤ (s.show_ heap r)._bufferSize) := by
  constructor
  · intro h
    unfold show_
    rw [if_pos h]
  · intro h
    refine ⟨fun x => ?_, show_new_count heap s r h, fun hlt => ?_,
      show_count_le_bufferSize heap s r h⟩
    · rw [show_new_drawItems heap s r h, List.mem_orderedInsert]
    · rw [show_new_count heap s r h, wrap16_of_lt hlt]

/-- Witness for C6: showing the element at address 2 while only the one at
address 1 is visible, and showing address 1 again. -/
theorem C6_show_witness :
    (1 ∈ (QuadRendererBase.new.show_ heapTwo 1)._drawItems ∧
      (QuadRendererBase.new.show_ heapTwo 1).show_ heapTwo 1
        = QuadRendererBase.new.show_ heapTwo 1) ∧
    (2 ∉ (QuadRendererBase.new.show_ heapTwo 1)._drawItems ∧
      ((QuadRendererBase.new.show_ heapTwo 1).show_ heapTwo 2)._count
        = (QuadRendererBase.new.show_ heapTwo 1)._count + (heapTwo 2).getQuadCount) :=
  ⟨⟨by decide, (C6_show heapTwo (QuadRendererBase.new.show_ heapTwo 1) 1).1 (by decide)⟩,
   ⟨by decide, ((C6_show heapTwo (QuadRendererBase.new.show_ heapTwo 1) 2).2 (by decide)).2.2.1
      (by decide)⟩⟩

/-- C7 (as stated, refuted): after `show(1); show(2)` with a 1-quad and a
65535-quad element the count is 0; hiding the visible 1-quad element sets
it to 65535, which is no decrease by 1. -/
theorem C7_counterexample :
    1 ∈ (run heapWide QuadRendererBase.new [.show_ 1, .show_ 2])._drawItems ∧
    ((run heapWide QuadRendererBase.new [.show_ 1, .show_ 2]).hide heapWide 1)._count
        + (heapWide 1).getQuadCount
      ≠ (run heapWide QuadRendererBase.new [.show_ 1, .show_ 2])._count := by
  decide

/-- C7 (amended): `hide` of an element that is not in the visible set
returns the state unchanged. `hide` of a visible element removes it (and
nothing else) from the set, leaves the capacity as it is, and sets the
count to the old count minus the element's quad count modulo 65536, which
is a decrease by exactly the quad count whenever the old count is at least
the quad count. -/
theorem C7_hide (heap : Heap) (s : QuadRendererBase) (r : Nat) :
    (r ∉ s._drawItems → s.hide heap r = s) ∧
    (r ∈ s._drawItems →
      (∀ x, x ∈ (s.hide heap r)._drawItems ↔ x ≠ r ∧ x ∈ s._drawItems) ∧
      (s.hide heap r)._bufferSize = s._bufferSize ∧
      (s.hide heap r)._count = sub16 s._count (heap r).getQuadCount ∧
      ((heap r).getQuadCount ≤ s._count → s._count < 65536 →
        (s.hide heap r)._count + (heap r).getQuadCount = s._count)) := by
  constructor
  · intro h
    unfold hide
    rw [if_neg h]
  · intro h
    have hc : (s.hide heap r)._count = sub16 s._count (heap r).getQuadCount := by
      unfold hide
      rw [if_pos h]
    refine ⟨fun x => ?_, hide_bufferSize heap s r, hc, fun hle hlt => ?_⟩
    · unfold hide
      rw [if_pos h]
      simp only [List.mem_filter, decide_eq_true_eq]
      tauto
    · rw [hc]
      unfold sub16
      rw [Nat.mod_eq_of_lt (a := (heap r).getQuadCount) (by omega)]
      omega

/-- Witness for C7: hiding the never-shown address 3 and the visible
address 1 after `show(1); show(2)` of two one-quad elements. -/
theorem C7_hide_witness :
    (3 ∉ (run heapTwo QuadRendererBase.new [.show_ 1, .show_ 2])._drawItems ∧
      (run heapTwo QuadRendererBase.new [.show_ 1, .show_ 2]).hide heapTwo 3
        = run heapTwo QuadRendererBase.new [.show_ 1, .show_ 2]) ∧
    (1 ∈ (run heapTwo QuadRendererBase.new [.show_ 1, .show_ 2])._drawItems ∧
      ((run heapTwo QuadRendererBase.new [.show_ 1, .show_ 2]).hide heapTwo 1)._count
          + (heapTwo 1).getQuadCount
        = (run heapTwo QuadRendererBase.new [.show_ 1, .show_ 2])._count) :=
  ⟨⟨by decide, (C7_hide heapTwo (run heapTwo QuadRendererBase.new [.show_ 1, .show_ 2]) 3).1
      (by decide)⟩,
   ⟨by decide, ((C7_hide heapTwo (run heapTwo QuadRendererBase.new [.show_ 1, .show_ 2]) 1).2
      (by decide)).2.2.2 (by decide) (by decide)⟩⟩

end QuadRendererBase

/-! ## Geometry of `iMBR` -/

namespace iMBR

theorem overlaps_iff (b e : iMBR) : b.overlaps e = true ↔
    b.MIN_X ≤ e.MAX_X ∧ e.MIN_X ≤ b.MAX_X ∧ b.MIN_Y ≤ e.MAX_Y ∧ e.MIN_Y ≤ b.MAX_Y := by
  unfold overlaps
  simp only [gt_iff_lt, Bool.not_eq_true', Bool.or_eq_false_iff, decide_eq_false_iff_not,
    not_lt]
  tauto

theorem contains_iff (b : iMBR) (x y : ℚ) : b.contains x y = true ↔
    b.MIN_X ≤ x ∧ x ≤ b.MAX_X ∧ b.MIN_Y ≤ y ∧ y ≤ b.MAX_Y := by
  unfold contains
  simp only [ge_iff_le, Bool.and_eq_true, decide_eq_true_eq]
  tauto

theorem contains_overlaps (b e : iMBR) (x y : ℚ) (hb : b.contains x y = true)
    (he : e.contains x y = true) : b.overlaps e = true := by
  rw [contains_iff] at hb he
  rw [overlaps_iff]
  obtain ⟨h1, h2, h3, h4⟩ := hb
  obtain ⟨g1, g2, g3, g4⟩ := he
  exact ⟨le_trans h1 g2, le_trans g1 h2, le_trans h3 g4, le_trans g3 h4⟩

theorem contains_center (e : iMBR) (h : e.WF) : e.contains e.centerX e.centerY = true := by
  rw [contains_iff]
  obtain ⟨h1, h2⟩ := h
  unfold centerX centerY
  refine ⟨?_, ?_, ?_, ?_⟩ <;> linarith

theorem overlaps_self (e : iMBR) (h : e.WF) : e.overlaps e = true := by
  rw [overlaps_iff]
  exact ⟨h.1, h.1, h.2, h.2⟩

end iMBR

namespace QuadTree

theorem bounds0_wf (b : iMBR) (h : b.WF) : (bounds0 b).WF := by
  obtain ⟨h1, h2⟩ := h
  unfold iMBR.WF bounds0
  constructor <;> simp only <;> linarith

theorem bounds1_wf (b : iMBR) (h : b.WF) : (bounds1 b).WF := by
  obtain ⟨h1, h2⟩ := h
  unfold iMBR.WF bounds1 bounds0
  constructor <;> simp only <;> linarith

theorem bounds2_wf (b : iMBR) (h : b.WF) : (bounds2 b).WF := by
  obtain ⟨h1, h2⟩ := h
  unfold iMBR.WF bounds2 bounds1 bounds0
  constructor <;> simp only <;> linarith

theorem bounds3_wf (b : iMBR) (h : b.WF) : (bounds3 b).WF := by
  obtain ⟨h1, h2⟩ := h
  unfold iMBR.WF bounds3 bounds2 bounds1 bounds0
  constructor <;> simp only <;> linarith

theorem overlaps_of_bounds0 (b e : iMBR) (h : b.WF) (ho : (bounds0 b).overlaps e = true) :
    b.overlaps e = true := by
  obtain ⟨h1, h2⟩ := h
  rw [iMBR.overlaps_iff] at ho ⊢
  simp only [bounds0] at ho
  obtain ⟨g1, g2, g3, g4⟩ := ho
  refine ⟨?_, ?_, ?_, ?_⟩ <;> linarith

theorem overlaps_of_bounds1 (b e : iMBR) (h : b.WF) (ho : (bounds1 b).overlaps e = true) :
    b.overlaps e = true := by
  obtain ⟨h1, h2⟩ := h
  rw [iMBR.overlaps_iff] at ho ⊢
  simp only [bounds1, bounds0] at ho
  obtain ⟨g1, g2, g3, g4⟩ := ho
  refine ⟨?_, ?_, ?_, ?_⟩ <;> linarith

theorem overlaps_of_bounds2 (b e : iMBR) (h : b.WF) (ho : (bounds2 b).overlaps e = true) :
    b.overlaps e = true := by
  obtain ⟨h1, h2⟩ := h
  rw [iMBR.overlaps_iff] at ho ⊢
  simp only [bounds2, bounds1, bounds0] at ho
  obtain ⟨g1, g2, g3, g4⟩ := ho
  refine ⟨?_, ?_, ?_, ?_⟩ <;> linarith

theorem overlaps_of_bounds3 (b e : iMBR) (h : b.WF) (ho : (bounds3 b).overlaps e = true) :
    b.overlaps e = true := by
  obtain ⟨h1, h2⟩ := h
  rw [iMBR.overlaps_iff] at ho ⊢
  simp only [bounds3, bounds2, bounds1, bounds0] at ho
  obtain ⟨g1, g2, g3, g4⟩ := ho
  refine ⟨?_, ?_, ?_, ?_⟩ <;> linarith

theorem overlaps_cover (b e : iMBR) (he : e.WF) (ho : b.overlaps e = true) :
    (bounds0 b).overlaps e = true ∨ (bounds1 b).overlaps e = true ∨
    (bounds2 b).overlaps e = true ∨ (bounds3 b).overlaps e = true := by
  obtain ⟨e1, e2⟩ := he
  simp only [iMBR.overlaps_iff] at ho ⊢
  simp only [bounds3, bounds2, bounds1, bounds0]
  obtain ⟨g1, g2, g3, g4⟩ := ho
  by_cases hx : e.MIN_X ≤ (b.MIN_X + b.MAX_X) / 2 <;>
    by_cases hy : e.MIN_Y ≤ (b.MIN_Y + b.MAX_Y) / 2
  · exact Or.inl ⟨g1, hx, g3, hy⟩
  · exact Or.inr (Or.inr (Or.inr ⟨g1, hx, by linarith, g4⟩))
  · exact Or.inr (Or.inl ⟨by linarith, g2, g3, hy⟩)
  · exact Or.inr (Or.inr (Or.inl ⟨by linarith, g2, by linarith, g4⟩))

theorem contains_of_bounds0 (b : iMBR) (x y : ℚ) (h : b.WF)
    (hc : (bounds0 b).contains x y = true) : b.contains x y = true := by
  obtain ⟨h1, h2⟩ := h
  rw [iMBR.contains_iff] at hc ⊢
  simp only [bounds0] at hc
  obtain ⟨g1, g2, g3, g4⟩ := hc
  refine ⟨?_, ?_, ?_, ?_⟩ <;> linarith

theorem contains_of_bounds1 (b : iMBR) (x y : ℚ) (h : b.WF)
    (hc : (bounds1 b).contains x y = true) : b.contains x y = true := by
  obtain ⟨h1, h2⟩ := h
  rw [iMBR.contains_iff] at hc ⊢
  simp only [bounds1, bounds0] at hc
  obtain ⟨g1, g2, g3, g4⟩ := hc
  refine ⟨?_, ?_, ?_, ?_⟩ <;> linarith

theorem contains_of_bounds2 (b : iMBR) (x y : ℚ) (h : b.WF)
    (hc : (bounds2 b).contains x y = true) : b.contains x y = true := by
  obtain ⟨h1, h2⟩ := h
  rw [iMBR.contains_iff] at hc ⊢
  simp only [bounds2, bounds1, bounds0] at hc
  obtain ⟨g1, g2, g3, g4⟩ := hc
  refine ⟨?_, ?_, ?_, ?_⟩ <;> linarith

theorem contains_of_bounds3 (b : iMBR) (x y : ℚ) (h : b.WF)
    (hc : (bounds3 b).contains x y = true) : b.contains x y = true := by
  obtain ⟨h1, h2⟩ := h
  rw [iMBR.contains_iff] at hc ⊢
  simp only [bounds3, bounds2, bounds1, bounds0] at hc
  obtain ⟨g1, g2, g3, g4⟩ := hc
  refine ⟨?_, ?_, ?_, ?_⟩ <;> linarith

theorem contains_cover (b : iMBR) (x y : ℚ) (hc : b.contains x y = true) :
    (bounds0 b).contains x y = true ∨ (bounds1 b).contains x y = true ∨
    (bounds2 b).contains x y = true ∨ (bounds3 b).contains x y = true := by
  simp only [iMBR.contains_iff] at hc ⊢
  simp only [bounds3, bounds2, bounds1, bounds0]
  obtain ⟨g1, g2, g3, g4⟩ := hc
  rcases le_total x ((b.MIN_X + b.MAX_X) / 2) with hx | hx <;>
    rcases le_total y ((b.MIN_Y + b.MAX_Y) / 2) with hy | hy
  · exact Or.inl ⟨g1, hx, g3, hy⟩
  · exact Or.inr (Or.inr (Or.inr ⟨g1, hx, hy, g4⟩))
  · exact Or.inr (Or.inl ⟨hx, g2, g3, hy⟩)
  · exact Or.inr (Or.inr (Or.inl ⟨hx, g2, hy, g4⟩))

end QuadTree
/-! ## `QuadTree::insert`: enough fuel, and the invariant -/

namespace QuadTree

theorem getMBR_leaf (b : iMBR) (d : Int) (imm : List Nat) :
    (QuadTree.leaf b d imm).getMBR = b := rfl

theorem getMBR_node (b : iMBR) (d : Int) (c0 c1 c2 c3 : QuadTree) :
    (QuadTree.node b d c0 c1 c2 c3).getMBR = b := rfl

theorem need_pos (t : QuadTree) : 1 ≤ t.need := by
  cases t <;> simp only [need] <;> omega

theorem need_divide (b : iMBR) (d : Int) (imm : List Nat) (hd : d < MAX_DEPTH) :
    (divide b d).need + 1 = (QuadTree.leaf b d imm).need := by
  simp only [divide, new, need, MAX_DEPTH] at hd ⊢
  omega

theorem foldl_need (g : QuadTree → Nat → QuadTree) (f : Nat)
    (hg : ∀ t item, need t ≤ f → need (g t item) ≤ need t) :
    ∀ (l : List Nat) (acc : QuadTree), need acc ≤ f → need (l.foldl g acc) ≤ need acc := by
  intro l
  induction l with
  | nil => intro acc _; exact Nat.le_refl _
  | cons a l ih =>
    intro acc hacc
    have h1 := hg acc a hacc
    exact Nat.le_trans (ih (g acc a) (Nat.le_trans h1 hacc)) h1

theorem insertFuel_need (mbr : Nat → iMBR) : ∀ (f : Nat) (t : QuadTree) (item : Nat),
    need t ≤ f → need (insertFuel mbr f t item) ≤ need t := by
  intro f
  induction f with
  | zero => intro t item _; exact Nat.le_refl _
  | succ f ih =>
    intro t item hle
    cases t with
    | leaf b d imm =>
      simp only [insertFuel, getMBR_leaf, getMBR_node]
      split
      · exact Nat.le_refl _
      · split
        · rename_i hdiv
          have hnd := need_divide b d imm hdiv.1
          have h1 : need (divide b d) ≤ f := by omega
          have h2 := foldl_need (insertFuel mbr f) f ih imm (divide b d) h1
          have h3 := ih _ item (Nat.le_trans h2 h1)
          omega
        · exact Nat.le_refl _
    | node b d c0 c1 c2 c3 =>
      simp only [insertFuel, getMBR_leaf, getMBR_node]
      split
      · exact Nat.le_refl _
      · simp only [need] at hle ⊢
        have h0 := ih c0 item (by omega)
        have h1 := ih c1 item (by omega)
        have h2 := ih c2 item (by omega)
        have h3 := ih c3 item (by omega)
        omega

theorem foldl_insertFuel_succ (mbr : Nat → iMBR) (f : Nat)
    (ih : ∀ (t : QuadTree) (item : Nat), need t ≤ f →
      insertFuel mbr (f + 1) t item = insertFuel mbr f t item) :
    ∀ (l : List Nat) (acc : QuadTree), need acc ≤ f →
      l.foldl (insertFuel mbr (f + 1)) acc = l.foldl (insertFuel mbr f) acc := by
  intro l
  induction l with
  | nil => intro acc _; rfl
  | cons a l ihl =>
    intro acc hacc
    simp only [List.foldl_cons]
    rw [ih acc a hacc]
    exact ihl _ (Nat.le_trans (insertFuel_need mbr f acc a hacc) hacc)

/-- More fuel than `need` changes nothing: the bound is never the reason
for a result. -/
theorem insertFuel_succ (mbr : Nat → iMBR) : ∀ (f : Nat) (t : QuadTree) (item : Nat),
    need t ≤ f → insertFuel mbr (f + 1) t item = insertFuel mbr f t item := by
  intro f
  induction f with
  | zero =>
    intro t item hle
    have := need_pos t
    omega
  | succ f ih =>
    intro t item hle
    cases t with
    | leaf b d imm =>
      rw [insertFuel, insertFuel]
      simp only [getMBR_leaf, getMBR_node]
      split
      · rfl
      · split
        · rename_i hdiv
          have hnd := need_divide b d imm hdiv.1
          have h1 : need (divide b d) ≤ f := by omega
          rw [foldl_insertFuel_succ mbr f ih imm (divide b d) h1]
          have h2 := foldl_need (insertFuel mbr f) f (insertFuel_need mbr f) imm (divide b d) h1
          exact ih _ item (Nat.le_trans h2 h1)
        · rfl
    | node b d c0 c1 c2 c3 =>
      rw [insertFuel, insertFuel]
      simp only [getMBR_leaf, getMBR_node]
      split
      · rfl
      · simp only [need] at hle
        rw [ih c0 item (by omega), ih c1 item (by omega), ih c2 item (by omega),
          ih c3 item (by omega)]

theorem insertFuel_enough (mbr : Nat → iMBR) (t : QuadTree) (item : Nat) :
    ∀ (k : Nat), insertFuel mbr (t.need + k) t item = t.insert mbr item := by
  intro k
  induction k with
  | zero => rfl
  | succ k ih =>
    rw [← ih]
    exact insertFuel_succ mbr (t.need + k) t item (by omega)

end QuadTree
/-! ## The invariant `Good` under `insert` and `remove` -/

namespace QuadTree

theorem good_wf (mbr : Nat → iMBR) (s : List Nat) (t : QuadTree) (h : Good mbr s t) :
    t.getMBR.WF := by
  cases t with
  | leaf b d imm => simp only [Good] at h; exact h.1
  | node b d c0 c1 c2 c3 => simp only [Good] at h; exact h.1

theorem good_congr (mbr : Nat → iMBR) (s s' : List Nat) : ∀ (t : QuadTree), Good mbr s t →
    (∀ e, t.getMBR.overlaps (mbr e) = true → s.count e = s'.count e) → Good mbr s' t := by
  intro t
  induction t with
  | leaf b d imm =>
    intro h hs
    simp only [Good, getMBR_leaf, getMBR_node] at h hs ⊢
    refine ⟨h.1, fun e => ?_⟩
    rw [h.2 e]
    by_cases ho : b.overlaps (mbr e) = true
    · rw [if_pos ho, if_pos ho]; exact hs e ho
    · rw [if_neg ho, if_neg ho]
  | node b d c0 c1 c2 c3 ih0 ih1 ih2 ih3 =>
    intro h hs
    simp only [Good, getMBR_leaf, getMBR_node] at h hs ⊢
    obtain ⟨hb, e0, e1, e2, e3, g0, g1, g2, g3⟩ := h
    refine ⟨hb, e0, e1, e2, e3, ih0 g0 ?_, ih1 g1 ?_, ih2 g2 ?_, ih3 g3 ?_⟩
    · intro e ho; rw [e0] at ho; exact hs e (overlaps_of_bounds0 b _ hb ho)
    · intro e ho; rw [e1] at ho; exact hs e (overlaps_of_bounds1 b _ hb ho)
    · intro e ho; rw [e2] at ho; exact hs e (overlaps_of_bounds2 b _ hb ho)
    · intro e ho; rw [e3] at ho; exact hs e (overlaps_of_bounds3 b _ hb ho)

theorem good_divide (mbr : Nat → iMBR) (b : iMBR) (d : Int) (hb : b.WF) :
    Good mbr [] (divide b d) := by
  simp only [divide, new, Good, getMBR_leaf, List.count_nil, ite_self, implies_true, and_true,
    true_and]
  exact ⟨hb, bounds0_wf b hb, bounds1_wf b hb, bounds2_wf b hb, bounds3_wf b hb⟩

theorem insertFuel_getMBR (mbr : Nat → iMBR) : ∀ (f : Nat) (t : QuadTree) (item : Nat),
    (insertFuel mbr f t item).getMBR = t.getMBR := by
  intro f
  induction f with
  | zero => intro t item; rfl
  | succ f ih =>
    intro t item
    have hfold : ∀ (l : List Nat) (acc : QuadTree),
        (l.foldl (insertFuel mbr f) acc).getMBR = acc.getMBR := by
      intro l
      induction l with
      | nil => intro acc; rfl
      | cons a l ihl => intro acc; rw [List.foldl_cons, ihl, ih]
    cases t with
    | leaf b d imm =>
      simp only [insertFuel, getMBR_leaf, getMBR_node]
      split
      · rfl
      · split
        · rw [ih, hfold]; rfl
        · rfl
    | node b d c0 c1 c2 c3 =>
      simp only [insertFuel, getMBR_leaf, getMBR_node]
      split <;> rfl

theorem good_foldl (mbr : Nat → iMBR) (f : Nat)
    (ih : ∀ (t : QuadTree) (s : List Nat) (item : Nat), need t ≤ f → Good mbr s t →
      Good mbr (item :: s) (insertFuel mbr f t item)) :
    ∀ (l : List Nat) (acc : QuadTree) (s : List Nat), need acc ≤ f → Good mbr s acc →
      Good mbr (l.reverse ++ s) (l.foldl (insertFuel mbr f) acc) := by
  intro l
  induction l with
  | nil => intro acc s _ h; exact h
  | cons a l ihl =>
    intro acc s hacc h
    rw [List.foldl_cons, List.reverse_cons, List.append_assoc]
    exact ihl _ (a :: s) (Nat.le_trans (insertFuel_need mbr f acc a hacc) hacc) (ih acc s a hacc h)

theorem good_insertFuel (mbr : Nat → iMBR) : ∀ (f : Nat) (t : QuadTree) (s : List Nat)
    (item : Nat), need t ≤ f → Good mbr s t → Good mbr (item :: s) (insertFuel mbr f t item) := by
  intro f
  induction f with
  | zero =>
    intro t s item hle
    have := need_pos t
    omega
  | succ f ih =>
    intro t s item hle hgood
    have hskip : t.getMBR.overlaps (mbr item) ≠ true → Good mbr (item :: s) t := by
      intro hno
      refine good_congr mbr s (item :: s) t hgood (fun e ho => ?_)
      have hne : item ≠ e := fun h => hno (h ▸ ho)
      simp only [List.count_cons, beq_iff_eq, hne, if_false, Nat.add_zero]
    cases t with
    | leaf b d imm =>
      simp only [insertFuel, getMBR_leaf, getMBR_node]
      split
      · rename_i hno
        exact hskip (by simpa using hno)
      · rename_i hov
        simp only [Bool.not_eq_true', Bool.not_eq_false] at hov
        simp only [Good] at hgood
        split
        · rename_i hdiv
          have hnd := need_divide b d imm hdiv.1
          have h1 : need (divide b d) ≤ f := by omega
          have h2 := foldl_need (insertFuel mbr f) f (insertFuel_need mbr f) imm (divide b d) h1
          have g2 := good_foldl mbr f ih imm (divide b d) [] h1 (good_divide mbr b d hgood.1)
          have g3 := ih _ _ item (Nat.le_trans h2 h1) g2
          refine good_congr mbr _ (item :: s) _ g3 (fun e ho => ?_)
          rw [insertFuel_getMBR] at ho
          have hfold : ∀ (l : List Nat) (acc : QuadTree),
              (l.foldl (insertFuel mbr f) acc).getMBR = acc.getMBR := by
            intro l
            induction l with
            | nil => intro acc; rfl
            | cons a l ihl => intro acc; rw [List.foldl_cons, ihl, insertFuel_getMBR]
          rw [hfold] at ho
          simp only [divide, getMBR_node] at ho
          have hc := hgood.2 e
          rw [if_pos ho] at hc
          simp only [List.count_cons, List.append_nil, List.count_reverse, hc]
        · simp only [Good]
          refine ⟨hgood.1, fun e => ?_⟩
          rw [List.count_append, hgood.2 e]
          by_cases ho : b.overlaps (mbr e) = true
          · rw [if_pos ho, if_pos ho]
            simp only [List.count_cons, List.count_nil, Nat.zero_add]
          · rw [if_neg ho, if_neg ho]
            have hne : item ≠ e := fun h => ho (h ▸ hov)
            simp only [List.count_cons, List.count_nil, Nat.zero_add, beq_iff_eq, hne,
              if_false]
    | node b d c0 c1 c2 c3 =>
      simp only [insertFuel, getMBR_leaf, getMBR_node]
      split
      · rename_i hno
        exact hskip (by simpa using hno)
      · simp only [need] at hle
        simp only [Good] at hgood ⊢
        obtain ⟨hb, e0, e1, e2, e3, g0, g1, g2, g3⟩ := hgood
        refine ⟨hb, ?_, ?_, ?_, ?_, ih c0 s item (by omega) g0, ih c1 s item (by omega) g1,
          ih c2 s item (by omega) g2, ih c3 s item (by omega) g3⟩
        · rw [insertFuel_getMBR]; exact e0
        · rw [insertFuel_getMBR]; exact e1
        · rw [insertFuel_getMBR]; exact e2
        · rw [insertFuel_getMBR]; exact e3

theorem good_insert (mbr : Nat → iMBR) (t : QuadTree) (s : List Nat) (item : Nat)
    (h : Good mbr s t) : Good mbr (item :: s) (t.insert mbr item) :=
  good_insertFuel mbr t.need t s item (Nat.le_refl _) h

theorem insert_getMBR (mbr : Nat → iMBR) (t : QuadTree) (item : Nat) :
    (t.insert mbr item).getMBR = t.getMBR :=
  insertFuel_getMBR mbr t.need t item

end QuadTree
/-! ## `QuadTree::remove`, `QuadTree::locate` and the reachable trees -/

namespace QuadTree

theorem remove_getMBR (mbr : Nat → iMBR) (t : QuadTree) (item : Nat) :
    (remove mbr t item).getMBR = t.getMBR := by
  cases t with
  | leaf b d imm =>
    simp only [remove]
    split <;> rfl
  | node b d c0 c1 c2 c3 =>
    simp only [remove]
    split
    · rfl
    · simp only [undivide]
      split <;> rfl

theorem count_filter_ne (s : List Nat) (item e : Nat) (h : e ≠ item) :
    (s.filter (· ≠ item)).count e = s.count e :=
  List.count_filter (by simpa using h)

theorem count_filter_self (s : List Nat) (item : Nat) :
    (s.filter (· ≠ item)).count item = 0 := by
  rw [List.count_eq_zero]
  intro hmem
  have := (List.mem_filter.mp hmem).2
  simp at this

theorem empty_count_zero (mbr : Nat → iMBR) (s : List Nat) (hs : ∀ e ∈ s, (mbr e).WF) :
    ∀ (t : QuadTree), Good mbr s t → t.empty = true →
      ∀ e, t.getMBR.overlaps (mbr e) = true → s.count e = 0 := by
  intro t
  induction t with
  | leaf b d imm =>
    intro h hemp e ho
    simp only [Good] at h
    simp only [empty, beq_iff_eq, List.length_eq_zero] at hemp
    have := h.2 e
    rw [getMBR_leaf] at ho
    rw [if_pos ho, hemp, List.count_nil] at this
    exact this.symm
  | node b d c0 c1 c2 c3 ih0 ih1 ih2 ih3 =>
    intro h hemp e ho
    simp only [Good] at h
    obtain ⟨hb, e0, e1, e2, e3, g0, g1, g2, g3⟩ := h
    simp only [empty, Bool.and_eq_true] at hemp
    obtain ⟨⟨⟨m0, m1⟩, m2⟩, m3⟩ := hemp
    rw [getMBR_node] at ho
    by_contra hne
    have hmem : e ∈ s := by
      by_contra hnm
      exact hne (List.count_eq_zero.mpr hnm)
    rcases overlaps_cover b (mbr e) (hs e hmem) ho with hc | hc | hc | hc
    · exact hne (ih0 g0 m0 e (by rw [e0]; exact hc))
    · exact hne (ih1 g1 m1 e (by rw [e1]; exact hc))
    · exact hne (ih2 g2 m2 e (by rw [e2]; exact hc))
    · exact hne (ih3 g3 m3 e (by rw [e3]; exact hc))

theorem good_remove (mbr : Nat → iMBR) (s : List Nat) (hs : ∀ e ∈ s, (mbr e).WF)
    (item : Nat) : ∀ (t : QuadTree), Good mbr s t →
      Good mbr (s.filter (· ≠ item)) (remove mbr t item) := by
  have hs' : ∀ e ∈ s.filter (· ≠ item), (mbr e).WF :=
    fun e he => hs e (List.mem_filter.mp he).1
  intro t
  induction t with
  | leaf b d imm =>
    intro h
    simp only [remove]
    split
    · rename_i hno
      simp only [Bool.not_eq_true', ← Bool.not_eq_true] at hno
      refine good_congr mbr s _ _ h (fun e ho => ?_)
      have hne : e ≠ item := fun heq => hno (heq ▸ ho)
      exact (count_filter_ne s item e hne).symm
    · simp only [undivide, Good] at h ⊢
      refine ⟨h.1, fun e => ?_⟩
      by_cases heq : e = item
      · subst heq
        rw [count_filter_self, count_filter_self, ite_self]
      · rw [count_filter_ne _ _ _ heq, count_filter_ne _ _ _ heq]
        exact h.2 e
  | node b d c0 c1 c2 c3 ih0 ih1 ih2 ih3 =>
    intro h
    simp only [remove]
    split
    · rename_i hno
      simp only [Bool.not_eq_true', ← Bool.not_eq_true] at hno
      refine good_congr mbr s _ _ h (fun e ho => ?_)
      have hne : e ≠ item := fun heq => hno (heq ▸ ho)
      exact (count_filter_ne s item e hne).symm
    · have h' := h
      simp only [Good] at h'
      obtain ⟨hb, e0, e1, e2, e3, g0, g1, g2, g3⟩ := h'
      have hnode : Good mbr (s.filter (· ≠ item))
          (QuadTree.node b d (remove mbr c0 item) (remove mbr c1 item) (remove mbr c2 item)
            (remove mbr c3 item)) := by
        simp only [Good]
        refine ⟨hb, ?_, ?_, ?_, ?_, ih0 g0, ih1 g1, ih2 g2, ih3 g3⟩
        · rw [remove_getMBR]; exact e0
        · rw [remove_getMBR]; exact e1
        · rw [remove_getMBR]; exact e2
        · rw [remove_getMBR]; exact e3
      simp only [undivide]
      split
      · rename_i hemp
        simp only [Good]
        refine ⟨hb, fun e => ?_⟩
        by_cases ho : b.overlaps (mbr e) = true
        · rw [if_pos ho, List.count_nil]
          exact (empty_count_zero mbr _ hs' _ hnode hemp e ho).symm
        · rw [if_neg ho, List.count_nil]
      · exact hnode

theorem locateScan_eq (mbr : Nat → iMBR) (x y : ℚ) : ∀ (l : List Nat) (found : Int)
    (results : List Nat), locateScan mbr x y l found results
      = (found + ((l.filter (fun item => (mbr item).contains x y)).length : Int),
         results ++ l.filter (fun item => (mbr item).contains x y)) := by
  intro l
  induction l with
  | nil => intro found results; simp [locateScan]
  | cons a l ih =>
    intro found results
    simp only [locateScan]
    by_cases hc : (mbr a).contains x y = true
    · rw [if_pos hc, ih]
      simp only [List.filter_cons, hc, if_true, List.length_cons, Nat.cast_add, Nat.cast_one,
        List.append_assoc, List.singleton_append, Prod.mk.injEq, and_true]
      omega
    · rw [if_neg hc, ih]
      simp only [List.filter_cons, hc, Bool.false_eq_true, if_false]

theorem locate_eq (mbr : Nat → iMBR) (x y : ℚ) : ∀ (t : QuadTree) (results : List Nat),
    locate mbr t x y results = (((hits mbr t x y).length : Int), results ++ hits mbr t x y) := by
  intro t
  induction t with
  | leaf b d imm =>
    intro results
    simp only [locate, hits]
    by_cases hc : b.contains x y = true
    · simp only [hc, Bool.not_true, Bool.false_eq_true, if_false, if_true]
      rw [locateScan_eq, Int.zero_add]
    · simp only [hc, Bool.not_eq_true'] 
      simp
  | node b d c0 c1 c2 c3 ih0 ih1 ih2 ih3 =>
    intro results
    simp only [locate, hits]
    by_cases hc : b.contains x y = true
    · simp only [hc, Bool.not_true, Bool.false_eq_true, if_false, if_true]
      rw [ih0, ih1, ih2, ih3]
      simp only [List.length_append, Nat.cast_add, List.append_assoc, Prod.mk.injEq, and_true]
      omega
    · simp only [hc, Bool.not_eq_true']
      simp

theorem mem_of_good_leaf (mbr : Nat → iMBR) (s : List Nat) (b : iMBR) (imm : List Nat)
    (h : ∀ e, imm.count e = if b.overlaps (mbr e) then s.count e else 0) (e : Nat) :
    e ∈ imm ↔ (e ∈ s ∧ b.overlaps (mbr e) = true) := by
  rw [← List.count_pos_iff (a := e) (l := imm), h e]
  by_cases ho : b.overlaps (mbr e) = true
  · rw [if_pos ho, List.count_pos_iff]
    simp only [ho, and_true]
  · rw [if_neg ho]
    constructor
    · intro hlt
      exact absurd hlt (Nat.lt_irrefl 0)
    · intro hmem
      exact absurd hmem.2 ho

theorem mem_hits (mbr : Nat → iMBR) (s : List Nat) (x y : ℚ) : ∀ (t : QuadTree),
    Good mbr s t → ∀ e, e ∈ hits mbr t x y ↔
      (e ∈ s ∧ (mbr e).contains x y = true ∧ t.getMBR.contains x y = true) := by
  intro t
  induction t with
  | leaf b d imm =>
    intro h e
    simp only [Good] at h
    simp only [hits, getMBR_leaf]
    by_cases hc : b.contains x y = true
    · rw [if_pos hc, List.mem_filter, mem_of_good_leaf mbr s b imm h.2 e]
      constructor
      · rintro ⟨⟨h1, _⟩, h3⟩
        exact ⟨h1, h3, hc⟩
      · rintro ⟨h1, h2, _⟩
        exact ⟨⟨h1, iMBR.contains_overlaps b (mbr e) x y hc h2⟩, h2⟩
    · rw [if_neg hc]
      simp only [List.not_mem_nil, false_iff, not_and]
      intro _ _
      exact hc
  | node b d c0 c1 c2 c3 ih0 ih1 ih2 ih3 =>
    intro h e
    simp only [Good] at h
    obtain ⟨hb, e0, e1, e2, e3, g0, g1, g2, g3⟩ := h
    simp only [hits, getMBR_node]
    by_cases hc : b.contains x y = true
    · rw [if_pos hc]
      simp only [List.mem_append, ih0 g0 e, ih1 g1 e, ih2 g2 e, ih3 g3 e, e0, e1, e2, e3]
      constructor
      · rintro (((⟨h1, h2, _⟩ | ⟨h1, h2, _⟩) | ⟨h1, h2, _⟩) | ⟨h1, h2, _⟩) <;>
          exact ⟨h1, h2, hc⟩
      · rintro ⟨h1, h2, _⟩
        rcases contains_cover b x y hc with hq | hq | hq | hq
        · exact Or.inl (Or.inl (Or.inl ⟨h1, h2, hq⟩))
        · exact Or.inl (Or.inl (Or.inr ⟨h1, h2, hq⟩))
        · exact Or.inl (Or.inr ⟨h1, h2, hq⟩)
        · exact Or.inr ⟨h1, h2, hq⟩
    · rw [if_neg hc]
      simp only [List.not_mem_nil, false_iff, not_and]
      intro _ _
      exact hc

theorem good_leaves (mbr : Nat → iMBR) (s : List Nat) : ∀ (t : QuadTree), Good mbr s t →
    ∀ lf ∈ t.leaves, ∀ e, e ∈ lf.2 ↔ (e ∈ s ∧ lf.1.overlaps (mbr e) = true) := by
  intro t
  induction t with
  | leaf b d imm =>
    intro h lf hlf e
    simp only [Good] at h
    simp only [leaves, List.mem_singleton] at hlf
    subst hlf
    exact mem_of_good_leaf mbr s b imm h.2 e
  | node b d c0 c1 c2 c3 ih0 ih1 ih2 ih3 =>
    intro h lf hlf e
    simp only [Good] at h
    obtain ⟨hb, e0, e1, e2, e3, g0, g1, g2, g3⟩ := h
    simp only [leaves, List.mem_append] at hlf
    rcases hlf with ((hlf | hlf) | hlf) | hlf
    · exact ih0 g0 lf hlf e
    · exact ih1 g1 lf hlf e
    · exact ih2 g2 lf hlf e
    · exact ih3 g3 lf hlf e

theorem leaves_cover (mbr : Nat → iMBR) (s : List Nat) (e : Nat) (he : (mbr e).WF) :
    ∀ (t : QuadTree), Good mbr s t → t.getMBR.overlaps (mbr e) = true →
      ∃ lf ∈ t.leaves, lf.1.overlaps (mbr e) = true := by
  intro t
  induction t with
  | leaf b d imm =>
    intro _ ho
    exact ⟨(b, imm), by simp only [leaves, List.mem_singleton], ho⟩
  | node b d c0 c1 c2 c3 ih0 ih1 ih2 ih3 =>
    intro h ho
    simp only [Good] at h
    obtain ⟨hb, e0, e1, e2, e3, g0, g1, g2, g3⟩ := h
    rw [getMBR_node] at ho
    simp only [leaves, List.mem_append]
    rcases overlaps_cover b (mbr e) he ho with hc | hc | hc | hc
    · obtain ⟨lf, hlf, hov⟩ := ih0 g0 (by rw [e0]; exact hc)
      exact ⟨lf, Or.inl (Or.inl (Or.inl hlf)), hov⟩
    · obtain ⟨lf, hlf, hov⟩ := ih1 g1 (by rw [e1]; exact hc)
      exact ⟨lf, Or.inl (Or.inl (Or.inr hlf)), hov⟩
    · obtain ⟨lf, hlf, hov⟩ := ih2 g2 (by rw [e2]; exact hc)
      exact ⟨lf, Or.inl (Or.inr hlf), hov⟩
    · obtain ⟨lf, hlf, hov⟩ := ih3 g3 (by rw [e3]; exact hc)
      exact ⟨lf, Or.inr hlf, hov⟩

theorem good_run (mbr : Nat → iMBR) : ∀ (cs : List Call) (t : QuadTree) (s : List Nat),
    Good mbr s t → (∀ e ∈ s, (mbr e).WF) → (∀ c ∈ cs, (mbr c.item).WF) →
    Good mbr (inserted s cs) (run mbr t cs) ∧ (run mbr t cs).getMBR = t.getMBR ∧
    ∀ e ∈ inserted s cs, (mbr e).WF := by
  intro cs
  induction cs with
  | nil => intro t s h hs _; exact ⟨h, rfl, hs⟩
  | cons c cs ih =>
    intro t s h hs hcs
    have hrest : ∀ c' ∈ cs, (mbr c'.item).WF := fun c' hc' => hcs c' (List.mem_cons_of_mem _ hc')
    cases c with
    | insert item =>
      have hitem : (mbr item).WF := hcs (.insert item) (List.mem_cons_self _ _)
      have hs' : ∀ e ∈ item :: s, (mbr e).WF := by
        intro e he
        rcases List.mem_cons.mp he with h1 | h1
        · rw [h1]; exact hitem
        · exact hs e h1
      have := ih (t.insert mbr item) (item :: s) (good_insert mbr t s item h) hs' hrest
      refine ⟨this.1, ?_, this.2.2⟩
      rw [← insert_getMBR mbr t item]
      exact this.2.1
    | remove item =>
      have hs' : ∀ e ∈ s.filter (· ≠ item), (mbr e).WF :=
        fun e he => hs e (List.mem_filter.mp he).1
      have := ih (t.remove mbr item) (s.filter (· ≠ item)) (good_remove mbr s hs item t h) hs'
        hrest
      refine ⟨this.1, ?_, this.2.2⟩
      rw [← remove_getMBR mbr t item]
      exact this.2.1

theorem good_new (mbr : Nat → iMBR) (root : iMBR) (depth : Int) (h : root.WF) :
    Good mbr [] (new root depth) := by
  simp only [new, Good, List.count_nil, ite_self, implies_true, and_true]
  exact h

end QuadTree
/-! ## Properties of `QuadTree` -/

namespace QuadTree

theorem leaf_contains_root (mbr : Nat → iMBR) (s : List Nat) (x y : ℚ) : ∀ (t : QuadTree),
    Good mbr s t → ∀ lf ∈ t.leaves, lf.1.contains x y = true → t.getMBR.contains x y = true := by
  intro t
  induction t with
  | leaf b d imm =>
    intro _ lf hlf hc
    simp only [leaves, List.mem_singleton] at hlf
    subst hlf
    exact hc
  | node b d c0 c1 c2 c3 ih0 ih1 ih2 ih3 =>
    intro h lf hlf hc
    simp only [Good] at h
    obtain ⟨hb, e0, e1, e2, e3, g0, g1, g2, g3⟩ := h
    simp only [leaves, List.mem_append] at hlf
    rw [getMBR_node]
    rcases hlf with ((hlf | hlf) | hlf) | hlf
    · exact contains_of_bounds0 b x y hb (e0 ▸ ih0 g0 lf hlf hc)
    · exact contains_of_bounds1 b x y hb (e1 ▸ ih1 g1 lf hlf hc)
    · exact contains_of_bounds2 b x y hb (e2 ▸ ih2 g2 lf hlf hc)
    · exact contains_of_bounds3 b x y hb (e3 ▸ ih3 g3 lf hlf hc)

theorem count_hits (mbr : Nat → iMBR) (s : List Nat) (x y : ℚ) (e : Nat)
    (he : (mbr e).contains x y = true) : ∀ (t : QuadTree), Good mbr s t →
    (hits mbr t x y).count e = t.leavesAt x y * s.count e := by
  intro t
  induction t with
  | leaf b d imm =>
    intro h
    simp only [Good] at h
    simp only [hits, leavesAt, leaves]
    by_cases hc : b.contains x y = true
    · rw [if_pos hc, List.count_filter (p := fun item => (mbr item).contains x y) he, h.2 e,
        if_pos (iMBR.contains_overlaps b (mbr e) x y hc he)]
      simp only [List.filter_cons, hc, if_true, List.filter_nil, List.length_singleton,
        Nat.one_mul]
    · rw [if_neg hc]
      simp only [List.filter_cons, hc, Bool.false_eq_true, if_false, List.filter_nil,
        List.length_nil, Nat.zero_mul, List.count_nil]
  | node b d c0 c1 c2 c3 ih0 ih1 ih2 ih3 =>
    intro h
    have h' := h
    simp only [Good] at h'
    obtain ⟨hb, e0, e1, e2, e3, g0, g1, g2, g3⟩ := h'
    simp only [hits]
    by_cases hc : b.contains x y = true
    · rw [if_pos hc]
      simp only [List.count_append, ih0 g0, ih1 g1, ih2 g2, ih3 g3]
      simp only [leavesAt, leaves, List.filter_append, List.length_append]
      ring
    · rw [if_neg hc, List.count_nil]
      have hnone : (QuadTree.node b d c0 c1 c2 c3).leavesAt x y = 0 := by
        unfold leavesAt
        rw [List.length_eq_zero, List.filter_eq_nil_iff]
        intro lf hlf hlc
        exact hc (leaf_contains_root mbr s x y _ h lf hlf hlc)
      rw [hnone, Nat.zero_mul]

theorem inserted_map_insert : ∀ (fs s : List Nat),
    inserted s (fs.map Call.insert) = fs.reverse ++ s := by
  intro fs
  induction fs with
  | nil => intro s; rfl
  | cons a fs ih =>
    intro s
    simp only [List.map_cons, inserted, ih, List.reverse_cons, List.append_assoc,
      List.singleton_append]

/-- C8: for every tree reached from an empty root with a well-formed
rectangle by `insert` and `remove` of items with well-formed rectangles,
`locate(x, y, results)` keeps the old entries of `results`, appends
entries whose number it returns, and an item is among the appended entries
exactly when it is currently inserted, its own rectangle contains the
point, and the root rectangle contains the point; for a point outside the
root rectangle it appends nothing and returns 0. -/
theorem C8_locate (mbr : Nat → iMBR) (root : iMBR) (depth : Int) (cs : List Call) (x y : ℚ)
    (results : List Nat) (hroot : root.WF) (hwf : ∀ c ∈ cs, (mbr c.item).WF) :
    ∃ appended : List Nat,
      locate mbr (run mbr (new root depth) cs) x y results
        = ((appended.length : Int), results ++ appended) ∧
      (∀ e, e ∈ appended ↔
        (e ∈ inserted [] cs ∧ (mbr e).contains x y = true ∧ root.contains x y = true)) ∧
      (root.contains x y = false →
        locate mbr (run mbr (new root depth) cs) x y results = (0, results)) := by
  have hrun := good_run mbr cs (new root depth) [] (good_new mbr root depth hroot)
    (fun e he => absurd he (List.not_mem_nil e)) hwf
  have hmem := mem_hits mbr (inserted [] cs) x y _ hrun.1
  rw [hrun.2.1] at hmem
  have hb : (new root depth).getMBR = root := rfl
  rw [hb] at hmem
  refine ⟨hits mbr (run mbr (new root depth) cs) x y, locate_eq mbr x y _ results, hmem, ?_⟩
  intro hout
  have hnil : hits mbr (run mbr (new root depth) cs) x y = [] := by
    rw [List.eq_nil_iff_forall_not_mem]
    intro e he
    have := ((hmem e).mp he).2.2
    rw [hout] at this
    exact Bool.false_ne_true this
  rw [locate_eq, hnil]
  simp only [List.length_nil, Nat.cast_zero, List.append_nil]

/-- Witness for C8: five items inserted into the screen root (the tree
subdivides), one removed again, query at the origin. -/
theorem C8_locate_witness :
    (⟨-1, 1, -1, 1⟩ : iMBR).WF ∧
    (∀ c ∈ [Call.insert 0, .insert 1, .insert 2, .insert 3, .insert 4, .remove 1],
      (mbrFive c.item).WF) ∧
    ∃ appended : List Nat,
      locate mbrFive (run mbrFive (new ⟨-1, 1, -1, 1⟩ 1)
        [.insert 0, .insert 1, .insert 2, .insert 3, .insert 4, .remove 1]) 0 0 [7]
        = ((appended.length : Int), [7] ++ appended) ∧
      (∀ e, e ∈ appended ↔
        (e ∈ inserted [] [.insert 0, .insert 1, .insert 2, .insert 3, .insert 4, .remove 1] ∧
          (mbrFive e).contains 0 0 = true ∧ (⟨-1, 1, -1, 1⟩ : iMBR).contains 0 0 = true)) ∧
      ((⟨-1, 1, -1, 1⟩ : iMBR).contains 0 0 = false →
        locate mbrFive (run mbrFive (new ⟨-1, 1, -1, 1⟩ 1)
          [.insert 0, .insert 1, .insert 2, .insert 3, .insert 4, .remove 1]) 0 0 [7]
          = (0, [7])) :=
  ⟨by decide!, by decide!,
    C8_locate mbrFive ⟨-1, 1, -1, 1⟩ 1
      [.insert 0, .insert 1, .insert 2, .insert 3, .insert 4, .remove 1] 0 0 [7]
      (by decide!) (by decide!)⟩

/-- C9 (as stated, refuted): five pairwise non-overlapping squares in the
screen root; `locate` at the center of item 0, the origin, appends item 0
four times and returns 4, not once and 1. -/
theorem C9_counterexample :
    (∀ a ∈ [0, 1, 2, 3, 4], ∀ b ∈ [0, 1, 2, 3, 4], a ≠ b →
      (mbrFive a).overlaps (mbrFive b) = false) ∧
    locate mbrFive (run mbrFive screenRoot ([0, 1, 2, 3, 4].map Call.insert))
      (mbrFive 0).centerX (mbrFive 0).centerY [] = (4, [0, 0, 0, 0]) := by
  decide!

/-- C9 (amended): for a family of distinct items with well-formed, pairwise
non-overlapping rectangles inserted into an empty root with a well-formed
rectangle, `locate` at the center of one item's rectangle, when the root
rectangle contains that center, appends that item once for every leaf
whose rectangle contains the center, which is at least one leaf, appends
no other item, and returns the number of appended entries. -/
theorem C9_locate_center (mbr : Nat → iMBR) (root : iMBR) (depth : Int) (fs : List Nat)
    (e : Nat) (results : List Nat) (hroot : root.WF) (hnodup : fs.Nodup)
    (hwf : ∀ a ∈ fs, (mbr a).WF)
    (hdisj : ∀ a ∈ fs, ∀ b ∈ fs, a ≠ b → (mbr a).overlaps (mbr b) = false)
    (he : e ∈ fs) (hin : root.contains (mbr e).centerX (mbr e).centerY = true) :
    ∃ k : Nat, 1 ≤ k ∧
      k = (run mbr (new root depth) (fs.map Call.insert)).leavesAt
        (mbr e).centerX (mbr e).centerY ∧
      locate mbr (run mbr (new root depth) (fs.map Call.insert))
        (mbr e).centerX (mbr e).centerY results = ((k : Int), results ++ List.replicate k e) := by
  have hcs : ∀ c ∈ fs.map Call.insert, (mbr c.item).WF := by
    intro c hc
    obtain ⟨a, ha, rfl⟩ := List.mem_map.mp hc
    exact hwf a ha
  have hrun := good_run mbr (fs.map Call.insert) (new root depth) []
    (good_new mbr root depth hroot) (fun e he => absurd he (List.not_mem_nil e)) hcs
  rw [inserted_map_insert, List.append_nil] at hrun
  have hec := iMBR.contains_center (mbr e) (hwf e he)
  have hmem := mem_hits mbr fs.reverse (mbr e).centerX (mbr e).centerY _ hrun.1
  rw [hrun.2.1] at hmem
  have hb : (new root depth).getMBR = root := rfl
  rw [hb] at hmem
  have hall : ∀ a ∈ hits mbr (run mbr (new root depth) (fs.map Call.insert))
      (mbr e).centerX (mbr e).centerY, a = e := by
    intro a ha
    obtain ⟨h1, h2, _⟩ := (hmem a).mp ha
    by_contra hne
    have hov := iMBR.contains_overlaps (mbr a) (mbr e) _ _ h2 hec
    rw [hdisj a (List.mem_reverse.mp h1) e he hne] at hov
    exact Bool.false_ne_true hov
  have hcount := count_hits mbr fs.reverse (mbr e).centerX (mbr e).centerY e hec _ hrun.1
  rw [List.count_reverse, List.count_eq_one_of_mem hnodup he, Nat.mul_one] at hcount
  have hrep := List.eq_replicate_length.mpr hall
  have hlen : (hits mbr (run mbr (new root depth) (fs.map Call.insert))
      (mbr e).centerX (mbr e).centerY).length
      = (run mbr (new root depth) (fs.map Call.insert)).leavesAt
        (mbr e).centerX (mbr e).centerY := by
    rw [← hcount]
    conv_rhs => rw [hrep]
    rw [List.count_replicate_self]
  have hpos : e ∈ hits mbr (run mbr (new root depth) (fs.map Call.insert))
      (mbr e).centerX (mbr e).centerY :=
    (hmem e).mpr ⟨List.mem_reverse.mpr he, hec, hin⟩
  refine ⟨_, List.length_pos_of_mem hpos, hlen, ?_⟩
  rw [locate_eq, ← hrep]

/-- Witness for C9: the five squares of `mbrFive` in the screen root, query
at the center of item 1. -/
theorem C9_locate_center_witness :
    ∃ k : Nat, 1 ≤ k ∧
      k = (run mbrFive (new ⟨-1, 1, -1, 1⟩ 1) ([0, 1, 2, 3, 4].map Call.insert)).leavesAt
        (mbrFive 1).centerX (mbrFive 1).centerY ∧
      locate mbrFive (run mbrFive (new ⟨-1, 1, -1, 1⟩ 1) ([0, 1, 2, 3, 4].map Call.insert))
        (mbrFive 1).centerX (mbrFive 1).centerY [] = ((k : Int), [] ++ List.replicate k 1) :=
  C9_locate_center mbrFive ⟨-1, 1, -1, 1⟩ 1 [0, 1, 2, 3, 4] 1 [] (by decide!) (by decide)
    (by decide!) (by decide!) (by decide) (by decide!)

/-- C10: in every tree reached from an empty root with a well-formed
rectangle by `insert` and `remove` of items with well-formed rectangles,
the local list of each leaf holds exactly the currently inserted items
whose rectangle overlaps the leaf's rectangle; and every currently inserted
item whose rectangle overlaps the root's is in the list of some leaf, so
none is lost when leaves subdivide or merge. -/
theorem C10_leaf_lists (mbr : Nat → iMBR) (root : iMBR) (depth : Int) (cs : List Call)
    (hroot : root.WF) (hwf : ∀ c ∈ cs, (mbr c.item).WF) :
    (∀ lf ∈ (run mbr (new root depth) cs).leaves, ∀ e,
      e ∈ lf.2 ↔ (e ∈ inserted [] cs ∧ lf.1.overlaps (mbr e) = true)) ∧
    (∀ e ∈ inserted [] cs, root.overlaps (mbr e) = true →
      ∃ lf ∈ (run mbr (new root depth) cs).leaves, e ∈ lf.2) := by
  have hrun := good_run mbr cs (new root depth) [] (good_new mbr root depth hroot)
    (fun e he => absurd he (List.not_mem_nil e)) hwf
  have hleaves := good_leaves mbr (inserted [] cs) _ hrun.1
  refine ⟨hleaves, ?_⟩
  intro e he hov
  have hb : (run mbr (new root depth) cs).getMBR = root := hrun.2.1
  obtain ⟨lf, hlf, hlo⟩ := leaves_cover mbr (inserted [] cs) e (hrun.2.2 e he) _ hrun.1
    (by rw [hb]; exact hov)
  exact ⟨lf, hlf, (hleaves lf hlf e).mpr ⟨he, hlo⟩⟩

/-- Witness for C10: five items inserted into the screen root (the tree
subdivides), one removed again. -/
theorem C10_leaf_lists_witness :
    (⟨-1, 1, -1, 1⟩ : iMBR).WF ∧
    (∀ c ∈ [Call.insert 0, .insert 1, .insert 2, .insert 3, .insert 4, .remove 1],
      (mbrFive c.item).WF) ∧
    ((∀ lf ∈ (run mbrFive (new ⟨-1, 1, -1, 1⟩ 1)
        [.insert 0, .insert 1, .insert 2, .insert 3, .insert 4, .remove 1]).leaves, ∀ e,
      e ∈ lf.2 ↔
        (e ∈ inserted [] [.insert 0, .insert 1, .insert 2, .insert 3, .insert 4, .remove 1] ∧
          lf.1.overlaps (mbrFive e) = true)) ∧
    (∀ e ∈ inserted [] [.insert 0, .insert 1, .insert 2, .insert 3, .insert 4, .remove 1],
      (⟨-1, 1, -1, 1⟩ : iMBR).overlaps (mbrFive e) = true →
      ∃ lf ∈ (run mbrFive (new ⟨-1, 1, -1, 1⟩ 1)
        [.insert 0, .insert 1, .insert 2, .insert 3, .insert 4, .remove 1]).leaves, e ∈ lf.2)) :=
  ⟨by decide!, by decide!,
    C10_leaf_lists mbrFive ⟨-1, 1, -1, 1⟩ 1
      [.insert 0, .insert 1, .insert 2, .insert 3, .insert 4, .remove 1]
      (by decide!) (by decide!)⟩

end QuadTree

/-! ## Properties of binary32 rounding -/

namespace Float32

theorem two_zpow_pos (e : Int) : (0 : ℚ) < 2 ^ e := zpow_pos (by norm_num) e

theorem two_zpow_le {a b : Int} (h : a ≤ b) : (2 : ℚ) ^ a ≤ 2 ^ b :=
  zpow_le_zpow_right₀ (by norm_num) h

theorem expSearch_spec (a : ℚ) : ∀ (fuel : Nat) (e0 : Int),
    e0 ≤ expSearch a fuel e0 ∧ expSearch a fuel e0 ≤ e0 + fuel ∧
    (expSearch a fuel e0 < e0 + fuel → a < 2 ^ (expSearch a fuel e0 + 1)) ∧
    (e0 < expSearch a fuel e0 → (2 : ℚ) ^ (expSearch a fuel e0) ≤ a) := by
  intro fuel
  induction fuel with
  | zero =>
    intro e0
    simp only [expSearch]
    refine ⟨le_refl _, by omega, fun h => by omega, fun h => absurd h (lt_irrefl _)⟩
  | succ fuel ih =>
    intro e0
    simp only [expSearch]
    split
    · rename_i h
      refine ⟨le_refl _, by omega, fun _ => h, fun h' => absurd h' (lt_irrefl _)⟩
    · rename_i h
      obtain ⟨h1, h2, h3, h4⟩ := ih (e0 + 1)
      refine ⟨by omega, by push_cast; omega, fun hlt => h3 (by push_cast at hlt; omega), ?_⟩
      intro _
      by_cases heq : expSearch a fuel (e0 + 1) = e0 + 1
      · rw [heq]; exact not_lt.mp h
      · exact h4 (by omega)

theorem expOf_ge (v : ℚ) : -126 ≤ expOf v := (expSearch_spec |v| 254 (-126)).1

theorem expOf_le (v : ℚ) : expOf v ≤ 128 := by
  have := (expSearch_spec |v| 254 (-126)).2.1
  unfold expOf
  omega

theorem abs_lt_of_expOf (v : ℚ) (h : expOf v < 128) : |v| < 2 ^ (expOf v + 1) :=
  (expSearch_spec |v| 254 (-126)).2.2.1 (by unfold expOf at h; omega)

theorem le_abs_of_expOf (v : ℚ) (h : -126 < expOf v) : (2 : ℚ) ^ (expOf v) ≤ |v| :=
  (expSearch_spec |v| 254 (-126)).2.2.2 h

theorem expOf_mono (u v : ℚ) (h : |u| ≤ |v|) : expOf u ≤ expOf v := by
  by_contra hlt
  push_neg at hlt
  have h1 := le_abs_of_expOf u (by have := expOf_ge v; omega)
  have h2 := abs_lt_of_expOf v (by have := expOf_le u; omega)
  have h3 : (2 : ℚ) ^ (expOf v + 1) ≤ 2 ^ (expOf u) := two_zpow_le (by omega)
  linarith

theorem ulp_pos (v : ℚ) : 0 < ulp v := two_zpow_pos _

end Float32

namespace Float32

theorem le_roundHalfEven (q : ℚ) (k : Int) (h : (k : ℚ) ≤ q) : k ≤ roundHalfEven q := by
  have hk : k ≤ ⌊q⌋ := Int.le_floor.mpr h
  unfold roundHalfEven
  split
  · exact hk
  · split
    · omega
    · split <;> omega

theorem roundHalfEven_le (q : ℚ) (k : Int) (h : q ≤ (k : ℚ)) : roundHalfEven q ≤ k := by
  have hf : (⌊q⌋ : ℚ) ≤ q := Int.floor_le q
  have hk : ⌊q⌋ ≤ k := by exact_mod_cast le_trans hf h
  have hstep : ¬(q - ⌊q⌋ < 1 / 2) → ⌊q⌋ + 1 ≤ k := by
    intro hn
    have hlt : (⌊q⌋ : ℚ) < k := by linarith
    have : ⌊q⌋ < k := by exact_mod_cast hlt
    omega
  unfold roundHalfEven
  split
  · exact hk
  · rename_i hn
    split
    · exact hstep hn
    · split
      · exact hk
      · exact hstep hn

/-- On the grid of its own binade. -/
theorem grid_of_round_eq (r : ℚ) (h : round r = r) : ∃ n : Int, r = (n : ℚ) * ulp r :=
  ⟨roundHalfEven (r / ulp r), h.symm⟩

theorem zpow_split (e : Int) (k : Nat) : (2 : ℚ) ^ e = (2 : ℚ) ^ k * 2 ^ (e - k) := by
  rw [← zpow_natCast, ← zpow_add₀ (by norm_num : (2 : ℚ) ≠ 0)]
  congr 1
  omega

theorem le_round_of_grid (r v : ℚ) (n : Int) (hr : r = (n : ℚ) * ulp r) (h : r ≤ v) :
    r ≤ round v := by
  have hu := ulp_pos v
  rcases lt_trichotomy (expOf r) (expOf v) with hlt | heq | hgt
  · -- r lies in a lower binade
    have hvlo := le_abs_of_expOf v (by have := expOf_ge r; omega)
    have hrhi := abs_lt_of_expOf r (by have := expOf_le v; omega)
    have hmid : (2 : ℚ) ^ (expOf r + 1) ≤ 2 ^ (expOf v) := two_zpow_le (by omega)
    have hvpos : 0 < v := by
      by_contra hneg
      push_neg at hneg
      have h1 : |v| = -v := abs_of_nonpos hneg
      have h2 : |r| = -r := abs_of_nonpos (le_trans h hneg)
      linarith
    have hv : (2 : ℚ) ^ (expOf v) ≤ v := by rwa [abs_of_pos hvpos] at hvlo
    have hsplit : (2 : ℚ) ^ (expOf v) = ((2 ^ 23 : Int) : ℚ) * ulp v := by
      unfold ulp
      rw [zpow_split (expOf v) 23]
      norm_num
    have hk : (2 ^ 23 : Int) ≤ roundHalfEven (v / ulp v) := by
      apply le_roundHalfEven
      rw [le_div_iff₀ hu, ← hsplit]
      exact hv
    have hround : (2 : ℚ) ^ (expOf v) ≤ round v := by
      unfold round
      rw [hsplit]
      exact mul_le_mul_of_nonneg_right (by exact_mod_cast hk) (le_of_lt hu)
    have := le_abs_self r
    linarith
  · -- same binade
    have hue : ulp r = ulp v := by unfold ulp; rw [heq]
    have hk : n ≤ roundHalfEven (v / ulp v) := by
      apply le_roundHalfEven
      rw [le_div_iff₀ hu, ← hue, ← hr]
      exact h
    unfold round
    rw [hr, hue]
    exact mul_le_mul_of_nonneg_right (by exact_mod_cast hk) (le_of_lt hu)
  · -- r lies in a higher binade, so it is negative
    have hrlo := le_abs_of_expOf r (by have := expOf_ge v; omega)
    have hvhi := abs_lt_of_expOf v (by have := expOf_le r; omega)
    have hmid : (2 : ℚ) ^ (expOf v + 1) ≤ 2 ^ (expOf r) := two_zpow_le (by omega)
    have hrneg : r < 0 := by
      by_contra hpos
      push_neg at hpos
      have h1 : |r| = r := abs_of_nonneg hpos
      have := le_abs_self v
      linarith
    have hr2 : r ≤ -(2 : ℚ) ^ (expOf v + 1) := by
      rw [abs_of_neg hrneg] at hrlo
      linarith
    have hsplit : (2 : ℚ) ^ (expOf v + 1) = ((2 ^ 24 : Int) : ℚ) * ulp v := by
      have hexp : expOf v + 1 - ((24 : Nat) : Int) = expOf v - 23 := by push_cast; omega
      unfold ulp
      rw [zpow_split (expOf v + 1) 24, hexp]
      norm_num
    have hvlo : -(2 : ℚ) ^ (expOf v + 1) ≤ v := by
      have := neg_abs_le v
      linarith
    have hk : (-(2 ^ 24) : Int) ≤ roundHalfEven (v / ulp v) := by
      apply le_roundHalfEven
      rw [le_div_iff₀ hu]
      push_cast
      rw [hsplit] at hvlo
      push_cast at hvlo
      linarith
    have hround : -(2 : ℚ) ^ (expOf v + 1) ≤ round v := by
      unfold round
      rw [hsplit]
      have := mul_le_mul_of_nonneg_right
        (show ((-(2 ^ 24) : Int) : ℚ) ≤ (roundHalfEven (v / ulp v) : ℚ) by exact_mod_cast hk)
        (le_of_lt hu)
      push_cast at this ⊢
      linarith
    linarith

end Float32

namespace Float32

theorem round_le_of_grid (r v : ℚ) (n : Int) (hr : r = (n : ℚ) * ulp r) (h : v ≤ r) :
    round v ≤ r := by
  have hu := ulp_pos v
  rcases lt_trichotomy (expOf r) (expOf v) with hlt | heq | hgt
  · -- r lies in a lower binade, so v is negative
    have hvlo := le_abs_of_expOf v (by have := expOf_ge r; omega)
    have hrhi := abs_lt_of_expOf r (by have := expOf_le v; omega)
    have hmid : (2 : ℚ) ^ (expOf r + 1) ≤ 2 ^ (expOf v) := two_zpow_le (by omega)
    have hvneg : v < 0 := by
      by_contra hpos
      push_neg at hpos
      have h1 : |v| = v := abs_of_nonneg hpos
      have h2 : |r| = r := abs_of_nonneg (le_trans hpos h)
      linarith
    have hv : v ≤ -(2 : ℚ) ^ (expOf v) := by
      rw [abs_of_neg hvneg] at hvlo
      linarith
    have hsplit : (2 : ℚ) ^ (expOf v) = ((2 ^ 23 : Int) : ℚ) * ulp v := by
      unfold ulp
      rw [zpow_split (expOf v) 23]
      norm_num
    have hk : roundHalfEven (v / ulp v) ≤ (-(2 ^ 23) : Int) := by
      apply roundHalfEven_le
      rw [div_le_iff₀ hu]
      push_cast
      rw [hsplit] at hv
      push_cast at hv
      linarith
    have hround : round v ≤ -(2 : ℚ) ^ (expOf v) := by
      unfold round
      rw [hsplit]
      have := mul_le_mul_of_nonneg_right
        (show (roundHalfEven (v / ulp v) : ℚ) ≤ ((-(2 ^ 23) : Int) : ℚ) by exact_mod_cast hk)
        (le_of_lt hu)
      push_cast at this ⊢
      linarith
    have := neg_abs_le r
    linarith
  · -- same binade
    have hue : ulp r = ulp v := by unfold ulp; rw [heq]
    have hk : roundHalfEven (v / ulp v) ≤ n := by
      apply roundHalfEven_le
      rw [div_le_iff₀ hu, ← hue, ← hr]
      exact h
    unfold round
    rw [hr, hue]
    exact mul_le_mul_of_nonneg_right (by exact_mod_cast hk) (le_of_lt hu)
  · -- r lies in a higher binade, so it is positive
    have hrlo := le_abs_of_expOf r (by have := expOf_ge v; omega)
    have hvhi := abs_lt_of_expOf v (by have := expOf_le r; omega)
    have hmid : (2 : ℚ) ^ (expOf v + 1) ≤ 2 ^ (expOf r) := two_zpow_le (by omega)
    have hrpos : 0 < r := by
      by_contra hneg
      push_neg at hneg
      have h1 : |r| = -r := abs_of_nonpos hneg
      have := neg_abs_le v
      linarith
    have hr2 : (2 : ℚ) ^ (expOf v + 1) ≤ r := by
      rw [abs_of_pos hrpos] at hrlo
      linarith
    have hsplit : (2 : ℚ) ^ (expOf v + 1) = ((2 ^ 24 : Int) : ℚ) * ulp v := by
      have hexp : expOf v + 1 - ((24 : Nat) : Int) = expOf v - 23 := by push_cast; omega
      unfold ulp
      rw [zpow_split (expOf v + 1) 24, hexp]
      norm_num
    have hvhi2 : v ≤ (2 : ℚ) ^ (expOf v + 1) := by
      have := le_abs_self v
      linarith
    have hk : roundHalfEven (v / ulp v) ≤ (2 ^ 24 : Int) := by
      apply roundHalfEven_le
      rw [div_le_iff₀ hu, ← hsplit]
      exact hvhi2
    have hround : round v ≤ (2 : ℚ) ^ (expOf v + 1) := by
      unfold round
      rw [hsplit]
      exact mul_le_mul_of_nonneg_right (by exact_mod_cast hk) (le_of_lt hu)
    linarith

theorem grid_double (a : ℚ) (n : Int) (ha : a = (n : ℚ) * ulp a) (hfin : |a| < 2 ^ 128) :
    ∃ k : Int, 2 * a = (k : ℚ) * ulp (2 * a) := by
  have he : expOf a ≤ 127 := by
    by_contra hgt
    have h128 : expOf a = 128 := by have := expOf_le a; omega
    have := le_abs_of_expOf a (by omega)
    rw [h128] at this
    have h2 : (2 : ℚ) ^ (128 : Int) = 2 ^ 128 := by norm_num
    linarith
  have hhi := abs_lt_of_expOf a (by omega)
  have habs : |2 * a| = 2 * |a| := by rw [abs_mul]; norm_num
  have hlo : expOf a ≤ expOf (2 * a) := expOf_mono a (2 * a) (by
    rw [habs]; have := abs_nonneg a; linarith)
  have hup : expOf (2 * a) ≤ expOf a + 1 := by
    by_contra hgt
    push_neg at hgt
    have h1 := le_abs_of_expOf (2 * a) (by have := expOf_ge a; omega)
    have h2 : (2 : ℚ) ^ (expOf a + 2) ≤ 2 ^ (expOf (2 * a)) := two_zpow_le (by omega)
    have h3 : (2 : ℚ) ^ (expOf a + 2) = 2 * 2 ^ (expOf a + 1) := by
      rw [show expOf a + 2 = (expOf a + 1) + 1 by ring, zpow_add_one₀ (by norm_num)]
      ring
    rw [habs] at h1
    linarith
  rcases (show expOf (2 * a) = expOf a ∨ expOf (2 * a) = expOf a + 1 by omega) with h | h
  · refine ⟨2 * n, ?_⟩
    have hu : ulp (2 * a) = ulp a := by unfold ulp; rw [h]
    rw [hu]
    push_cast
    rw [mul_assoc, ← ha]
  · refine ⟨n, ?_⟩
    have hu : ulp (2 * a) = 2 * ulp a := by
      unfold ulp
      rw [h, show expOf a + 1 - 23 = (expOf a - 23) + 1 by ring, zpow_add_one₀ (by norm_num)]
      ring
    rw [hu, ← mul_assoc, mul_comm (n : ℚ) 2, mul_assoc, ← ha]

/-- The binary32 midpoint `(a + b) / 2` of two finite floats `a <= b` whose
sum does not overflow is a finite float between them. -/
theorem midpoint_between (a b : ℚ) (hab : a ≤ b) (ha : Representable a)
    (hb : Representable b) (hfin : (add a b).isFinite = true) :
    ∃ m, half (add a b) = finite m ∧ a ≤ m ∧ m ≤ b := by
  obtain ⟨na, hna⟩ := grid_of_round_eq a ha.2
  obtain ⟨nb, hnb⟩ := grid_of_round_eq b hb.2
  obtain ⟨ka, hka⟩ := grid_double a na hna ha.1
  obtain ⟨kb, hkb⟩ := grid_double b nb hnb hb.1
  have hs1 : 2 * a ≤ round (a + b) := le_round_of_grid (2 * a) (a + b) ka hka (by linarith)
  have hs2 : round (a + b) ≤ 2 * b := round_le_of_grid (2 * b) (a + b) kb hkb (by linarith)
  have hadd : add a b = finite (round (a + b)) := by
    unfold add ofRat at hfin ⊢
    split
    · rename_i h
      rw [if_pos h] at hfin
      simp [isFinite] at hfin
    · rfl
  have hm1 : a ≤ round (round (a + b) / 2) :=
    le_round_of_grid a _ na hna (by linarith)
  have hm2 : round (round (a + b) / 2) ≤ b :=
    round_le_of_grid b _ nb hnb (by linarith)
  refine ⟨round (round (a + b) / 2), ?_, hm1, hm2⟩
  rw [hadd]
  show ofRat (round (a + b) / 2) = _
  unfold ofRat
  rw [if_neg]
  have h1 := ha.1
  have h2 := hb.1
  rw [abs_lt] at h1 h2
  rw [not_le, abs_lt]
  constructor <;> linarith

end Float32

namespace Float32

theorem abs_roundHalfEven_sub_le (q : ℚ) : |(roundHalfEven q : ℚ) - q| ≤ 1 / 2 := by
  have h1 := Int.floor_le q
  have h2 := Int.lt_floor_add_one q
  unfold roundHalfEven
  rw [abs_le]
  split_ifs with ha hb hc
  · constructor <;> linarith
  · push_cast
    constructor <;> linarith
  · push_neg at ha hb
    constructor <;> linarith
  · push_neg at ha hb
    push_cast
    constructor <;> linarith

theorem abs_round_sub_le (v : ℚ) : |round v - v| ≤ ulp v / 2 := by
  have hu := ulp_pos v
  have h := abs_roundHalfEven_sub_le (v / ulp v)
  have heq : round v - v = ((roundHalfEven (v / ulp v) : ℚ) - v / ulp v) * ulp v := by
    unfold round
    field_simp
  rw [heq, abs_mul, abs_of_pos hu]
  have := mul_le_mul_of_nonneg_right h (le_of_lt hu)
  linarith

theorem expOf_short : expOf 32767 = 14 := by decide!

theorem grid_short : (32767 : ℚ) = ((16776704 : Int) : ℚ) * ulp 32767 := by decide!

theorem grid_neg_short : (-32767 : ℚ) = ((-16776704 : Int) : ℚ) * ulp (-32767) := by decide!

/-- A `float` product of magnitude at most 32767 is finite, of magnitude at
most 32767 and within `2 ^ -10` of the exact product. -/
theorem round_short (v : ℚ) (h1 : -32767 ≤ v) (h2 : v ≤ 32767) :
    ofRat v = finite (round v) ∧ -32767 ≤ round v ∧ round v ≤ 32767 ∧
    |round v - v| ≤ 1 / 1024 := by
  have hlo := le_round_of_grid (-32767) v _ grid_neg_short h1
  have hhi := round_le_of_grid 32767 v _ grid_short h2
  refine ⟨?_, hlo, hhi, ?_⟩
  · unfold ofRat
    rw [if_neg]
    rw [not_le, abs_lt]
    constructor <;> linarith [show (32767 : ℚ) < 2 ^ 128 by norm_num]
  · have he : expOf v ≤ 14 := by
      rw [← expOf_short]
      apply expOf_mono
      rw [abs_le]
      rw [show |(32767 : ℚ)| = 32767 by norm_num]
      exact ⟨h1, h2⟩
    have hu : ulp v ≤ 2 ^ (-9 : Int) := by
      unfold ulp
      exact two_zpow_le (by omega)
    have := abs_round_sub_le v
    have h9 : (2 : ℚ) ^ (-9 : Int) = 1 / 512 := by norm_num
    rw [h9] at hu
    linarith

/-- The sum of two floats does not overflow when its exact value has
magnitude at most 32767, as for coordinates inside the screen rectangle. -/
theorem add_isFinite_of_short (a b : ℚ) (h1 : -32767 ≤ a + b) (h2 : a + b ≤ 32767) :
    (add a b).isFinite = true := by
  unfold add
  rw [(round_short (a + b) h1 h2).1]
  rfl

end Float32

/-! ## Properties of `Manager::mousePressed` and `Manager::mouseReleased` -/

namespace Manager

theorem callHandlers_spec {σ : Type} (callback : Nat → σ → Bool × σ) :
    ∀ (hs : List Nat) (s : σ) (called : List (Nat × Bool)),
      ∃ log, (callHandlers callback hs s called).2.2 = called ++ log ∧
        Dispatched hs (callHandlers callback hs s called).1 log := by
  intro hs
  induction hs with
  | nil =>
    intro s called
    exact ⟨[], by simp [callHandlers], Or.inr ⟨rfl, rfl⟩⟩
  | cons h rest ih =>
    intro s called
    by_cases hc : (callback h s).1 = true
    · obtain ⟨log, hlog, hd⟩ := ih (callback h s).2 (called ++ [(h, (callback h s).1)])
      have hstep : callHandlers callback (h :: rest) s called
          = callHandlers callback rest (callback h s).2 (called ++ [(h, (callback h s).1)]) := by
        simp [callHandlers, hc]
      rw [hstep]
      refine ⟨(h, true) :: log, ?_, ?_⟩
      · rw [hlog, hc, List.append_assoc, List.singleton_append]
      · rcases hd with ⟨before, h', after, h1, h2, h3⟩ | ⟨h2, h3⟩
        · refine Or.inl ⟨h :: before, h', after, ?_, ?_, h3⟩
          · rw [h1, List.cons_append]
          · rw [h2, List.map_cons, List.cons_append]
        · refine Or.inr ⟨?_, h3⟩
          rw [h2, List.map_cons]
    · have hf : (callback h s).1 = false := by simpa using hc
      have hstep : callHandlers callback (h :: rest) s called
          = (false, (callback h s).2, called ++ [(h, false)]) := by
        simp [callHandlers, hf]
      rw [hstep]
      exact ⟨[(h, false)], rfl, Or.inl ⟨[], h, rest, rfl, rfl, rfl⟩⟩

theorem found_eq_zero_iff (mbr : Nat → iMBR) (t : QuadTree) (x y : ℚ) :
    (QuadTree.locate mbr t x y []).1 = 0 ↔ (QuadTree.locate mbr t x y []).2 = [] := by
  rw [QuadTree.locate_eq]
  simp only [List.nil_append, Nat.cast_eq_zero, List.length_eq_zero]

theorem mousePressed_spec {σ : Type} (mbr : Nat → iMBR) (t : QuadTree)
    (cb : Nat → ℚ → ℚ → Nat → σ → Bool × σ) (mpx mpy : ℚ) (id : Nat) (s : σ) :
    (located mbr t mpx mpy ≠ [] ∧
      Dispatched (located mbr t mpx mpy) (mousePressed mbr t cb mpx mpy id s).1
        (mousePressed mbr t cb mpx mpy id s).2.2) ∨
    (located mbr t mpx mpy = [] ∧ mousePressed mbr t cb mpx mpy id s = (false, s, [])) := by
  by_cases h0 : (QuadTree.locate mbr t (2 * (mpx - 1 / 2)) (2 * (1 / 2 - mpy)) []).1 = 0
  · right
    refine ⟨(found_eq_zero_iff mbr t _ _).mp h0, ?_⟩
    simp only [mousePressed, h0, if_true]
  · left
    refine ⟨fun hnil => h0 ((found_eq_zero_iff mbr t _ _).mpr hnil), ?_⟩
    obtain ⟨log, hlog, hd⟩ := callHandlers_spec
      (fun h => cb h (2 * (mpx - 1 / 2)) (2 * (1 / 2 - mpy)) id)
      (QuadTree.locate mbr t (2 * (mpx - 1 / 2)) (2 * (1 / 2 - mpy)) []).2 s []
    simp only [mousePressed, h0, if_false, located]
    rw [hlog, List.nil_append]
    exact hd

theorem mouseReleased_spec {σ : Type} (mbr : Nat → iMBR) (t : QuadTree)
    (cb : Nat → ℚ → ℚ → Nat → σ → Bool × σ) (mpx mpy : ℚ) (id : Nat) (s : σ) :
    (located mbr t mpx mpy ≠ [] ∧
      Dispatched (located mbr t mpx mpy) (mouseReleased mbr t cb mpx mpy id s).1
        (mouseReleased mbr t cb mpx mpy id s).2.2) ∨
    (located mbr t mpx mpy = [] ∧ mouseReleased mbr t cb mpx mpy id s = (false, s, [])) := by
  by_cases h0 : (QuadTree.locate mbr t (2 * (mpx - 1 / 2)) (2 * (1 / 2 - mpy)) []).1 = 0
  · right
    refine ⟨(found_eq_zero_iff mbr t _ _).mp h0, ?_⟩
    simp only [mouseReleased, h0, if_true]
  · left
    refine ⟨fun hnil => h0 ((found_eq_zero_iff mbr t _ _).mpr hnil), ?_⟩
    obtain ⟨log, hlog, hd⟩ := callHandlers_spec
      (fun h => cb h (2 * (mpx - 1 / 2)) (2 * (1 / 2 - mpy)) id)
      (QuadTree.locate mbr t (2 * (mpx - 1 / 2)) (2 * (1 / 2 - mpy)) []).2 s []
    simp only [mouseReleased, h0, if_false, located]
    rw [hlog, List.nil_append]
    exact hd

/-- C15 (evaluation at the failing input): with no handler in the tree, a
press or a release at the middle of the screen calls nothing and returns
false, the value documented as "this click was handled". -/
theorem C15_returns_false_without_handler {σ : Type}
    (pressed released : Nat → ℚ → ℚ → Nat → σ → Bool × σ) (id : Nat) (s : σ) :
    located QuadTree.mbrFive QuadTree.screenRoot (1 / 2) (1 / 2) = [] ∧
    mousePressed QuadTree.mbrFive QuadTree.screenRoot pressed (1 / 2) (1 / 2) id s
      = (false, s, []) ∧
    mouseReleased QuadTree.mbrFive QuadTree.screenRoot released (1 / 2) (1 / 2) id s
      = (false, s, []) := by
  have hloc : located QuadTree.mbrFive QuadTree.screenRoot (1 / 2) (1 / 2) = [] := by
    decide!
  refine ⟨hloc, ?_, ?_⟩
  · rcases mousePressed_spec QuadTree.mbrFive QuadTree.screenRoot pressed (1 / 2) (1 / 2) id s
      with ⟨hne, _⟩ | ⟨_, heq⟩
    · exact absurd hloc hne
    · exact heq
  · rcases mouseReleased_spec QuadTree.mbrFive QuadTree.screenRoot released (1 / 2) (1 / 2) id s
      with ⟨hne, _⟩ | ⟨_, heq⟩
    · exact absurd hloc hne
    · exact heq

end Manager
/-! ## Properties of the setters of `iQuadRenderable` -/

namespace iQuadRenderable

theorem storeZ_getElem? (l : List i16vec3) (i : Nat) (v : Int) (j : Nat) :
    (storeZ l i v)[j]? =
      if j = i then (l[j]?).map (fun c => { c with z := toShort v }) else l[j]? := by
  unfold storeZ
  by_cases hji : j = i
  · subst hji
    rw [if_pos rfl]
    cases h : l[j]? with
    | none => simp [h]
    | some c =>
      have hlt : j < l.length := by
        rcases List.getElem?_eq_some_iff.mp h with ⟨hlt, _⟩
        exact hlt
      simp [List.getElem?_set, hlt]
  · rw [if_neg hji]
    cases h : l[i]? with
    | none => rfl
    | some c =>
      simp only
      rw [List.getElem?_set_ne (fun h => hji h.symm)]

theorem storeX_getElem? (l : List i16vec3) (i : Nat) (v : Int) (j : Nat) :
    (storeX l i v)[j]? =
      if j = i then (l[j]?).map (fun c => { c with x := toShort v }) else l[j]? := by
  unfold storeX
  by_cases hji : j = i
  · subst hji
    rw [if_pos rfl]
    cases h : l[j]? with
    | none => simp [h]
    | some c =>
      have hlt : j < l.length := by
        rcases List.getElem?_eq_some_iff.mp h with ⟨hlt, _⟩
        exact hlt
      simp [List.getElem?_set, hlt]
  · rw [if_neg hji]
    cases h : l[i]? with
    | none => rfl
    | some c =>
      simp only
      rw [List.getElem?_set_ne (fun h => hji h.symm)]

theorem storeY_getElem? (l : List i16vec3) (i : Nat) (v : Int) (j : Nat) :
    (storeY l i v)[j]? =
      if j = i then (l[j]?).map (fun c => { c with y := toShort v }) else l[j]? := by
  unfold storeY
  by_cases hji : j = i
  · subst hji
    rw [if_pos rfl]
    cases h : l[j]? with
    | none => simp [h]
    | some c =>
      have hlt : j < l.length := by
        rcases List.getElem?_eq_some_iff.mp h with ⟨hlt, _⟩
        exact hlt
      simp [List.getElem?_set, hlt]
  · rw [if_neg hji]
    cases h : l[i]? with
    | none => rfl
    | some c =>
      simp only
      rw [List.getElem?_set_ne (fun h => hji h.symm)]

theorem toShort_of_range {z : Int} (h1 : -32768 ≤ z) (h2 : z ≤ 32767) : toShort z = z := by
  unfold toShort
  omega

theorem xyFrame_refl (lo : Nat) (v : List i16vec3) : XYFrame lo v v :=
  fun _ => ⟨rfl, fun _ => rfl⟩

theorem xyFrame_trans (lo : Nat) (v v' v'' : List i16vec3) (h1 : XYFrame lo v v')
    (h2 : XYFrame lo v' v'') : XYFrame lo v v'' := by
  intro j
  refine ⟨(h2 j).1.trans (h1 j).1, fun hout => ?_⟩
  rw [(h2 j).2 hout, (h1 j).2 hout]

theorem xyFrame_storeX (lo : Nat) (v : List i16vec3) (i : Nat) (a : Int)
    (hi : lo ≤ i ∧ i < lo + 4) : XYFrame lo v (storeX v i a) := by
  intro j
  rw [storeX_getElem?]
  by_cases hji : j = i
  · subst hji
    rw [if_pos rfl]
    refine ⟨?_, fun hout => absurd hi hout⟩
    cases v[j]? <;> rfl
  · rw [if_neg hji]
    exact ⟨rfl, fun _ => rfl⟩

theorem xyFrame_storeY (lo : Nat) (v : List i16vec3) (i : Nat) (a : Int)
    (hi : lo ≤ i ∧ i < lo + 4) : XYFrame lo v (storeY v i a) := by
  intro j
  rw [storeY_getElem?]
  by_cases hji : j = i
  · subst hji
    rw [if_pos rfl]
    refine ⟨?_, fun hout => absurd hi hout⟩
    cases v[j]? <;> rfl
  · rw [if_neg hji]
    exact ⟨rfl, fun _ => rfl⟩

theorem setQuadXY_frame (e : iQuadRenderable) (quad : Nat) (x y w h : Int) :
    XYFrame (4 * wrap16 quad) e._vCoords (e.setQuadXY quad x y w h)._vCoords := by
  unfold setQuadXY
  simp only
  refine xyFrame_trans _ _ _ _ ?_ (xyFrame_storeY _ _ _ _ (by omega))
  refine xyFrame_trans _ _ _ _ ?_ (xyFrame_storeX _ _ _ _ (by omega))
  refine xyFrame_trans _ _ _ _ ?_ (xyFrame_storeY _ _ _ _ (by omega))
  refine xyFrame_trans _ _ _ _ ?_ (xyFrame_storeX _ _ _ _ (by omega))
  refine xyFrame_trans _ _ _ _ ?_ (xyFrame_storeY _ _ _ _ (by omega))
  refine xyFrame_trans _ _ _ _ ?_ (xyFrame_storeX _ _ _ _ (by omega))
  refine xyFrame_trans _ _ _ _ ?_ (xyFrame_storeY _ _ _ _ (by omega))
  exact xyFrame_storeX _ _ _ _ (by omega)

theorem setQuadZ_getElem? (e : iQuadRenderable) (quad : Nat) (z : Int) (j : Nat) :
    (e.setQuadZ quad z)._vCoords[j]? =
      if 4 * wrap16 quad ≤ j ∧ j < 4 * wrap16 quad + 4 then
        (e._vCoords[j]?).map (fun c => { c with z := toShort z })
      else e._vCoords[j]? := by
  unfold setQuadZ
  simp only [storeZ_getElem?]
  split_ifs <;> first | rfl | (exfalso; omega)

theorem setQuadsZLoop_none (count : Nat) (z : Int) (h : 65536 ≤ count * 4) :
    ∀ (fuel i : Nat) (v : List i16vec3), i < 65536 → setQuadsZLoop count z fuel i v = none := by
  intro fuel
  induction fuel with
  | zero => intro i v _; rfl
  | succ fuel ih =>
    intro i v hi
    rw [setQuadsZLoop, if_pos (by omega)]
    exact ih _ _ (QuadRendererBase.wrap16_lt _)

theorem setQuadsZLoop_some (count : Nat) (z : Int) (h : count * 4 ≤ 65535) :
    ∀ (fuel i : Nat) (v : List i16vec3), i ≤ count * 4 → count * 4 - i < fuel →
      ∃ v', setQuadsZLoop count z fuel i v = some v' ∧
        ∀ j, v'[j]? = if i ≤ j ∧ j < count * 4 then
          (v[j]?).map (fun c => { c with z := toShort z }) else v[j]? := by
  intro fuel
  induction fuel with
  | zero => intro i v _ hf; omega
  | succ fuel ih =>
    intro i v hi hf
    by_cases hlt : i < count * 4
    · rw [setQuadsZLoop, if_pos hlt, wrap16_of_lt (by omega)]
      obtain ⟨v', hv', hget⟩ := ih (i + 1) (storeZ v i z) (by omega) (by omega)
      refine ⟨v', hv', fun j => ?_⟩
      rw [hget j]
      simp only [storeZ_getElem?]
      by_cases hji : j = i
      · subst hji
        rw [if_neg (by omega), if_pos rfl, if_pos ⟨Nat.le_refl _, hlt⟩]
      · rw [if_neg hji]
        by_cases hc : i ≤ j ∧ j < count * 4
        · rw [if_pos hc, if_pos (by omega)]
        · rw [if_neg hc, if_neg (by omega)]
    · rw [setQuadsZLoop, if_neg hlt]
      refine ⟨v, rfl, fun j => ?_⟩
      rw [if_neg (by omega)]

theorem clamp_of_one_le (x : ℚ) (h : 1 ≤ x) : clamp x (-1) 1 = 1 := by
  unfold clamp
  rw [max_eq_left (by linarith), min_eq_right h]

theorem clamp_of_le_neg_one (x : ℚ) (h : x ≤ -1) : clamp x (-1) 1 = -1 := by
  unfold clamp
  rw [max_eq_right h, min_eq_left (by norm_num)]

theorem clamp_clamp (x : ℚ) : clamp (clamp x (-1) 1) (-1) 1 = clamp x (-1) 1 := by
  rcases le_total 1 x with h | h
  · rw [clamp_of_one_le x h, clamp_of_one_le 1 (le_refl 1)]
  · rcases le_total x (-1) with g | g
    · rw [clamp_of_le_neg_one x g, clamp_of_le_neg_one (-1) (le_refl _)]
    · have hx : clamp x (-1) 1 = x := by
        unfold clamp
        rw [max_eq_left g, min_eq_left h]
      rw [hx, hx]

theorem clamp_bounds (a : ℚ) : -1 ≤ clamp a (-1) 1 ∧ clamp a (-1) 1 ≤ 1 := by
  unfold clamp
  constructor
  · exact le_min (le_max_right _ _) (by norm_num)
  · exact min_le_right _ _

theorem tdiv_num_den (p : ℚ) : p.num.tdiv p.den = if 0 ≤ p then ⌊p⌋ else ⌈p⌉ := by
  split_ifs with hp
  · have hf : ⌊p⌋ = p.num / p.den := Rat.floor_def' p
    rw [hf, Int.tdiv_eq_ediv (Rat.num_nonneg.mpr hp) (by exact_mod_cast Nat.zero_le _)]
  · push_neg at hp
    have hneg : 0 ≤ -p := by linarith
    have h1 : (-p).num.tdiv (-p).den = ⌊-p⌋ := by
      have hf : ⌊-p⌋ = (-p).num / (-p).den := Rat.floor_def' (-p)
      rw [hf, Int.tdiv_eq_ediv (Rat.num_nonneg.mpr hneg) (by exact_mod_cast Nat.zero_le _)]
    rw [Rat.num_neg_eq_neg_num, Rat.den_neg_eq_den, Int.neg_tdiv, Int.floor_neg] at h1
    omega

/-- The conversion of a `float` in the range of a `GLshort` drops the
fraction: the floor of a value that is not negative, the ceiling of a
negative one. -/
theorem castShort_of_range (p : ℚ) (h1 : -32767 ≤ p) (h2 : p ≤ 32767) :
    castShort p = (if 0 ≤ p then ⌊p⌋ else ⌈p⌉) ∧ -32767 ≤ castShort p ∧ castShort p ≤ 32767 := by
  have ht := tdiv_num_den p
  have hr : -32767 ≤ p.num.tdiv p.den ∧ p.num.tdiv p.den ≤ 32767 := by
    rw [ht]
    split_ifs with hp
    · constructor
      · have : (0 : Int) ≤ ⌊p⌋ := Int.floor_nonneg.mpr hp
        omega
      · have : ⌊p⌋ < (32768 : Int) := Int.floor_lt.mpr (by push_cast; linarith)
        omega
    · push_neg at hp
      constructor
      · have : ((-32767 : Int) : ℚ) ≤ p := by push_cast; exact h1
        exact Int.le_ceil_iff.mpr (by push_cast; linarith)
      · have : ⌈p⌉ ≤ 0 := Int.ceil_le.mpr (by push_cast; linarith)
        omega
  have hc : castShort p = p.num.tdiv p.den := by
    unfold castShort
    exact toShort_of_range (by omega) (by omega)
  rw [hc]
  exact ⟨ht, hr⟩

theorem scaleShort_spec (a : ℚ) :
    Float32.ofRat (clamp a (-1) 1 * 32767)
      = Float32.finite (Float32.round (clamp a (-1) 1 * 32767)) ∧
    |Float32.round (clamp a (-1) 1 * 32767) - clamp a (-1) 1 * 32767| ≤ 1 / 1024 ∧
    scaleShort a = (if 0 ≤ Float32.round (clamp a (-1) 1 * 32767)
      then ⌊Float32.round (clamp a (-1) 1 * 32767)⌋
      else ⌈Float32.round (clamp a (-1) 1 * 32767)⌉) ∧
    -32767 ≤ scaleShort a ∧ scaleShort a ≤ 32767 := by
  have hc := clamp_bounds a
  have hr := Float32.round_short (clamp a (-1) 1 * 32767) (by linarith) (by linarith)
  have hs := castShort_of_range _ hr.2.1 hr.2.2.1
  have hdef : scaleShort a = castShort (Float32.round (clamp a (-1) 1 * 32767)) := by
    unfold scaleShort SHRT_MAX
    norm_num
  rw [hdef]
  exact ⟨hr.1, hr.2.2.2, hs.1, hs.2.1, hs.2.2⟩

theorem scaleShort_one : scaleShort 1 = 32767 := by decide!

theorem scaleShort_neg_one : scaleShort (-1) = -32767 := by decide!

theorem scaleShort_clamp (a : ℚ) : scaleShort (clamp a (-1) 1) = scaleShort a := by
  unfold scaleShort
  rw [clamp_clamp]

theorem setQuadXY_getElem? (e : iQuadRenderable) (quad : Nat) (x y w h : Int) (j : Nat) :
    (e.setQuadXY quad x y w h)._vCoords[j]? =
      (e._vCoords[j]?).map (fun c =>
        if j = 4 * wrap16 quad then
          ⟨toShort (toShort x), toShort (toShort y), c.z⟩
        else if j = 4 * wrap16 quad + 1 then
          ⟨toShort (toShort x + toShort w), toShort (toShort y), c.z⟩
        else if j = 4 * wrap16 quad + 2 then
          ⟨toShort (toShort x + toShort w), toShort (toShort y + toShort h), c.z⟩
        else if j = 4 * wrap16 quad + 3 then
          ⟨toShort (toShort x), toShort (toShort y + toShort h), c.z⟩
        else c) := by
  unfold setQuadXY
  simp only [storeX_getElem?, storeY_getElem?]
  cases e._vCoords[j]? with
  | none => split_ifs <;> rfl
  | some c =>
    by_cases h0 : j = 4 * wrap16 quad
    · subst h0; simp
    · by_cases h1 : j = 4 * wrap16 quad + 1
      · subst h1; simp
      · by_cases h2 : j = 4 * wrap16 quad + 2
        · subst h2; simp
        · by_cases h3 : j = 4 * wrap16 quad + 3
          · subst h3; simp
          · simp [h0, h1, h2, h3]


/-- C16 (evaluation at the failing input): a one-quad element is rendered
at offset 0, then `setQuadsZ(5)` stores z = 5 in its four corners without
marking it dirty, and the next render at offset 0 without force returns
false and leaves z = 0 in the shared array. -/
theorem C16_setQuadsZ_not_dirty :
    depthThenRender = some (false,
      [⟨0, 0, 0⟩, ⟨0, 0, 0⟩, ⟨0, 0, 0⟩, ⟨0, 0, 0⟩],
      [⟨0, 0, 5⟩, ⟨0, 0, 5⟩, ⟨0, 0, 5⟩, ⟨0, 0, 5⟩]) := by
  decide

/-- C17 (as stated, refuted): for an element of 16385 quads the loop of
`setQuadsZ` never ends, whatever bound is put on its tests: the `uint16_t`
counter cannot reach `4 * 16385`. -/
theorem C17_counterexample :
    ¬ ∃ fuel, (setQuadsZ fuel (iQuadRenderable.new 16385) 5).isSome = true := by
  rintro ⟨fuel, h⟩
  have hc : (iQuadRenderable.new 16385)._count = 16385 := by decide
  unfold setQuadsZ at h
  rw [setQuadsZLoop_none _ 5 (by rw [hc]; decide) fuel 0 _ (by decide)] at h
  exact Bool.false_ne_true h

/-- C17 (amended): for a quad index `q < N` and a 16-bit `z`, `setQuadZ(q, z)`
sets the z of exactly the corners `4q .. 4q+3` to `z` and changes no other
component of any corner; `setQuadsZ(z)`, for an element of fewer than 16384
quads, returns and sets the z of all `4 * N` corners to `z`, changing no x
and no y; both overloads of `setQuadXY(q, ...)` change at most the x and y
of the corners `4q .. 4q+3`, no z and no other corner. -/
theorem C17_setter_frames (e : iQuadRenderable) (q : Nat) (z : Int)
    (hlen : e._vCoords.length = e._count * 4) (hN : e._count < 65536) (hq : q < e._count)
    (hz : -32768 ≤ z ∧ z ≤ 32767) :
    ((e.setQuadZ q z)._count = e._count ∧
      (∀ j, 4 * q ≤ j → j < 4 * q + 4 → ∃ c, e._vCoords[j]? = some c ∧
        (e.setQuadZ q z)._vCoords[j]? = some { c with z := z }) ∧
      ∀ j, (e.setQuadZ q z)._vCoords[j]? =
        if 4 * q ≤ j ∧ j < 4 * q + 4 then (e._vCoords[j]?).map (fun c => { c with z := z })
        else e._vCoords[j]?) ∧
    (e._count < 16384 → ∀ fuel, e._count * 4 < fuel →
      ∃ e', setQuadsZ fuel e z = some e' ∧ e'._count = e._count ∧
        ∀ j, e'._vCoords[j]? =
          if j < e._count * 4 then (e._vCoords[j]?).map (fun c => { c with z := z })
          else e._vCoords[j]?) ∧
    (∀ x y w h : Int, (e.setQuadXY q x y w h)._count = e._count ∧
      XYFrame (4 * q) e._vCoords (e.setQuadXY q x y w h)._vCoords) ∧
    (∀ x y w h : ℚ, (e.setQuadXYf q x y w h)._count = e._count ∧
      XYFrame (4 * q) e._vCoords (e.setQuadXYf q x y w h)._vCoords) := by
  have hw : wrap16 q = q := wrap16_of_lt (by omega)
  have hzs : toShort z = z := toShort_of_range hz.1 hz.2
  refine ⟨⟨rfl, fun j h1 h2 => ?_, fun j => ?_⟩, ?_, ?_, ?_⟩
  · have hj : j < e._vCoords.length := by omega
    refine ⟨e._vCoords[j], List.getElem?_eq_getElem hj, ?_⟩
    rw [setQuadZ_getElem?, hw, hzs, if_pos ⟨h1, h2⟩, List.getElem?_eq_getElem hj]
    rfl
  · rw [setQuadZ_getElem?, hw, hzs]
  · intro hsmall fuel hfuel
    obtain ⟨v', hv', hget⟩ := setQuadsZLoop_some e._count z (by omega) fuel 0 e._vCoords
      (Nat.zero_le _) (by omega)
    refine ⟨{ e with _vCoords := v' }, ?_, rfl, fun j => ?_⟩
    · unfold setQuadsZ
      rw [hv']
    · rw [hget j, hzs]
      simp only [Nat.zero_le, true_and]
  · intro x y w h
    have := setQuadXY_frame e q x y w h
    rw [hw] at this
    exact ⟨rfl, this⟩
  · intro x y w h
    have := setQuadXY_frame e q (scaleShort x) (scaleShort y) (scaleShort w) (scaleShort h)
    rw [hw] at this
    exact ⟨rfl, this⟩

/-- Witness for C17: quad 1 of a fresh three-quad element, z = 7. -/
theorem C17_setter_frames_witness :
    ((iQuadRenderable.new 3)._vCoords.length = (iQuadRenderable.new 3)._count * 4 ∧
      (iQuadRenderable.new 3)._count < 65536 ∧ 1 < (iQuadRenderable.new 3)._count ∧
      ((-32768 : Int) ≤ 7 ∧ (7 : Int) ≤ 32767)) ∧
    ((iQuadRenderable.new 3).setQuadZ 1 7)._count = (iQuadRenderable.new 3)._count ∧
    ∃ e', setQuadsZ 13 (iQuadRenderable.new 3) 7 = some e' ∧
      e'._count = (iQuadRenderable.new 3)._count ∧
      ∀ j, e'._vCoords[j]? =
        if j < (iQuadRenderable.new 3)._count * 4 then
          ((iQuadRenderable.new 3)._vCoords[j]?).map (fun c => { c with z := 7 })
        else (iQuadRenderable.new 3)._vCoords[j]? :=
  ⟨by decide,
    (C17_setter_frames (iQuadRenderable.new 3) 1 7 (by decide) (by decide) (by decide)
      (by decide)).1.1,
    (C17_setter_frames (iQuadRenderable.new 3) 1 7 (by decide) (by decide) (by decide)
      (by decide)).2.1 (by decide) 13 (by decide)⟩

/-- C18: the float overload `setQuadXY(q, x, y, w, h)` replaces every
argument by its clamp to `[-1, 1]`, scales it by 32767 in `float`
arithmetic (the product is finite and within `2 ^ -10` of the exact one),
drops the fraction, and stores the results: for a quad index `q` of the
element the corners `4q .. 4q+3` get the x and y values `(sx, sy)`,
`(sx + sw, sy)`, `(sx + sw, sy + sh)`, `(sx, sy + sh)` as 16-bit values,
their z and every other corner stay, and the element is marked modified.
An argument of 1 or more is stored as 32767, one of -1 or less as -32767,
so every `x > 1` gives the state that `x = 1` gives and every `x < -1` the
state that `x = -1` gives; in particular 2.0 acts as 1.0 and -5.0 as
-1.0. -/
theorem C18_saturation (e : iQuadRenderable) (q : Nat) (x y w h : ℚ)
    (hlen : e._vCoords.length = e._count * 4) (hN : e._count < 65536) (hq : q < e._count) :
    (∀ a : ℚ, ∃ p : ℚ,
      Float32.ofRat (clamp a (-1) 1 * 32767) = Float32.finite p ∧
      |p - clamp a (-1) 1 * 32767| ≤ 1 / 1024 ∧
      scaleShort a = (if 0 ≤ p then ⌊p⌋ else ⌈p⌉) ∧
      -32767 ≤ scaleShort a ∧ scaleShort a ≤ 32767 ∧
      scaleShort a = scaleShort (clamp a (-1) 1)) ∧
    (∀ a : ℚ, 1 ≤ a → scaleShort a = 32767) ∧
    (∀ a : ℚ, a ≤ -1 → scaleShort a = -32767) ∧
    (∃ c0 c1 c2 c3,
      e._vCoords[4 * q]? = some c0 ∧ e._vCoords[4 * q + 1]? = some c1 ∧
      e._vCoords[4 * q + 2]? = some c2 ∧ e._vCoords[4 * q + 3]? = some c3 ∧
      (e.setQuadXYf q x y w h)._vCoords[4 * q]?
        = some ⟨scaleShort x, scaleShort y, c0.z⟩ ∧
      (e.setQuadXYf q x y w h)._vCoords[4 * q + 1]?
        = some ⟨toShort (scaleShort x + scaleShort w), scaleShort y, c1.z⟩ ∧
      (e.setQuadXYf q x y w h)._vCoords[4 * q + 2]?
        = some ⟨toShort (scaleShort x + scaleShort w), toShort (scaleShort y + scaleShort h),
            c2.z⟩ ∧
      (e.setQuadXYf q x y w h)._vCoords[4 * q + 3]?
        = some ⟨scaleShort x, toShort (scaleShort y + scaleShort h), c3.z⟩) ∧
    (∀ j, ¬(4 * q ≤ j ∧ j < 4 * q + 4) →
      (e.setQuadXYf q x y w h)._vCoords[j]? = e._vCoords[j]?) ∧
    (e.setQuadXYf q x y w h)._modified = true ∧
    (e.setQuadXYf q x y w h)._count = e._count ∧
    (1 < x → e.setQuadXYf q x y w h = e.setQuadXYf q 1 y w h) ∧
    (x < -1 → e.setQuadXYf q x y w h = e.setQuadXYf q (-1) y w h) ∧
    e.setQuadXYf q 2 y w h = e.setQuadXYf q 1 y w h ∧
    e.setQuadXYf q (-5) y w h = e.setQuadXYf q (-1) y w h := by
  have hw : wrap16 q = q := wrap16_of_lt (by omega)
  have hsat1 : ∀ a : ℚ, 1 ≤ a → scaleShort a = 32767 := by
    intro a ha
    rw [← scaleShort_clamp, clamp_of_one_le a ha, scaleShort_one]
  have hsat2 : ∀ a : ℚ, a ≤ -1 → scaleShort a = -32767 := by
    intro a ha
    rw [← scaleShort_clamp, clamp_of_le_neg_one a ha, scaleShort_neg_one]
  have hts : ∀ a : ℚ, toShort (scaleShort a) = scaleShort a := fun a =>
    toShort_of_range (by have := (scaleShort_spec a).2.2.2.1; omega)
      (by have := (scaleShort_spec a).2.2.2.2; omega)
  have hget : ∀ j, (e.setQuadXYf q x y w h)._vCoords[j]? =
      (e._vCoords[j]?).map (fun c =>
        if j = 4 * q then ⟨scaleShort x, scaleShort y, c.z⟩
        else if j = 4 * q + 1 then
          ⟨toShort (scaleShort x + scaleShort w), scaleShort y, c.z⟩
        else if j = 4 * q + 2 then
          ⟨toShort (scaleShort x + scaleShort w), toShort (scaleShort y + scaleShort h), c.z⟩
        else if j = 4 * q + 3 then
          ⟨scaleShort x, toShort (scaleShort y + scaleShort h), c.z⟩
        else c) := by
    intro j
    unfold setQuadXYf
    simp only
    rw [setQuadXY_getElem?, hw]
    simp only [hts]
  refine ⟨fun a => ⟨Float32.round (clamp a (-1) 1 * 32767), (scaleShort_spec a).1,
      (scaleShort_spec a).2.1, (scaleShort_spec a).2.2.1, (scaleShort_spec a).2.2.2.1,
      (scaleShort_spec a).2.2.2.2, (scaleShort_clamp a).symm⟩,
    hsat1, hsat2, ?_, ?_, rfl, rfl, fun hx => ?_, fun hx => ?_, ?_, ?_⟩
  · have h0 : 4 * q < e._vCoords.length := by omega
    have h1 : 4 * q + 1 < e._vCoords.length := by omega
    have h2 : 4 * q + 2 < e._vCoords.length := by omega
    have h3 : 4 * q + 3 < e._vCoords.length := by omega
    refine ⟨e._vCoords[4 * q], e._vCoords[4 * q + 1], e._vCoords[4 * q + 2],
      e._vCoords[4 * q + 3], List.getElem?_eq_getElem h0, List.getElem?_eq_getElem h1,
      List.getElem?_eq_getElem h2, List.getElem?_eq_getElem h3, ?_, ?_, ?_, ?_⟩
    · rw [hget, List.getElem?_eq_getElem h0]
      simp
    · rw [hget, List.getElem?_eq_getElem h1]
      simp
    · rw [hget, List.getElem?_eq_getElem h2]
      simp
    · rw [hget, List.getElem?_eq_getElem h3]
      simp
  · intro j hj
    rw [hget]
    cases e._vCoords[j]? with
    | none => rfl
    | some c =>
      simp only [Option.map_some']
      rw [if_neg (by omega), if_neg (by omega), if_neg (by omega), if_neg (by omega)]
  · unfold setQuadXYf
    simp only [hsat1 x (le_of_lt hx), hsat1 1 (le_refl 1)]
  · unfold setQuadXYf
    simp only [hsat2 x (le_of_lt hx), hsat2 (-1) (le_refl _)]
  · unfold setQuadXYf
    simp only [hsat1 2 (by norm_num), hsat1 1 (le_refl 1)]
  · unfold setQuadXYf
    simp only [hsat2 (-5) (by norm_num), hsat2 (-1) (le_refl _)]

/-- Witness for C18: quad 0 of a fresh one-quad element with x = 3 and
y = 1/4, w = h = 1/2: the corners stored, and the same state as for
x = 1. -/
theorem C18_saturation_witness :
    ((iQuadRenderable.new 1)._vCoords.length = (iQuadRenderable.new 1)._count * 4 ∧
      (iQuadRenderable.new 1)._count < 65536 ∧ 0 < (iQuadRenderable.new 1)._count ∧
      (1 : ℚ) < 3) ∧
    (∃ c0 c1 c2 c3,
      (iQuadRenderable.new 1)._vCoords[4 * 0]? = some c0 ∧
      (iQuadRenderable.new 1)._vCoords[4 * 0 + 1]? = some c1 ∧
      (iQuadRenderable.new 1)._vCoords[4 * 0 + 2]? = some c2 ∧
      (iQuadRenderable.new 1)._vCoords[4 * 0 + 3]? = some c3 ∧
      ((iQuadRenderable.new 1).setQuadXYf 0 3 (1 / 4) (1 / 2) (1 / 2))._vCoords[4 * 0]?
        = some ⟨scaleShort 3, scaleShort (1 / 4), c0.z⟩ ∧
      ((iQuadRenderable.new 1).setQuadXYf 0 3 (1 / 4) (1 / 2) (1 / 2))._vCoords[4 * 0 + 1]?
        = some ⟨toShort (scaleShort 3 + scaleShort (1 / 2)), scaleShort (1 / 4), c1.z⟩ ∧
      ((iQuadRenderable.new 1).setQuadXYf 0 3 (1 / 4) (1 / 2) (1 / 2))._vCoords[4 * 0 + 2]?
        = some ⟨toShort (scaleShort 3 + scaleShort (1 / 2)),
            toShort (scaleShort (1 / 4) + scaleShort (1 / 2)), c2.z⟩ ∧
      ((iQuadRenderable.new 1).setQuadXYf 0 3 (1 / 4) (1 / 2) (1 / 2))._vCoords[4 * 0 + 3]?
        = some ⟨scaleShort 3, toShort (scaleShort (1 / 4) + scaleShort (1 / 2)), c3.z⟩) ∧
    (iQuadRenderable.new 1).setQuadXYf 0 3 (1 / 4) (1 / 2) (1 / 2)
      = (iQuadRenderable.new 1).setQuadXYf 0 1 (1 / 4) (1 / 2) (1 / 2) ∧
    scaleShort 3 = 32767 ∧ scaleShort (1 / 4) = 8191 ∧ scaleShort (1 / 2) = 16383 ∧
    scaleShort (4096125 / 134217728) = 1000 :=
  ⟨⟨by decide, by decide, by decide, by norm_num⟩,
    (C18_saturation (iQuadRenderable.new 1) 0 3 (1 / 4) (1 / 2) (1 / 2) (by decide) (by decide)
      (by decide)).2.2.2.1,
    (C18_saturation (iQuadRenderable.new 1) 0 3 (1 / 4) (1 / 2) (1 / 2) (by decide) (by decide)
      (by decide)).2.2.2.2.2.2.2.1 (by norm_num),
    by decide!, by decide!, by decide!, by decide!⟩

/-- C19 (evaluation at the failing input): `setQuadXY(0, 0.5, 0.0, 1.0, 0.5)`
on a fresh one-quad element stores the corners `(16383, 0)`, `(-16386, 0)`,
`(-16386, 16383)`, `(16383, 16383)`: the sum `16383 + 32767` of the clamped
x and width does not fit a `GLshort` and wraps, so the right edge lies left
of the left edge. -/
theorem C19_right_edge_wraps :
    ((iQuadRenderable.new 1).setQuadXYf 0 (1 / 2) 0 1 (1 / 2))._vCoords
      = [⟨16383, 0, 0⟩, ⟨-16386, 0, 0⟩, ⟨-16386, 16383, 0⟩, ⟨16383, 16383, 0⟩] := by
  decide!

end iQuadRenderable
/-! ## Properties of `TexturedQuadRenderer::drawElements` -/

namespace TexturedQuadRenderer

theorem drawCalls_append (a b : List GLCall) :
    drawCalls (a ++ b) = drawCalls a ++ drawCalls b := by
  simp only [drawCalls, List.filter_append]

theorem boundTextures_append (a b : List GLCall) :
    boundTextures (a ++ b) = boundTextures a ++ boundTextures b := by
  induction a with
  | nil => rfl
  | cons c a ih =>
    cases c <;> simp only [List.cons_append, boundTextures] <;> exact ih ▸ rfl

theorem foldl_drawQuad (hs : List Nat) : ∀ (st : DrawState),
    drawCalls (hs.foldl drawQuad st).calls
      = drawCalls st.calls ++ quadDraws st.offset hs.length ∧
    boundTextures (hs.foldl drawQuad st).calls
      = boundTextures st.calls ++ changes st.lastTextureId hs := by
  induction hs with
  | nil =>
    intro st
    simp only [List.foldl_nil, List.length_nil, quadDraws, changes, List.append_nil, and_self]
  | cons t hs ih =>
    intro st
    rw [List.foldl_cons]
    obtain ⟨h1, h2⟩ := ih (drawQuad st t)
    rw [h1, h2]
    by_cases hlt : st.lastTextureId = t
    · simp only [drawQuad, hlt, bne_self_eq_false, Bool.false_eq_true, if_false,
        drawCalls_append, boundTextures_append, List.length_cons, quadDraws, changes, if_true,
        List.nil_append, List.append_assoc]
      simp only [drawCalls, boundTextures, List.filter_cons, List.filter_nil, if_true,
        List.append_nil, List.singleton_append, List.nil_append, and_self]
    · have hb : (st.lastTextureId != t) = true := by simpa using hlt
      simp only [drawQuad, hb, if_true, hlt, if_false, drawCalls_append, boundTextures_append,
        List.length_cons, quadDraws, changes, List.append_assoc]
      simp only [drawCalls, boundTextures, List.filter_cons, List.filter_nil, if_true,
        List.append_nil, List.singleton_append, List.nil_append, Bool.false_eq_true, if_false,
        and_self]

theorem foldl_drawItem (heap : Nat → iTexturedQuadRenderable) (items : List Nat) :
    ∀ (st : DrawState), items.foldl (drawItem heap) st = (handles heap items).foldl drawQuad st := by
  induction items with
  | nil => intro st; rfl
  | cons r items ih =>
    intro st
    rw [List.foldl_cons, ih]
    simp only [handles, List.map_cons, List.flatten_cons, List.foldl_append, drawItem,
      List.foldl_map]

theorem quadDraws_length (n : Nat) : ∀ (offset : Nat), (quadDraws offset n).length = n := by
  induction n with
  | zero => intro _; rfl
  | succ n ih => intro offset; simp only [quadDraws, List.length_cons, ih]

/-- C20 (as stated, refuted): one visible element of two quads that share
texture 7 is a single run, yet `drawElements` issues two draw calls. -/
theorem C20_counterexample :
    runs (handles heapSameTexture
      (QuadRendererBase.new.show_ (fun a => (heapSameTexture a).toQuad) 1)._drawItems) = 1 ∧
    (drawCalls (drawElements heapSameTexture
      (QuadRendererBase.new.show_ (fun a => (heapSameTexture a).toQuad) 1))).length = 2 := by
  decide

/-- C20 (amended): `drawElements` issues exactly one draw call of six
indices per visible quad, in iteration order, the k-th at byte offset
`12 * (k mod 65536)`, so the number of draw calls is the number of visible
quads; and it binds a texture exactly at the quads whose handle differs
from that of the preceding quad (from 0 at the first quad). -/
theorem C20_draw_per_quad (heap : Nat → iTexturedQuadRenderable) (s : QuadRendererBase) :
    drawCalls (drawElements heap s) = quadDraws 0 (handles heap s._drawItems).length ∧
    (drawCalls (drawElements heap s)).length = (handles heap s._drawItems).length ∧
    boundTextures (drawElements heap s) = changes 0 (handles heap s._drawItems) := by
  have h := foldl_drawQuad (handles heap s._drawItems)
    { lastTextureId := 0, offset := 0, calls := [GLCall.glActiveTexture, GLCall.glUniform1i] }
  have hd : drawCalls [GLCall.glActiveTexture, GLCall.glUniform1i] = [] := rfl
  have hb : boundTextures [GLCall.glActiveTexture, GLCall.glUniform1i] = [] := rfl
  simp only [hd, hb, List.nil_append] at h
  unfold drawElements
  rw [foldl_drawItem]
  refine ⟨h.1, ?_, h.2⟩
  rw [h.1, quadDraws_length]

end TexturedQuadRenderer
/-! ## `QuadTree`: every node with children holds an item -/

namespace QuadTree

theorem insertFuel_skip (mbr : Nat → iMBR) (f : Nat) (t : QuadTree) (item : Nat)
    (h : t.getMBR.overlaps (mbr item) = false) : insertFuel mbr f t item = t := by
  cases f with
  | zero => rfl
  | succ f =>
    cases t with
    | leaf b d imm =>
      rw [getMBR_leaf] at h
      simp only [insertFuel, getMBR_leaf, h, Bool.not_false, if_true]
    | node b d c0 c1 c2 c3 =>
      rw [getMBR_node] at h
      simp only [insertFuel, getMBR_node, h, Bool.not_false, if_true]

theorem empty_leaves : ∀ (t : QuadTree), t.empty = true → ∀ lf ∈ t.leaves, lf.2 = [] := by
  intro t
  induction t with
  | leaf b d imm =>
    intro h lf hlf
    simp only [empty, beq_iff_eq, List.length_eq_zero] at h
    simp only [leaves, List.mem_singleton] at hlf
    rw [hlf]
    exact h
  | node b d c0 c1 c2 c3 ih0 ih1 ih2 ih3 =>
    intro h lf hlf
    simp only [empty, Bool.and_eq_true] at h
    obtain ⟨⟨⟨m0, m1⟩, m2⟩, m3⟩ := h
    simp only [leaves, List.mem_append] at hlf
    rcases hlf with ((hlf | hlf) | hlf) | hlf
    · exact ih0 m0 lf hlf
    · exact ih1 m1 lf hlf
    · exact ih2 m2 lf hlf
    · exact ih3 m3 lf hlf

theorem good_nonempty (mbr : Nat → iMBR) (s : List Nat) (t : QuadTree) (g : Nat)
    (hgood : Good mbr s t) (hg : g ∈ s) (hwf : (mbr g).WF)
    (hov : t.getMBR.overlaps (mbr g) = true) : t.empty = false := by
  obtain ⟨lf, hlf, hlo⟩ := leaves_cover mbr s g hwf t hgood hov
  have hmem : g ∈ lf.2 := (good_leaves mbr s t hgood lf hlf g).mpr ⟨hg, hlo⟩
  by_contra hne
  have hemp : t.empty = true := by simpa using hne
  rw [empty_leaves t hemp lf hlf] at hmem
  exact List.not_mem_nil g hmem

theorem isLeaf_insertFuel (mbr : Nat → iMBR) (f : Nat) (t : QuadTree) (item : Nat)
    (h : t.isLeaf = false) : (insertFuel mbr f t item).isLeaf = false := by
  cases f with
  | zero => exact h
  | succ f =>
    cases t with
    | leaf b d imm => simp only [isLeaf] at h; exact absurd h (by decide)
    | node b d c0 c1 c2 c3 =>
      simp only [insertFuel]
      split <;> rfl

theorem isLeaf_foldl_insertFuel (mbr : Nat → iMBR) (f : Nat) (l : List Nat) :
    ∀ (t : QuadTree), t.isLeaf = false → (l.foldl (insertFuel mbr f) t).isLeaf = false := by
  induction l with
  | nil => intro t h; exact h
  | cons a l ih =>
    intro t h
    rw [List.foldl_cons]
    exact ih _ (isLeaf_insertFuel mbr f t a h)

theorem full_of_leaf (t : QuadTree) (h : t.isLeaf = true) : Full t := by
  cases t with
  | leaf b d imm => simp only [Full]
  | node b d c0 c1 c2 c3 => simp only [isLeaf] at h; exact absurd h (by decide)

/-- The proper subtrees of a tree are full. -/
theorem full_insertFuel (mbr : Nat → iMBR) : ∀ (f : Nat) (t : QuadTree) (s : List Nat)
    (item : Nat), need t ≤ f → Good mbr s t → (∀ e ∈ s, (mbr e).WF) → (mbr item).WF →
    (t.isLeaf = true ∨ ∃ b d c0 c1 c2 c3, t = QuadTree.node b d c0 c1 c2 c3 ∧
      Full c0 ∧ Full c1 ∧ Full c2 ∧ Full c3) →
    t.getMBR.overlaps (mbr item) = true → Full (insertFuel mbr f t item) := by
  intro f
  induction f with
  | zero =>
    intro t s item hle
    have := need_pos t
    omega
  | succ f ih =>
    intro t s item hle hgood hs hitem hbelow hov
    have hres := good_insertFuel mbr (f + 1) t s item hle hgood
    have hbounds := insertFuel_getMBR mbr (f + 1) t item
    -- a child keeps or gains fullness
    have hchild : ∀ c : QuadTree, need c ≤ f → Good mbr s c → Full c →
        Full (insertFuel mbr f c item) := by
      intro c hc hg hfull
      by_cases hco : c.getMBR.overlaps (mbr item) = true
      · refine ih c s item hc hg hs hitem ?_ hco
        cases c with
        | leaf b d imm => exact Or.inl rfl
        | node b d c0 c1 c2 c3 =>
          simp only [Full] at hfull
          exact Or.inr ⟨b, d, c0, c1, c2, c3, rfl, hfull.2⟩
      · rw [insertFuel_skip mbr f c item (by simpa using hco)]
        exact hfull
    cases t with
    | leaf b d imm =>
      rw [getMBR_leaf] at hov
      simp only [Good] at hgood
      by_cases hdiv : d < MAX_DEPTH ∧ imm.length = 4
      · have hnd := need_divide b d imm hdiv.1
        have h1 : need (divide b d) ≤ f := by omega
        have himm : ∀ a ∈ imm, (mbr a).WF := by
          intro a ha
          exact hs a ((mem_of_good_leaf mbr s b imm hgood.2 a).mp ha).1
        -- redistribution keeps the subtrees full
        have hfold : ∀ (l : List Nat) (acc : QuadTree) (m : List Nat),
            (∀ a ∈ l, (mbr a).WF) → (∀ a ∈ m, (mbr a).WF) → need acc ≤ f → Good mbr m acc →
            acc.isLeaf = false →
            (∃ b d c0 c1 c2 c3, acc = QuadTree.node b d c0 c1 c2 c3 ∧
              Full c0 ∧ Full c1 ∧ Full c2 ∧ Full c3) →
            ∃ b d c0 c1 c2 c3, l.foldl (insertFuel mbr f) acc = QuadTree.node b d c0 c1 c2 c3 ∧
              Full c0 ∧ Full c1 ∧ Full c2 ∧ Full c3 := by
          intro l
          induction l with
          | nil => intro acc m _ _ _ _ _ h; exact h
          | cons a l ihl =>
            intro acc m hl hm hacc hg hnl hb
            rw [List.foldl_cons]
            have ha : (mbr a).WF := hl a (List.mem_cons_self _ _)
            have hm' : ∀ x ∈ a :: m, (mbr x).WF := by
              intro x hx
              rcases List.mem_cons.mp hx with h | h
              · rw [h]; exact ha
              · exact hm x h
            refine ihl (insertFuel mbr f acc a) (a :: m)
              (fun x hx => hl x (List.mem_cons_of_mem _ hx)) hm'
              (Nat.le_trans (insertFuel_need mbr f acc a hacc) hacc)
              (good_insertFuel mbr f acc m a hacc hg) (isLeaf_insertFuel mbr f acc a hnl) ?_
            by_cases hao : acc.getMBR.overlaps (mbr a) = true
            · have hfull := ih acc m a hacc hg hm ha (Or.inr hb) hao
              have hnl' := isLeaf_insertFuel mbr f acc a hnl
              cases hr : insertFuel mbr f acc a with
              | leaf b' d' imm' => rw [hr] at hnl'; simp only [isLeaf] at hnl'; exact absurd hnl' (by decide)
              | node b' d' c0 c1 c2 c3 =>
                rw [hr] at hfull
                simp only [Full] at hfull
                exact ⟨b', d', c0, c1, c2, c3, rfl, hfull.2⟩
            · rw [insertFuel_skip mbr f acc a (by simpa using hao)]
              exact hb
        have hdivfull : ∃ b' d' c0 c1 c2 c3, divide b d = QuadTree.node b' d' c0 c1 c2 c3 ∧
            Full c0 ∧ Full c1 ∧ Full c2 ∧ Full c3 :=
          ⟨b, d, _, _, _, _, rfl, by simp only [new, Full, and_self]⟩
        have h2 := foldl_need (insertFuel mbr f) f (insertFuel_need mbr f) imm (divide b d) h1
        have g2 := good_foldl mbr f (good_insertFuel mbr f) imm (divide b d) [] h1
          (good_divide mbr b d hgood.1)
        have hb2 := hfold imm (divide b d) [] himm (fun a ha => absurd ha (List.not_mem_nil a))
          h1 (good_divide mbr b d hgood.1) rfl hdivfull
        have hmr : ∀ a ∈ imm.reverse ++ [], (mbr a).WF := by
          intro a ha
          rw [List.append_nil, List.mem_reverse] at ha
          exact himm a ha
        have hfoldb : ∀ (l : List Nat) (acc : QuadTree),
            (l.foldl (insertFuel mbr f) acc).getMBR = acc.getMBR := by
          intro l
          induction l with
          | nil => intro acc; rfl
          | cons a l ihl => intro acc; rw [List.foldl_cons, ihl, insertFuel_getMBR]
        have hstep : insertFuel mbr (f + 1) (QuadTree.leaf b d imm) item
            = insertFuel mbr f (imm.foldl (insertFuel mbr f) (divide b d)) item := by
          simp only [insertFuel, getMBR_leaf, hov, Bool.not_true, Bool.false_eq_true, if_false,
            hdiv, and_self, if_true]
        rw [hstep]
        refine ih _ _ item (Nat.le_trans h2 h1) g2 hmr hitem (Or.inr hb2) ?_
        rw [hfoldb]
        exact hov
      · have hstep : insertFuel mbr (f + 1) (QuadTree.leaf b d imm) item
            = QuadTree.leaf b d (imm ++ [item]) := by
          simp only [insertFuel, getMBR_leaf, hov, Bool.not_true, Bool.false_eq_true, if_false,
            hdiv]
        rw [hstep]
        simp only [Full]
    | node b d c0 c1 c2 c3 =>
      rw [getMBR_node] at hov
      have hstep : insertFuel mbr (f + 1) (QuadTree.node b d c0 c1 c2 c3) item
          = QuadTree.node b d (insertFuel mbr f c0 item) (insertFuel mbr f c1 item)
              (insertFuel mbr f c2 item) (insertFuel mbr f c3 item) := by
        simp only [insertFuel, getMBR_node, hov, Bool.not_true, Bool.false_eq_true, if_false]
      rw [hstep] at hres ⊢
      have hne := good_nonempty mbr (item :: s) _ item hres (List.mem_cons_self _ _) hitem
        (by rw [getMBR_node]; exact hov)
      rcases hbelow with hl | ⟨b', d', a0, a1, a2, a3, heq, f0, f1, f2, f3⟩
      · simp only [isLeaf] at hl
        exact absurd hl (by decide)
      · injection heq with e1 e2 e3 e4 e5 e6
        subst e3 e4 e5 e6
        simp only [need] at hle
        simp only [Good] at hgood
        obtain ⟨_, _, _, _, _, g0, g1, g2, g3⟩ := hgood
        simp only [Full]
        exact ⟨hne, hchild c0 (by omega) g0 f0, hchild c1 (by omega) g1 f1,
          hchild c2 (by omega) g2 f2, hchild c3 (by omega) g3 f3⟩

end QuadTree
/-! ## `QuadTree::remove` on reachable trees -/

namespace QuadTree

theorem full_insert (mbr : Nat → iMBR) (t : QuadTree) (s : List Nat) (item : Nat)
    (hgood : Good mbr s t) (hfull : Full t) (hs : ∀ e ∈ s, (mbr e).WF) (hitem : (mbr item).WF) :
    Full (t.insert mbr item) := by
  unfold insert
  by_cases hov : t.getMBR.overlaps (mbr item) = true
  · refine full_insertFuel mbr t.need t s item (Nat.le_refl _) hgood hs hitem ?_ hov
    cases t with
    | leaf b d imm => exact Or.inl rfl
    | node b d c0 c1 c2 c3 =>
      simp only [Full] at hfull
      exact Or.inr ⟨b, d, c0, c1, c2, c3, rfl, hfull.2⟩
  · rw [insertFuel_skip mbr _ t item (by simpa using hov)]
    exact hfull

theorem full_remove (mbr : Nat → iMBR) (item : Nat) : ∀ (t : QuadTree), Full t →
    Full (remove mbr t item) := by
  intro t
  induction t with
  | leaf b d imm =>
    intro _
    simp only [remove]
    split <;> simp only [undivide, Full]
  | node b d c0 c1 c2 c3 ih0 ih1 ih2 ih3 =>
    intro h
    simp only [remove]
    split
    · exact h
    · simp only [Full] at h
      simp only [undivide]
      split
      · simp only [Full]
      · rename_i hne
        simp only [Full]
        exact ⟨by simpa using hne, ih0 h.2.1, ih1 h.2.2.1, ih2 h.2.2.2.1, ih3 h.2.2.2.2⟩

theorem insertFuel_getDepth (mbr : Nat → iMBR) : ∀ (f : Nat) (t : QuadTree) (item : Nat),
    (insertFuel mbr f t item).getDepth = t.getDepth := by
  intro f
  induction f with
  | zero => intro t item; rfl
  | succ f ih =>
    intro t item
    have hfold : ∀ (l : List Nat) (acc : QuadTree),
        (l.foldl (insertFuel mbr f) acc).getDepth = acc.getDepth := by
      intro l
      induction l with
      | nil => intro acc; rfl
      | cons a l ihl => intro acc; rw [List.foldl_cons, ihl, ih]
    cases t with
    | leaf b d imm =>
      simp only [insertFuel]
      split
      · rfl
      · split
        · rw [ih, hfold]; rfl
        · rfl
    | node b d c0 c1 c2 c3 =>
      simp only [insertFuel]
      split <;> rfl

theorem remove_getDepth (mbr : Nat → iMBR) (t : QuadTree) (item : Nat) :
    (remove mbr t item).getDepth = t.getDepth := by
  cases t with
  | leaf b d imm =>
    simp only [remove]
    split <;> rfl
  | node b d c0 c1 c2 c3 =>
    simp only [remove]
    split
    · rfl
    · simp only [undivide]
      split <;> rfl

/-- What holds of every tree reached from a full tree with the invariant
`Good`: the invariant, fullness, and the root's rectangle and depth. -/
theorem reach_run (mbr : Nat → iMBR) : ∀ (cs : List Call) (t : QuadTree) (s : List Nat),
    Good mbr s t → Full t → (∀ e ∈ s, (mbr e).WF) → (∀ c ∈ cs, (mbr c.item).WF) →
    Good mbr (inserted s cs) (run mbr t cs) ∧ Full (run mbr t cs) ∧
    (run mbr t cs).getMBR = t.getMBR ∧ (run mbr t cs).getDepth = t.getDepth ∧
    ∀ e ∈ inserted s cs, (mbr e).WF := by
  intro cs
  induction cs with
  | nil => intro t s h hf hs _; exact ⟨h, hf, rfl, rfl, hs⟩
  | cons c cs ih =>
    intro t s h hf hs hcs
    have hrest : ∀ c' ∈ cs, (mbr c'.item).WF := fun c' hc' => hcs c' (List.mem_cons_of_mem _ hc')
    cases c with
    | insert item =>
      have hitem : (mbr item).WF := hcs (.insert item) (List.mem_cons_self _ _)
      have hs' : ∀ e ∈ item :: s, (mbr e).WF := by
        intro e he
        rcases List.mem_cons.mp he with h1 | h1
        · rw [h1]; exact hitem
        · exact hs e h1
      have := ih (t.insert mbr item) (item :: s) (good_insert mbr t s item h)
        (full_insert mbr t s item h hf hs hitem) hs' hrest
      refine ⟨this.1, this.2.1, ?_, ?_, this.2.2.2.2⟩
      · rw [← insert_getMBR mbr t item]; exact this.2.2.1
      · rw [← insertFuel_getDepth mbr t.need t item]; exact this.2.2.2.1
    | remove item =>
      have hs' : ∀ e ∈ s.filter (· ≠ item), (mbr e).WF :=
        fun e he => hs e (List.mem_filter.mp he).1
      have := ih (t.remove mbr item) (s.filter (· ≠ item)) (good_remove mbr s hs item t h)
        (full_remove mbr item t hf) hs' hrest
      refine ⟨this.1, this.2.1, ?_, ?_, this.2.2.2.2⟩
      · rw [← remove_getMBR mbr t item]; exact this.2.2.1
      · rw [← remove_getDepth mbr t item]; exact this.2.2.2.1

theorem reach_new (mbr : Nat → iMBR) (root : iMBR) (depth : Int) (cs : List Call)
    (hroot : root.WF) (hwf : ∀ c ∈ cs, (mbr c.item).WF) :
    Good mbr (inserted [] cs) (run mbr (new root depth) cs) ∧
    Full (run mbr (new root depth) cs) ∧
    (run mbr (new root depth) cs).getMBR = root ∧
    (run mbr (new root depth) cs).getDepth = depth ∧
    ∀ e ∈ inserted [] cs, (mbr e).WF :=
  reach_run mbr cs (new root depth) [] (good_new mbr root depth hroot)
    (by simp only [new, Full]) (fun e he => absurd he (List.not_mem_nil e)) hwf

theorem remove_not_stored (mbr : Nat → iMBR) (e : Nat) : ∀ (t : QuadTree), Full t →
    (∀ lf ∈ t.leaves, e ∉ lf.2) → remove mbr t e = t := by
  intro t
  induction t with
  | leaf b d imm =>
    intro _ hns
    have hnot : e ∉ imm := hns (b, imm) (by simp only [leaves, List.mem_singleton])
    have hfil : imm.filter (· ≠ e) = imm := by
      rw [List.filter_eq_self]
      intro a ha
      simp only [ne_eq, decide_not, Bool.not_eq_eq_eq_not, Bool.not_true,
        decide_eq_false_iff_not]
      exact fun h => hnot (h ▸ ha)
    simp only [remove]
    split
    · rfl
    · rw [hfil]; rfl
  | node b d c0 c1 c2 c3 ih0 ih1 ih2 ih3 =>
    intro hfull hns
    simp only [Full] at hfull
    obtain ⟨hne, f0, f1, f2, f3⟩ := hfull
    simp only [leaves, List.mem_append] at hns
    simp only [remove]
    split
    · rfl
    · rw [ih0 f0 (fun lf h => hns lf (Or.inl (Or.inl (Or.inl h)))),
        ih1 f1 (fun lf h => hns lf (Or.inl (Or.inl (Or.inr h)))),
        ih2 f2 (fun lf h => hns lf (Or.inl (Or.inr h))),
        ih3 f3 (fun lf h => hns lf (Or.inr h))]
      simp only [undivide, hne, Bool.false_eq_true, if_false]

theorem good_nil_empty (mbr : Nat → iMBR) : ∀ (t : QuadTree), Good mbr [] t →
    t.empty = true := by
  intro t
  induction t with
  | leaf b d imm =>
    intro h
    simp only [Good, List.count_nil, ite_self] at h
    simp only [empty, beq_iff_eq, List.length_eq_zero]
    rw [List.eq_nil_iff_forall_not_mem]
    intro a ha
    have := h.2 a
    rw [List.count_eq_zero] at this
    exact this ha
  | node b d c0 c1 c2 c3 ih0 ih1 ih2 ih3 =>
    intro h
    simp only [Good] at h
    obtain ⟨_, _, _, _, _, g0, g1, g2, g3⟩ := h
    simp only [empty, ih0 g0, ih1 g1, ih2 g2, ih3 g3, Bool.and_self]

theorem single_leaf_of_nothing_inserted (mbr : Nat → iMBR) (t : QuadTree)
    (hgood : Good mbr [] t) (hfull : Full t) : t = new t.getMBR t.getDepth := by
  have hemp := good_nil_empty mbr t hgood
  cases t with
  | leaf b d imm =>
    simp only [empty, beq_iff_eq, List.length_eq_zero] at hemp
    rw [hemp]
    rfl
  | node b d c0 c1 c2 c3 =>
    simp only [Full] at hfull
    rw [hemp] at hfull
    exact absurd hfull.1 (by decide)

theorem inserted_append : ∀ (a b : List Call) (s : List Nat),
    inserted s (a ++ b) = inserted (inserted s a) b := by
  intro a
  induction a with
  | nil => intro b s; rfl
  | cons c a ih =>
    intro b s
    cases c with
    | insert item => exact ih b (item :: s)
    | remove item => exact ih b (s.filter (· ≠ item))

theorem inserted_map_remove : ∀ (rs s : List Nat) (e : Nat),
    e ∈ inserted s (rs.map Call.remove) → e ∈ s ∧ e ∉ rs := by
  intro rs
  induction rs with
  | nil => intro s e h; exact ⟨h, List.not_mem_nil e⟩
  | cons r rs ih =>
    intro s e h
    simp only [List.map_cons, inserted] at h
    obtain ⟨h1, h2⟩ := ih _ e h
    have hf := List.mem_filter.mp h1
    refine ⟨hf.1, fun hmem => ?_⟩
    rcases List.mem_cons.mp hmem with h3 | h3
    · have := hf.2
      simp only [ne_eq, decide_not, Bool.not_eq_eq_eq_not, Bool.not_true,
        decide_eq_false_iff_not] at this
      exact this h3
    · exact h2 h3

theorem inserted_all_removed (fs rs : List Nat) (hall : ∀ f ∈ fs, f ∈ rs) :
    inserted [] (fs.map Call.insert ++ rs.map Call.remove) = [] := by
  rw [inserted_append, inserted_map_insert, List.append_nil, List.eq_nil_iff_forall_not_mem]
  intro e he
  obtain ⟨h1, h2⟩ := inserted_map_remove rs _ e he
  exact h2 (hall e (List.mem_reverse.mp h1))

end QuadTree
/-! ## Properties of `QuadTree::remove` and of the merge-back -/

namespace QuadTree

theorem hits_empty (mbr : Nat → iMBR) (x y : ℚ) : ∀ (t : QuadTree), t.empty = true →
    hits mbr t x y = [] := by
  intro t
  induction t with
  | leaf b d imm =>
    intro h
    simp only [empty, beq_iff_eq, List.length_eq_zero] at h
    simp only [hits, h, List.filter_nil, ite_self]
  | node b d c0 c1 c2 c3 ih0 ih1 ih2 ih3 =>
    intro h
    simp only [empty, Bool.and_eq_true] at h
    obtain ⟨⟨⟨m0, m1⟩, m2⟩, m3⟩ := h
    simp only [hits, ih0 m0, ih1 m1, ih2 m2, ih3 m3, List.append_nil, ite_self]

theorem hits_undivide (mbr : Nat → iMBR) (x y : ℚ) (t : QuadTree) :
    hits mbr (undivide t) x y = hits mbr t x y := by
  cases t with
  | leaf b d imm => rfl
  | node b d c0 c1 c2 c3 =>
    simp only [undivide]
    split
    · rename_i hemp
      rw [hits_empty mbr x y _ hemp]
      simp only [hits, List.filter_nil, ite_self]
    · rfl

theorem not_mem_hits (mbr : Nat → iMBR) (s : List Nat) (x y : ℚ) (t : QuadTree) (e : Nat)
    (hgood : Good mbr s t) (hno : t.getMBR.overlaps (mbr e) ≠ true) : e ∉ hits mbr t x y := by
  intro hmem
  obtain ⟨_, h2, h3⟩ := (mem_hits mbr s x y t hgood e).mp hmem
  exact hno (iMBR.contains_overlaps _ _ x y h3 h2)

theorem filter_ne_eq_self (l : List Nat) (e : Nat) (h : e ∉ l) : l.filter (· ≠ e) = l := by
  rw [List.filter_eq_self]
  intro a ha
  simp only [ne_eq, decide_not, Bool.not_eq_eq_eq_not, Bool.not_true, decide_eq_false_iff_not]
  exact fun heq => h (heq ▸ ha)

theorem hits_remove (mbr : Nat → iMBR) (s : List Nat) (x y : ℚ) (e : Nat) :
    ∀ (t : QuadTree), Good mbr s t →
      hits mbr (remove mbr t e) x y = (hits mbr t x y).filter (· ≠ e) := by
  intro t
  induction t with
  | leaf b d imm =>
    intro hgood
    simp only [remove]
    split
    · rename_i hno
      rw [filter_ne_eq_self _ e (not_mem_hits mbr s x y _ e hgood (by simpa using hno))]
    · simp only [undivide, hits]
      split
      · rw [List.filter_filter, List.filter_filter]
        congr 1
        funext a
        exact Bool.and_comm _ _
      · rfl
  | node b d c0 c1 c2 c3 ih0 ih1 ih2 ih3 =>
    intro hgood
    simp only [remove]
    split
    · rename_i hno
      rw [filter_ne_eq_self _ e (not_mem_hits mbr s x y _ e hgood (by simpa using hno))]
    · rw [hits_undivide]
      simp only [Good] at hgood
      obtain ⟨_, _, _, _, _, g0, g1, g2, g3⟩ := hgood
      simp only [hits]
      split
      · rw [ih0 g0, ih1 g1, ih2 g2, ih3 g3]
        simp only [List.filter_append]
      · rfl

theorem holders_node (b : iMBR) (d : Int) (c0 c1 c2 c3 : QuadTree) (f : Nat) :
    holders (QuadTree.node b d c0 c1 c2 c3) f
      = holders c0 f ++ holders c1 f ++ holders c2 f ++ holders c3 f := by
  simp only [holders, leaves, List.filter_append, List.map_append]

theorem holders_empty (f : Nat) (t : QuadTree) (h : t.empty = true) : holders t f = [] := by
  unfold holders
  rw [List.map_eq_nil_iff, List.filter_eq_nil_iff]
  intro lf hlf
  rw [empty_leaves t h lf hlf]
  simp only [List.not_mem_nil, decide_False, Bool.false_eq_true, not_false_eq_true]

theorem holders_undivide (f : Nat) (t : QuadTree) : holders (undivide t) f = holders t f := by
  cases t with
  | leaf b d imm => rfl
  | node b d c0 c1 c2 c3 =>
    simp only [undivide]
    split
    · rename_i hemp
      rw [holders_empty f _ hemp]
      simp only [holders, leaves, List.filter_cons, List.not_mem_nil, decide_False,
        Bool.false_eq_true, if_false, List.filter_nil, List.map_nil]
    · rfl

theorem holders_remove (mbr : Nat → iMBR) (e f : Nat) (hne : f ≠ e) : ∀ (t : QuadTree),
    holders (remove mbr t e) f = holders t f := by
  intro t
  induction t with
  | leaf b d imm =>
    simp only [remove]
    split
    · rfl
    · have hmem : (f ∈ imm.filter (· ≠ e)) ↔ (f ∈ imm) := by
        rw [List.mem_filter]
        constructor
        · exact fun h => h.1
        · exact fun h => ⟨h, by simpa using hne⟩
      by_cases hf : f ∈ imm
      · have hf' := hmem.mpr hf
        simp only [undivide, holders, leaves, List.filter_cons, hf, hf', decide_True, if_true,
          List.filter_nil, List.map_cons, List.map_nil]
      · have hf' : f ∉ imm.filter (· ≠ e) := fun h => hf (hmem.mp h)
        simp only [undivide, holders, leaves, List.filter_cons, hf, hf', decide_False,
          Bool.false_eq_true, if_false, List.filter_nil, List.map_nil]
  | node b d c0 c1 c2 c3 ih0 ih1 ih2 ih3 =>
    simp only [remove]
    split
    · rfl
    · rw [holders_undivide, holders_node, holders_node, ih0, ih1, ih2, ih3]

theorem insert_leaf_append (mbr : Nat → iMBR) (b : iMBR) (d : Int) (imm : List Nat)
    (item : Nat) (hov : b.overlaps (mbr item) = true) (hlen : imm.length ≠ 4) :
    (QuadTree.leaf b d imm).insert mbr item = QuadTree.leaf b d (imm ++ [item]) := by
  simp only [insert, need, insertFuel, getMBR_leaf, hov, Bool.not_true, Bool.false_eq_true,
    if_false, hlen, and_false]

theorem insert_leaf_divides (mbr : Nat → iMBR) (b : iMBR) (d : Int) (imm : List Nat)
    (item : Nat) (hov : b.overlaps (mbr item) = true) (hd : d < MAX_DEPTH)
    (hlen : imm.length = 4) : ((QuadTree.leaf b d imm).insert mbr item).isLeaf = false := by
  simp only [insert, need, insertFuel, getMBR_leaf, hov, Bool.not_true, Bool.false_eq_true,
    if_false, hlen, hd, and_self, if_true]
  exact isLeaf_insertFuel mbr _ _ item (isLeaf_foldl_insertFuel mbr _ imm _ rfl)

theorem insert_leaf_deep (mbr : Nat → iMBR) (b : iMBR) (d : Int) (imm : List Nat)
    (item : Nat) (hd : ¬ d < MAX_DEPTH) :
    ∃ imm', (QuadTree.leaf b d imm).insert mbr item = QuadTree.leaf b d imm' := by
  by_cases hov : b.overlaps (mbr item) = true
  · refine ⟨imm ++ [item], ?_⟩
    simp only [insert, need, insertFuel, getMBR_leaf, hov, Bool.not_true, Bool.false_eq_true,
      if_false, hd, false_and]
  · refine ⟨imm, ?_⟩
    exact insertFuel_skip mbr _ _ item (by simpa using hov)

theorem deep_leaf_stays (mbr : Nat → iMBR) (b : iMBR) (d : Int) (hd : ¬ d < MAX_DEPTH) :
    ∀ (fs imm : List Nat), (run mbr (QuadTree.leaf b d imm) (fs.map Call.insert)).isLeaf = true := by
  intro fs
  induction fs with
  | nil => intro imm; rfl
  | cons a fs ih =>
    intro imm
    obtain ⟨imm', himm⟩ := insert_leaf_deep mbr b d imm a hd
    have hstep : run mbr (QuadTree.leaf b d imm) ((a :: fs).map Call.insert)
        = run mbr ((QuadTree.leaf b d imm).insert mbr a) (fs.map Call.insert) := rfl
    rw [hstep, himm]
    exact ih imm'

/-- In the model `QuadTree.remove`, on every tree reached from an empty
root with a well-formed rectangle by `insert` and `remove` of items with
well-formed rectangles, after `remove(e)` no leaf list contains `e`; at
every point `locate` appends what it appended before with every `e` taken
out; and for every other item the leaves whose list holds it are the same
as before. -/
theorem remove_erases (mbr : Nat → iMBR) (root : iMBR) (depth : Int) (cs : List Call)
    (e : Nat) (hroot : root.WF) (hwf : ∀ c ∈ cs, (mbr c.item).WF) :
    (∀ lf ∈ (remove mbr (run mbr (new root depth) cs) e).leaves, e ∉ lf.2) ∧
    (∀ (x y : ℚ) (results : List Nat), ∃ before after,
      locate mbr (run mbr (new root depth) cs) x y results
        = ((before.length : Int), results ++ before) ∧
      locate mbr (remove mbr (run mbr (new root depth) cs) e) x y results
        = ((after.length : Int), results ++ after) ∧
      after = before.filter (· ≠ e)) ∧
    (∀ f, f ≠ e → holders (remove mbr (run mbr (new root depth) cs) e) f
      = holders (run mbr (new root depth) cs) f) := by
  have hreach := reach_new mbr root depth cs hroot hwf
  have hgood' := good_remove mbr _ hreach.2.2.2.2 e _ hreach.1
  refine ⟨?_, ?_, ?_⟩
  · intro lf hlf hmem
    have := ((good_leaves mbr _ _ hgood' lf hlf e).mp hmem).1
    have h2 := (List.mem_filter.mp this).2
    simp at h2
  · intro x y results
    exact ⟨hits mbr (run mbr (new root depth) cs) x y,
      hits mbr (remove mbr (run mbr (new root depth) cs) e) x y,
      locate_eq mbr x y _ results, locate_eq mbr x y _ results,
      hits_remove mbr _ x y e _ hreach.1⟩
  · intro f hne
    exact holders_remove mbr e f hne _

/-- C12: on every tree reached from an empty root with a well-formed
rectangle by `insert` and `remove` of items with well-formed rectangles,
`remove(e)` of an item that is in no leaf list (in particular of an item
never inserted, or removed since) returns the tree unchanged, whatever the
rectangle of `e`. -/
theorem C12_remove_absent (mbr : Nat → iMBR) (root : iMBR) (depth : Int) (cs : List Call)
    (e : Nat) (hroot : root.WF) (hwf : ∀ c ∈ cs, (mbr c.item).WF)
    (habsent : e ∉ inserted [] cs ∨ ∀ lf ∈ (run mbr (new root depth) cs).leaves, e ∉ lf.2) :
    remove mbr (run mbr (new root depth) cs) e = run mbr (new root depth) cs := by
  have hreach := reach_new mbr root depth cs hroot hwf
  refine remove_not_stored mbr e _ hreach.2.1 ?_
  rcases habsent with h | h
  · intro lf hlf hmem
    exact h ((good_leaves mbr _ _ hreach.1 lf hlf e).mp hmem).1
  · exact h

/-- Witness for C12: five items inserted into the screen root, item 1
removed, then `remove` of item 1 again. -/
theorem C12_remove_absent_witness :
    ((⟨-1, 1, -1, 1⟩ : iMBR).WF ∧
      (∀ c ∈ [Call.insert 0, .insert 1, .insert 2, .insert 3, .insert 4, .remove 1],
        (mbrFive c.item).WF) ∧
      1 ∉ inserted [] [.insert 0, .insert 1, .insert 2, .insert 3, .insert 4, .remove 1]) ∧
    remove mbrFive (run mbrFive (new ⟨-1, 1, -1, 1⟩ 1)
        [.insert 0, .insert 1, .insert 2, .insert 3, .insert 4, .remove 1]) 1
      = run mbrFive (new ⟨-1, 1, -1, 1⟩ 1)
        [.insert 0, .insert 1, .insert 2, .insert 3, .insert 4, .remove 1] :=
  ⟨by decide!,
    C12_remove_absent mbrFive ⟨-1, 1, -1, 1⟩ 1
      [.insert 0, .insert 1, .insert 2, .insert 3, .insert 4, .remove 1] 1
      (by decide!) (by decide!) (Or.inl (by decide))⟩

/-- In the model `QuadTree.remove`, when a sequence of inserts of items
with well-formed rectangles into an empty root with a well-formed rectangle
has made the root subdivide, removing every inserted item, in any order,
leaves the single root node in leaf mode with an empty list; on that tree
four inserts of items that overlap the root are stored in the root's list
in order, and a fifth one makes the root subdivide again. -/
theorem merge_back (mbr : Nat → iMBR) (root : iMBR) (depth : Int) (fs rs : List Nat)
    (hroot : root.WF) (hfs : ∀ f ∈ fs, (mbr f).WF) (hrs : ∀ r ∈ rs, (mbr r).WF)
    (hsub : (run mbr (new root depth) (fs.map Call.insert)).isLeaf = false)
    (hall : ∀ f ∈ fs, f ∈ rs) :
    run mbr (new root depth) (fs.map Call.insert ++ rs.map Call.remove) = new root depth ∧
    ∀ a b c d e, root.overlaps (mbr a) = true → root.overlaps (mbr b) = true →
      root.overlaps (mbr c) = true → root.overlaps (mbr d) = true →
      root.overlaps (mbr e) = true →
      run mbr (run mbr (new root depth) (fs.map Call.insert ++ rs.map Call.remove))
          [.insert a, .insert b, .insert c, .insert d]
        = QuadTree.leaf root depth [a, b, c, d] ∧
      (run mbr (run mbr (new root depth) (fs.map Call.insert ++ rs.map Call.remove))
          [.insert a, .insert b, .insert c, .insert d, .insert e]).isLeaf = false := by
  have hcs : ∀ c ∈ fs.map Call.insert ++ rs.map Call.remove, (mbr c.item).WF := by
    intro c hc
    rcases List.mem_append.mp hc with h | h
    · obtain ⟨a, ha, rfl⟩ := List.mem_map.mp h
      exact hfs a ha
    · obtain ⟨a, ha, rfl⟩ := List.mem_map.mp h
      exact hrs a ha
  have hreach := reach_new mbr root depth _ hroot hcs
  rw [inserted_all_removed fs rs hall] at hreach
  have hsingle := single_leaf_of_nothing_inserted mbr _ hreach.1 hreach.2.1
  rw [hreach.2.2.1, hreach.2.2.2.1] at hsingle
  have hdepth : depth < MAX_DEPTH := by
    by_contra hd
    have := deep_leaf_stays mbr root depth hd fs []
    rw [show QuadTree.leaf root depth [] = new root depth from rfl, hsub] at this
    exact Bool.false_ne_true this
  refine ⟨hsingle, ?_⟩
  intro a b c d e ha hb hc hd he
  rw [hsingle]
  have h4 : run mbr (new root depth) [.insert a, .insert b, .insert c, .insert d]
      = QuadTree.leaf root depth [a, b, c, d] := by
    simp only [run, List.foldl_cons, List.foldl_nil, step, new]
    rw [insert_leaf_append mbr root depth [] a ha (by simp)]
    rw [insert_leaf_append mbr root depth _ b hb (by simp)]
    rw [insert_leaf_append mbr root depth _ c hc (by simp)]
    rw [insert_leaf_append mbr root depth _ d hd (by simp)]
    rfl
  refine ⟨h4, ?_⟩
  have h5 : run mbr (new root depth) [.insert a, .insert b, .insert c, .insert d, .insert e]
      = (run mbr (new root depth) [.insert a, .insert b, .insert c, .insert d]).insert mbr e := by
    simp only [run, List.foldl_cons, List.foldl_nil, step]
  rw [h5, h4]
  exact insert_leaf_divides mbr root depth _ e he hdepth rfl

end QuadTree

/-! ## `QuadTree::remove` on the heap: the merge-back and the loop over the children -/

namespace QuadTreeHeap

/-- Five squares inserted into the screen root and removed in the order
1, 2, 3, 4, 0: the last removal empties the tree in the round of
`_children[3]`, every call returns, and the heap holds the tree that
`QuadTree.run` computes, the single empty root. -/
theorem run_collapse_at_last_child :
    (run QuadTree.mbrFive 32 (init ⟨-1, 1, -1, 1⟩ 1)
      [.insert 0, .insert 1, .insert 2, .insert 3, .insert 4,
        .remove 1, .remove 2, .remove 3, .remove 4, .remove 0]).bind (fun m => tree m 32 1)
      = .ok (QuadTree.run QuadTree.mbrFive QuadTree.screenRoot
          [.insert 0, .insert 1, .insert 2, .insert 3, .insert 4,
            .remove 1, .remove 2, .remove 3, .remove 4, .remove 0]) ∧
    QuadTree.run QuadTree.mbrFive QuadTree.screenRoot
      [.insert 0, .insert 1, .insert 2, .insert 3, .insert 4,
        .remove 1, .remove 2, .remove 3, .remove 4, .remove 0] = QuadTree.screenRoot := by
  decide!

/-- C11 (evaluation at the failing input): the six squares of `mbrNest` are
inserted into the screen root (the root and its bottom-left child
subdivide) and items 1, 2, 3, 4 removed; the calls return and the heap holds
the tree of `QuadTree.run`, in which item 0 lies in one leaf and item 5 in
another. Then `remove(0)` empties the bottom-left child in the round of its
`_children[0]`: the child deletes its four children, and the next round of
its loop calls `remove` on the deleted object at address 7. -/
theorem C11_remove_use_after_free :
    (run mbrNest 32 (init ⟨-1, 1, -1, 1⟩ 1)
      [.insert 0, .insert 1, .insert 2, .insert 3, .insert 4, .insert 5,
        .remove 1, .remove 2, .remove 3, .remove 4]).bind (fun m => tree m 32 1)
      = .ok (QuadTree.run mbrNest QuadTree.screenRoot
          [.insert 0, .insert 1, .insert 2, .insert 3, .insert 4, .insert 5,
            .remove 1, .remove 2, .remove 3, .remove 4]) ∧
    QuadTree.holders (QuadTree.run mbrNest QuadTree.screenRoot
      [.insert 0, .insert 1, .insert 2, .insert 3, .insert 4, .insert 5,
        .remove 1, .remove 2, .remove 3, .remove 4]) 0 = [⟨-1, -1 / 2, -1, -1 / 2⟩] ∧
    QuadTree.holders (QuadTree.run mbrNest QuadTree.screenRoot
      [.insert 0, .insert 1, .insert 2, .insert 3, .insert 4, .insert 5,
        .remove 1, .remove 2, .remove 3, .remove 4]) 5 = [⟨0, 1, 0, 1⟩] ∧
    run mbrNest 32 (init ⟨-1, 1, -1, 1⟩ 1)
      [.insert 0, .insert 1, .insert 2, .insert 3, .insert 4, .insert 5,
        .remove 1, .remove 2, .remove 3, .remove 4, .remove 0] = .useAfterFree 7 := by
  decide!

/-- C13 (evaluation at the failing input): the five squares of `mbrFive`
are inserted into the screen root, which subdivides, and items 0, 2, 1, 4
removed; the calls return and the heap holds the tree of `QuadTree.run`.
Then `remove(3)`, the removal of the last item, empties the tree in the
round of `_children[0]`: the root deletes its four children, and the next
round of its loop calls `remove` on the deleted object at address 3. -/
theorem C13_merge_back_use_after_free :
    (run QuadTree.mbrFive 32 (init ⟨-1, 1, -1, 1⟩ 1)
      [.insert 0, .insert 1, .insert 2, .insert 3, .insert 4]).bind
        (fun m => (tree m 32 1).bind fun t => pure t.isLeaf) = .ok false ∧
    (run QuadTree.mbrFive 32 (init ⟨-1, 1, -1, 1⟩ 1)
      [.insert 0, .insert 1, .insert 2, .insert 3, .insert 4,
        .remove 0, .remove 2, .remove 1, .remove 4]).bind (fun m => tree m 32 1)
      = .ok (QuadTree.run QuadTree.mbrFive QuadTree.screenRoot
          [.insert 0, .insert 1, .insert 2, .insert 3, .insert 4,
            .remove 0, .remove 2, .remove 1, .remove 4]) ∧
    run QuadTree.mbrFive 32 (init ⟨-1, 1, -1, 1⟩ 1)
      [.insert 0, .insert 1, .insert 2, .insert 3, .insert 4,
        .remove 0, .remove 2, .remove 1, .remove 4, .remove 3] = .useAfterFree 3 := by
  decide!

/-- C28 (evaluation at the failing input): the five squares of `mbrFive`
are inserted into the screen root and items 0, 2, 3, 4 removed; the calls
return, and the root is a node with children that holds item 1. Then
`remove(1)` makes the root empty in the round of `_children[2]`: the root
is merged back (its four children are deleted) while its loop still runs,
and the round of `_children[3]` calls `remove` on the deleted object at
address 5, so the call does not complete. -/
theorem C28_merge_back_use_after_free :
    (run QuadTree.mbrFive 32 (init ⟨-1, 1, -1, 1⟩ 1)
      [.insert 0, .insert 1, .insert 2, .insert 3, .insert 4,
        .remove 0, .remove 2, .remove 3, .remove 4]).bind (fun m => tree m 32 1)
      = .ok (QuadTree.node ⟨-1, 1, -1, 1⟩ 1 (.leaf ⟨-1, 0, -1, 0⟩ 2 [])
          (.leaf ⟨0, 1, -1, 0⟩ 2 []) (.leaf ⟨0, 1, 0, 1⟩ 2 [1]) (.leaf ⟨-1, 0, 0, 1⟩ 2 [])) ∧
    run QuadTree.mbrFive 32 (init ⟨-1, 1, -1, 1⟩ 1)
      [.insert 0, .insert 1, .insert 2, .insert 3, .insert 4,
        .remove 0, .remove 2, .remove 3, .remove 4, .remove 1] = .useAfterFree 5 := by
  decide!

end QuadTreeHeap

/-! ## `QuadTree::divide`: the four quadrants -/

namespace QuadTree

theorem quadrants_meet (b : iMBR) (x y : ℚ) :
    List.Pairwise (fun c c' : QuadTree => c.getMBR.contains x y = true →
      c'.getMBR.contains x y = true → x = b.centerX ∨ y = b.centerY) (divide b 0).children := by
  simp only [divide, children, new, List.pairwise_cons, List.mem_cons, List.mem_singleton,
    List.not_mem_nil, getMBR_leaf, iMBR.contains_iff, bounds0, bounds1, bounds2, bounds3,
    iMBR.centerX, iMBR.centerY, forall_eq_or_imp, forall_eq, List.Pairwise.nil, and_true,
    false_implies, implies_true]
  refine ⟨⟨?_, ?_, ?_⟩, ⟨?_, ?_⟩, ?_⟩
  · rintro ⟨_, h1, _, _⟩ ⟨h2, _, _, _⟩
    exact Or.inl (le_antisymm h1 h2)
  · rintro ⟨_, h1, _, _⟩ ⟨h2, _, _, _⟩
    exact Or.inl (le_antisymm h1 h2)
  · rintro ⟨_, _, _, h1⟩ ⟨_, _, h2, _⟩
    exact Or.inr (le_antisymm h1 h2)
  · rintro ⟨_, _, _, h1⟩ ⟨_, _, h2, _⟩
    exact Or.inr (le_antisymm h1 h2)
  · rintro ⟨h1, _, _, _⟩ ⟨_, h2, _, _⟩
    exact Or.inl (le_antisymm h2 h1)
  · rintro ⟨h1, _, _, _⟩ ⟨_, h2, _, _⟩
    exact Or.inl (le_antisymm h2 h1)

/-- With exact midpoints `divide()` creates four children of depth plus
one whose rectangles are the quadrants cut at the midpoints of the node's
rectangle; each child rectangle is well formed and lies inside the node's,
every point the node contains is contained in at least one child, and a
point contained in two different children lies on a midline. -/
theorem divide_quadrants (b : iMBR) (d : Int) (hb : b.WF) :
    (divide b d).children.map getMBR =
      [⟨b.MIN_X, b.centerX, b.MIN_Y, b.centerY⟩, ⟨b.centerX, b.MAX_X, b.MIN_Y, b.centerY⟩,
       ⟨b.centerX, b.MAX_X, b.centerY, b.MAX_Y⟩, ⟨b.MIN_X, b.centerX, b.centerY, b.MAX_Y⟩] ∧
    (∀ c ∈ (divide b d).children, c.getDepth = d + 1 ∧ c.isLeaf = true ∧ c.getMBR.WF ∧
      ∀ x y, c.getMBR.contains x y = true → b.contains x y = true) ∧
    (∀ x y, b.contains x y = true →
      ∃ c ∈ (divide b d).children, c.getMBR.contains x y = true) ∧
    (∀ x y, List.Pairwise (fun c c' : QuadTree => c.getMBR.contains x y = true →
      c'.getMBR.contains x y = true → x = b.centerX ∨ y = b.centerY) (divide b d).children) := by
  refine ⟨rfl, ?_, ?_, ?_⟩
  · intro c hc
    simp only [divide, children, List.mem_cons, List.mem_singleton, List.not_mem_nil,
      or_false] at hc
    rcases hc with rfl | rfl | rfl | rfl
    · exact ⟨rfl, rfl, bounds0_wf b hb, fun x y h => contains_of_bounds0 b x y hb h⟩
    · exact ⟨rfl, rfl, bounds1_wf b hb, fun x y h => contains_of_bounds1 b x y hb h⟩
    · exact ⟨rfl, rfl, bounds2_wf b hb, fun x y h => contains_of_bounds2 b x y hb h⟩
    · exact ⟨rfl, rfl, bounds3_wf b hb, fun x y h => contains_of_bounds3 b x y hb h⟩
  · intro x y hc
    rcases contains_cover b x y hc with h | h | h | h
    · exact ⟨new (bounds0 b) (d + 1), by simp [divide, children], h⟩
    · exact ⟨new (bounds1 b) (d + 1), by simp [divide, children], h⟩
    · exact ⟨new (bounds2 b) (d + 1), by simp [divide, children], h⟩
    · exact ⟨new (bounds3 b) (d + 1), by simp [divide, children], h⟩
  · intro x y
    have h := quadrants_meet b x y
    simp only [divide, children, new, List.pairwise_cons, List.mem_cons, List.mem_singleton,
      List.not_mem_nil, getMBR_leaf, forall_eq_or_imp, forall_eq, List.Pairwise.nil, and_true,
      false_implies, implies_true] at h ⊢
    exact h

end QuadTree
/-! ## `QuadTree::divide` in `float` arithmetic: the four quadrants -/

namespace QuadTree

theorem contains32_iff (a b c d x y : ℚ) :
    (Bounds32.mk (.finite a) (.finite b) (.finite c) (.finite d)).contains x y = true ↔
      a ≤ x ∧ x ≤ b ∧ c ≤ y ∧ y ≤ d := by
  simp only [Bounds32.contains, Float32.le, Bool.and_eq_true, decide_eq_true_eq]
  tauto

/-- When the exact midpoints are what the `float` operations give,
`divide()` in `float` arithmetic creates the rectangles of `divide`. -/
theorem divide32_eq_divide (b : iMBR) (d : Int)
    (hx : Float32.half (Float32.add b.MIN_X b.MAX_X) = .finite b.centerX)
    (hy : Float32.half (Float32.add b.MIN_Y b.MAX_Y) = .finite b.centerY) :
    divide32 b = (divide b d).children.map (fun c => Bounds32.ofMBR c.getMBR) := by
  simp only [divide32, hx, hy, divide, children, new, List.map_cons, List.map_nil, getMBR,
    Bounds32.ofMBR, bounds0, bounds1, bounds2, bounds3, iMBR.centerX, iMBR.centerY]

/-- The screen rectangle is divided exactly. -/
theorem divide32_screen :
    divide32 ⟨-1, 1, -1, 1⟩
      = (divide ⟨-1, 1, -1, 1⟩ 1).children.map (fun c => Bounds32.ofMBR c.getMBR) := by
  decide!

/-- The midpoint of `[1, 1 + 2 ^ -23]` is rounded to 1: the first child is
the left edge of the rectangle. -/
theorem divide32_rounds :
    (divide32 ⟨1, 8388609 / 8388608, 0, 0⟩).head?
      = some ⟨.finite 1, .finite 1, .finite 0, .finite 0⟩ ∧
    (⟨1, 8388609 / 8388608, 0, 0⟩ : iMBR).centerX = 16777217 / 16777216 := by
  decide!

/-- C23 (counterexample): the node bounds `[2^127, 2^127] x [0, 0]` are well
formed and finite, but the sum `MIN_X + MAX_X` overflows: the midpoint is
`+infinity`, and the first child contains the point `(3 * 2^126, 0)` that
the node does not contain. -/
theorem C23_counterexample :
    (⟨2 ^ 127, 2 ^ 127, 0, 0⟩ : iMBR).WF ∧
    Float32.Representable (2 ^ 127) ∧ Float32.Representable 0 ∧
    (divide32 ⟨2 ^ 127, 2 ^ 127, 0, 0⟩).head?
      = some ⟨.finite (2 ^ 127), .infinity false, .finite 0, .finite 0⟩ ∧
    (∃ c ∈ divide32 ⟨2 ^ 127, 2 ^ 127, 0, 0⟩, c.contains (3 * 2 ^ 126) 0 = true) ∧
    (⟨2 ^ 127, 2 ^ 127, 0, 0⟩ : iMBR).contains (3 * 2 ^ 126) 0 = false := by
  decide!

/-- C23 (amended): for a node whose bounds are well formed, finite `float`
values, and whose sums `MIN_X + MAX_X` and `MIN_Y + MAX_Y` do not overflow,
`divide()` computes finite midpoints `mx`, `my` inside the node's ranges and
creates the four rectangles cut there (bottom-left, bottom-right,
top-right, top-left); each child rectangle lies inside the node's, every
point the node contains is contained in at least one child, and a point
contained in two different children lies on the line `x = mx` or on the
line `y = my`. -/
theorem C23_divide_partitions (b : iMBR) (hb : b.WF)
    (hrep : Float32.Representable b.MIN_X ∧ Float32.Representable b.MAX_X ∧
      Float32.Representable b.MIN_Y ∧ Float32.Representable b.MAX_Y)
    (hx : (Float32.add b.MIN_X b.MAX_X).isFinite = true)
    (hy : (Float32.add b.MIN_Y b.MAX_Y).isFinite = true) :
    ∃ mx my : ℚ,
      Float32.half (Float32.add b.MIN_X b.MAX_X) = .finite mx ∧
      Float32.half (Float32.add b.MIN_Y b.MAX_Y) = .finite my ∧
      b.MIN_X ≤ mx ∧ mx ≤ b.MAX_X ∧ b.MIN_Y ≤ my ∧ my ≤ b.MAX_Y ∧
      divide32 b =
        [⟨.finite b.MIN_X, .finite mx, .finite b.MIN_Y, .finite my⟩,
         ⟨.finite mx, .finite b.MAX_X, .finite b.MIN_Y, .finite my⟩,
         ⟨.finite mx, .finite b.MAX_X, .finite my, .finite b.MAX_Y⟩,
         ⟨.finite b.MIN_X, .finite mx, .finite my, .finite b.MAX_Y⟩] ∧
      (∀ c ∈ divide32 b, ∀ x y, c.contains x y = true → b.contains x y = true) ∧
      (∀ x y, b.contains x y = true → ∃ c ∈ divide32 b, c.contains x y = true) ∧
      (∀ x y, List.Pairwise (fun c c' : Bounds32 => c.contains x y = true →
        c'.contains x y = true → x = mx ∨ y = my) (divide32 b)) := by
  obtain ⟨mx, hmx, hx1, hx2⟩ :=
    Float32.midpoint_between b.MIN_X b.MAX_X hb.1 hrep.1 hrep.2.1 hx
  obtain ⟨my, hmy, hy1, hy2⟩ :=
    Float32.midpoint_between b.MIN_Y b.MAX_Y hb.2 hrep.2.2.1 hrep.2.2.2 hy
  have hdiv : divide32 b =
      [⟨.finite b.MIN_X, .finite mx, .finite b.MIN_Y, .finite my⟩,
       ⟨.finite mx, .finite b.MAX_X, .finite b.MIN_Y, .finite my⟩,
       ⟨.finite mx, .finite b.MAX_X, .finite my, .finite b.MAX_Y⟩,
       ⟨.finite b.MIN_X, .finite mx, .finite my, .finite b.MAX_Y⟩] := by
    simp only [divide32, hmx, hmy]
  refine ⟨mx, my, hmx, hmy, hx1, hx2, hy1, hy2, hdiv, ?_, ?_, ?_⟩
  · intro c hc x y hcont
    rw [hdiv] at hc
    simp only [List.mem_cons, List.mem_singleton, List.not_mem_nil, or_false] at hc
    rw [iMBR.contains_iff]
    rcases hc with rfl | rfl | rfl | rfl <;> rw [contains32_iff] at hcont <;>
      obtain ⟨h1, h2, h3, h4⟩ := hcont <;> refine ⟨?_, ?_, ?_, ?_⟩ <;> linarith
  · intro x y hcont
    rw [iMBR.contains_iff] at hcont
    obtain ⟨h1, h2, h3, h4⟩ := hcont
    rw [hdiv]
    simp only [List.mem_cons, List.mem_singleton, List.not_mem_nil, or_false,
      exists_eq_or_imp, exists_eq_left, contains32_iff]
    rcases le_total x mx with hxm | hxm <;> rcases le_total y my with hym | hym
    · exact Or.inl ⟨h1, hxm, h3, hym⟩
    · exact Or.inr (Or.inr (Or.inr ⟨h1, hxm, hym, h4⟩))
    · exact Or.inr (Or.inl ⟨hxm, h2, h3, hym⟩)
    · exact Or.inr (Or.inr (Or.inl ⟨hxm, h2, hym, h4⟩))
  · intro x y
    rw [hdiv]
    simp only [List.pairwise_cons, List.mem_cons, List.mem_singleton, List.not_mem_nil,
      forall_eq_or_imp, forall_eq, List.Pairwise.nil, and_true, false_implies, implies_true,
      contains32_iff]
    refine ⟨⟨?_, ?_, ?_⟩, ⟨?_, ?_⟩, ?_⟩
    · rintro ⟨_, h1, _, _⟩ ⟨h2, _, _, _⟩
      exact Or.inl (le_antisymm h1 h2)
    · rintro ⟨_, h1, _, _⟩ ⟨h2, _, _, _⟩
      exact Or.inl (le_antisymm h1 h2)
    · rintro ⟨_, _, _, h1⟩ ⟨_, _, h2, _⟩
      exact Or.inr (le_antisymm h1 h2)
    · rintro ⟨_, _, _, h1⟩ ⟨_, _, h2, _⟩
      exact Or.inr (le_antisymm h1 h2)
    · rintro ⟨h1, _, _, _⟩ ⟨_, h2, _, _⟩
      exact Or.inl (le_antisymm h2 h1)
    · rintro ⟨h1, _, _, _⟩ ⟨_, h2, _, _⟩
      exact Or.inl (le_antisymm h2 h1)

/-- Witness for C23: the rectangle `[-1, 1] x [-1/2, 1/4]` is cut at
`x = 0` and `y = -1/8`. -/
theorem C23_divide_partitions_witness :
    ((⟨-1, 1, -1 / 2, 1 / 4⟩ : iMBR).WF ∧
      (Float32.Representable (-1) ∧ Float32.Representable 1 ∧
        Float32.Representable (-1 / 2) ∧ Float32.Representable (1 / 4)) ∧
      (Float32.add (-1) 1).isFinite = true ∧ (Float32.add (-1 / 2) (1 / 4)).isFinite = true) ∧
    divide32 ⟨-1, 1, -1 / 2, 1 / 4⟩ =
      [⟨.finite (-1), .finite 0, .finite (-1 / 2), .finite (-1 / 8)⟩,
       ⟨.finite 0, .finite 1, .finite (-1 / 2), .finite (-1 / 8)⟩,
       ⟨.finite 0, .finite 1, .finite (-1 / 8), .finite (1 / 4)⟩,
       ⟨.finite (-1), .finite 0, .finite (-1 / 8), .finite (1 / 4)⟩] ∧
    ∃ mx my : ℚ,
      (∀ c ∈ divide32 ⟨-1, 1, -1 / 2, 1 / 4⟩, ∀ x y, c.contains x y = true →
        (⟨-1, 1, -1 / 2, 1 / 4⟩ : iMBR).contains x y = true) ∧
      (∀ x y, (⟨-1, 1, -1 / 2, 1 / 4⟩ : iMBR).contains x y = true →
        ∃ c ∈ divide32 ⟨-1, 1, -1 / 2, 1 / 4⟩, c.contains x y = true) ∧
      (∀ x y, List.Pairwise (fun c c' : Bounds32 => c.contains x y = true →
        c'.contains x y = true → x = mx ∨ y = my) (divide32 ⟨-1, 1, -1 / 2, 1 / 4⟩)) :=
  ⟨by decide!, by decide!,
    (C23_divide_partitions ⟨-1, 1, -1 / 2, 1 / 4⟩ (by decide!) (by decide!) (by decide!)
      (by decide!)).elim fun mx h => h.elim fun my h' =>
        ⟨mx, my, h'.2.2.2.2.2.2.2.1, h'.2.2.2.2.2.2.2.2.1, h'.2.2.2.2.2.2.2.2.2⟩⟩

end QuadTree
/-! ## `QuadRendererBase`: the count modulo 65536, the frame of
`ensureCapacity`, and the slices written by `render()` -/

namespace QuadRendererBase

theorem modInv_new (heap : Heap) : ModInv heap QuadRendererBase.new :=
  ⟨rfl, List.nodup_nil⟩

theorem modInv_ensureCapacity (heap : Heap) (s : QuadRendererBase) (q : Nat)
    (h : ModInv heap s) : ModInv heap (s.ensureCapacity q) := by
  unfold ModInv
  rw [ensureCapacity_count, ensureCapacity_drawItems]
  exact h

theorem modInv_hide (heap : Heap) (s : QuadRendererBase) (r : Nat)
    (h : ModInv heap s) : ModInv heap (s.hide heap r) := by
  obtain ⟨h1, h2⟩ := h
  unfold hide
  split
  · rename_i hmem
    have hsum := visibleQuads_filter heap r _ h2 hmem
    refine ⟨?_, h2.filter _⟩
    simp only [h1]
    unfold sub16
    omega
  · exact ⟨h1, h2⟩

theorem modInv_show (heap : Heap) (s : QuadRendererBase) (r : Nat)
    (h : ModInv heap s) : ModInv heap (s.show_ heap r) := by
  by_cases hmem : r ∈ s._drawItems
  · unfold show_
    rw [if_pos hmem]
    exact h
  · obtain ⟨h1, h2⟩ := h
    refine ⟨?_, ?_⟩
    · rw [show_new_count heap s r hmem, show_new_drawItems heap s r hmem,
        visibleQuads_orderedInsert, h1]
      unfold wrap16
      omega
    · rw [show_new_drawItems heap s r hmem]
      exact (List.perm_orderedInsert _ _ _).nodup_iff.mpr (List.nodup_cons.mpr ⟨hmem, h2⟩)

theorem modInv_run (heap : Heap) (cs : List Call) : ∀ (s : QuadRendererBase),
    ModInv heap s → ModInv heap (run heap s cs) := by
  induction cs with
  | nil => intro s h; exact h
  | cons c cs ih =>
    intro s h
    have hstep : ModInv heap (step heap s c) := by
      cases c with
      | show_ r => exact modInv_show heap s r h
      | hide r => exact modInv_hide heap s r h
      | ensureCapacity q => exact modInv_ensureCapacity heap s q h
    exact ih (step heap s c) hstep

/-- C26: in every state reached from the new renderer by `show`, `hide`
and `ensureCapacity`, `_count` is the sum of the quad counts of the
elements of the visible set reduced modulo 65536; it is the exact sum when
the sum is below 65536, in particular when no `show` took it to 65536 or
beyond. -/
theorem C26_count_is_sum_mod (heap : Heap) (cs : List Call) :
    (run heap QuadRendererBase.new cs)._count
      = visibleQuads heap (run heap QuadRendererBase.new cs)._drawItems % 65536 ∧
    (visibleQuads heap (run heap QuadRendererBase.new cs)._drawItems < 65536 →
      (run heap QuadRendererBase.new cs)._count
        = visibleQuads heap (run heap QuadRendererBase.new cs)._drawItems) ∧
    (NoWrap heap QuadRendererBase.new cs = true →
      (run heap QuadRendererBase.new cs)._count
        = visibleQuads heap (run heap QuadRendererBase.new cs)._drawItems) := by
  have h := (modInv_run heap cs _ (modInv_new heap)).1
  refine ⟨h, fun hlt => ?_, fun hw => ?_⟩
  · rw [h, Nat.mod_eq_of_lt hlt]
  · exact (countInv_run heap cs _ (countInv_new heap) hw).1

/-- Witness for C26: a 1-quad and a 65535-quad element are visible, the sum
is 65536 and `_count` is 0. -/
theorem C26_count_is_sum_mod_witness :
    visibleQuads heapWide (run heapWide QuadRendererBase.new [.show_ 1, .show_ 2])._drawItems
      = 65536 ∧
    (run heapWide QuadRendererBase.new [.show_ 1, .show_ 2])._count = 0 ∧
    (run heapWide QuadRendererBase.new [.show_ 1, .show_ 2])._count
      = visibleQuads heapWide
        (run heapWide QuadRendererBase.new [.show_ 1, .show_ 2])._drawItems % 65536 :=
  ⟨by decide, by decide, (C26_count_is_sum_mod heapWide [.show_ 1, .show_ 2]).1⟩

theorem take_set_of_le {α : Type} (a : α) {n m : Nat} (l : List α) (h : m ≤ n) :
    (l.set n a).take m = l.take m :=
  List.ext_getElem? fun i => by
    rw [List.getElem?_take, List.getElem?_take]
    split
    · rw [List.getElem?_set_ne (by omega)]
    · rfl

theorem writeQuadIndices_take (index : List Nat) (i m : Nat) (h : m ≤ 6 * i) :
    (writeQuadIndices index i).take m = index.take m := by
  unfold writeQuadIndices
  simp only
  rw [take_set_of_le _ _ (by omega), take_set_of_le _ _ (by omega),
    take_set_of_le _ _ (by omega), take_set_of_le _ _ (by omega),
    take_set_of_le _ _ (by omega), take_set_of_le _ _ (by omega)]

theorem foldl_writeQuadIndices_take (m : Nat) (n : Nat) : ∀ (lo : Nat) (index : List Nat),
    m ≤ 6 * lo →
    ((List.range' lo n).foldl writeQuadIndices index).take m = index.take m := by
  induction n with
  | zero => intro lo index _; rfl
  | succ n ih =>
    intro lo index h
    rw [List.range'_succ, List.foldl_cons, ih (lo + 1) _ (by omega),
      writeQuadIndices_take _ _ _ h]

theorem realloc_take {α : Type} (p : List α) (n : Nat) (fill : α) (h : p.length ≤ n) :
    (realloc p n fill).take p.length = p := by
  unfold realloc
  rw [List.take_of_length_le h]
  exact List.take_left' rfl

/-- C24: on a state whose mirrors have the size of the capacity and whose
index mirror is as `ensureCapacity` writes it, `ensureCapacity(q)` with
`q <= capacity` returns the state unchanged; with `q > capacity` it sets
the capacity to `q` and the index-dirty flag, keeps `_count` and the
visible set, keeps the vertices of the position mirror and the index
entries of the quads below the old capacity, and the index mirror has the
entries of the quads from the old capacity up to `q` as its only new
entries. -/
theorem C24_ensureCapacity_frame (s : QuadRendererBase) (q : Nat) (hq : q < 65536)
    (hv : s._vCoords.length = 4 * s._bufferSize) (hinv : IndexInv s) :
    (q ≤ s._bufferSize → s.ensureCapacity q = s) ∧
    (s._bufferSize < q →
      (s.ensureCapacity q)._bufferSize = q ∧
      (s.ensureCapacity q)._updateIndex = true ∧
      (s.ensureCapacity q)._count = s._count ∧
      (s.ensureCapacity q)._drawItems = s._drawItems ∧
      (s.ensureCapacity q)._vCoords.length = 4 * q ∧
      (s.ensureCapacity q)._vCoords.take (4 * s._bufferSize) = s._vCoords ∧
      (s.ensureCapacity q)._index.length = 6 * q ∧
      (s.ensureCapacity q)._index.take (6 * s._bufferSize) = s._index ∧
      ∀ i, s._bufferSize ≤ i → i < q → QuadIndexed (s.ensureCapacity q)._index i) := by
  have hw : wrap16 q = q := wrap16_of_lt hq
  constructor
  · intro hle
    unfold ensureCapacity
    simp only [hw]
    rw [if_neg (by omega)]
  · intro hlt
    have hnew := indexInv_ensureCapacity s q hinv
    have hb : (s.ensureCapacity q)._bufferSize = q := by
      rw [ensureCapacity_bufferSize, hw]; omega
    have hvc : (s.ensureCapacity q)._vCoords = realloc s._vCoords (q * 4) ⟨0, 0, 0⟩ := by
      unfold ensureCapacity
      simp only [hw]
      rw [if_pos hlt]
    have hix : (s.ensureCapacity q)._index
        = indexLoop (realloc s._index (q * 6) 0) s._bufferSize q := by
      unfold ensureCapacity
      simp only [hw]
      rw [if_pos hlt]
    have hup : (s.ensureCapacity q)._updateIndex = true := by
      unfold ensureCapacity
      simp only [hw]
      rw [if_pos hlt]
    refine ⟨hb, hup, ensureCapacity_count s q, ensureCapacity_drawItems s q, ?_, ?_, ?_, ?_, ?_⟩
    · rw [hvc, realloc_length]; omega
    · rw [hvc, ← hv]
      exact realloc_take _ _ _ (by omega)
    · rw [hnew.1, hb]
    · rw [hix]
      unfold indexLoop
      rw [foldl_writeQuadIndices_take _ _ _ _ (le_refl _), ← hinv.1]
      exact realloc_take _ _ _ (by rw [hinv.1]; omega)
    · intro i _ hi
      exact hnew.2 i (by rw [hb]; exact hi)

/-- Witness for C24: a renderer showing one quad grows to capacity 3. -/
theorem C24_ensureCapacity_frame_witness :
    (3 < 65536 ∧
      (QuadRendererBase.new.show_ heapTwo 1)._vCoords.length
        = 4 * (QuadRendererBase.new.show_ heapTwo 1)._bufferSize ∧
      (QuadRendererBase.new.show_ heapTwo 1)._bufferSize < 3) ∧
    ((QuadRendererBase.new.show_ heapTwo 1).ensureCapacity 3)._bufferSize = 3 ∧
    ((QuadRendererBase.new.show_ heapTwo 1).ensureCapacity 3)._updateIndex = true :=
  ⟨⟨by decide, by decide, by decide⟩,
    (((C24_ensureCapacity_frame (QuadRendererBase.new.show_ heapTwo 1) 3 (by decide)
      (by decide) (indexInv_show heapTwo _ 1 indexInv_new)).2 (by decide)).1),
    (((C24_ensureCapacity_frame (QuadRendererBase.new.show_ heapTwo 1) 3 (by decide)
      (by decide) (indexInv_show heapTwo _ 1 indexInv_new)).2 (by decide)).2.1)⟩

end QuadRendererBase
namespace QuadRendererBase

theorem vCoords_length_ensureCapacity (s : QuadRendererBase) (q : Nat)
    (h : s._vCoords.length = 4 * s._bufferSize) :
    (s.ensureCapacity q)._vCoords.length = 4 * (s.ensureCapacity q)._bufferSize := by
  unfold ensureCapacity
  simp only
  split
  · simp only [realloc_length]; omega
  · exact h

theorem vCoords_length_run (heap : Heap) (cs : List Call) : ∀ (s : QuadRendererBase),
    s._vCoords.length = 4 * s._bufferSize →
    (run heap s cs)._vCoords.length = 4 * (run heap s cs)._bufferSize := by
  induction cs with
  | nil => intro s h; exact h
  | cons c cs ih =>
    intro s h
    have hstep : (step heap s c)._vCoords.length = 4 * (step heap s c)._bufferSize := by
      cases c with
      | show_ r =>
        simp only [step]
        unfold show_
        split
        · exact h
        · exact vCoords_length_ensureCapacity _ _ h
      | hide r =>
        simp only [step]
        unfold hide
        split
        · exact h
        · exact h
      | ensureCapacity q => exact vCoords_length_ensureCapacity s q h
    exact ih (step heap s c) hstep

theorem visibleQuads_cons (heap : Heap) (r : Nat) (items : List Nat) :
    visibleQuads heap (r :: items) = (heap r)._count + visibleQuads heap items := by
  simp only [visibleQuads, List.map_cons, List.sum_cons, iQuadRenderable.getQuadCount]

theorem visibleQuads_congr (h1 h2 : Heap) (hc : ∀ a, (h1 a)._count = (h2 a)._count) :
    ∀ (items : List Nat), visibleQuads h1 items = visibleQuads h2 items := by
  intro items
  induction items with
  | nil => rfl
  | cons r items ih => rw [visibleQuads_cons, visibleQuads_cons, ih, hc]

theorem slices_bounds (heap : Heap) : ∀ (items : List Nat) (offset : Nat),
    offset + visibleQuads heap items < 65536 →
    (∀ p ∈ slices heap items offset,
      4 * offset ≤ p.1 ∧ p.1 + p.2 ≤ 4 * (offset + visibleQuads heap items)) ∧
    List.Pairwise (fun p q : Nat × Nat => p.1 + p.2 ≤ q.1) (slices heap items offset) := by
  intro items
  induction items with
  | nil =>
    intro offset _
    exact ⟨fun p hp => absurd hp (List.not_mem_nil p), List.Pairwise.nil⟩
  | cons r items ih =>
    intro offset hlt
    rw [visibleQuads_cons] at hlt ⊢
    have hw : wrap16 (offset + (heap r).getQuadCount) = offset + (heap r)._count :=
      wrap16_of_lt (by simp only [iQuadRenderable.getQuadCount]; omega)
    have hrec := ih (offset + (heap r)._count) (by omega)
    simp only [slices, hw]
    refine ⟨?_, ?_⟩
    · intro p hp
      rcases List.mem_cons.mp hp with rfl | hp
      · simp only
        omega
      · have := hrec.1 p hp
        omega
    · refine List.pairwise_cons.mpr ⟨?_, hrec.2⟩
      intro p hp
      have := hrec.1 p hp
      simp only
      omega

theorem render_some (e : iQuadRenderable) (mem : List i16vec3) (pos offset : Nat)
    (force : Bool) (hwf : e._vCoords.length = e._count * 4)
    (hdst : pos + e._count * 4 ≤ mem.length) :
    ∃ b mem1 e1, e.render mem pos offset force = some (b, mem1, e1) ∧
      mem1.length = mem.length ∧ e1._count = e._count ∧ e1._vCoords = e._vCoords := by
  unfold iQuadRenderable.render
  simp only
  split
  · rw [memcpy_eq_some _ _ _ _ hdst (by omega)]
    exact ⟨_, _, _, rfl, memcpy_length _ _ _ _ hdst (by omega), rfl, rfl⟩
  · exact ⟨_, _, _, rfl, rfl, rfl, rfl⟩

theorem renderLoop_some : ∀ (items : List Nat) (heap : Heap) (vCoords : List i16vec3)
    (offset : Nat) (updateVBO : Bool),
    (∀ r, (heap r)._vCoords.length = (heap r)._count * 4) →
    4 * (offset + visibleQuads heap items) ≤ vCoords.length →
    offset + visibleQuads heap items < 65536 →
    (renderLoop items heap vCoords offset updateVBO).isSome = true := by
  intro items
  induction items with
  | nil => intro _ _ _ _ _ _ _; rfl
  | cons r items ih =>
    intro heap vCoords offset updateVBO hheap hfit hlt
    rw [visibleQuads_cons] at hfit hlt
    obtain ⟨b, mem1, e1, hr, hlen, hcount, hvc⟩ :=
      render_some (heap r) vCoords (4 * offset) offset false (hheap r) (by omega)
    have hw : wrap16 (offset + (heap r).getQuadCount) = offset + (heap r)._count :=
      wrap16_of_lt (by simp only [iQuadRenderable.getQuadCount]; omega)
    have hsame : ∀ a, (Function.update heap r e1 a)._count = (heap a)._count := by
      intro a
      by_cases ha : a = r
      · subst ha; rw [Function.update_same]; exact hcount
      · rw [Function.update_noteq ha]
    have hheap1 : ∀ a, (Function.update heap r e1 a)._vCoords.length
        = (Function.update heap r e1 a)._count * 4 := by
      intro a
      by_cases ha : a = r
      · subst ha; rw [Function.update_same, hvc, hcount]; exact hheap a
      · rw [Function.update_noteq ha]; exact hheap a
    have hvq := visibleQuads_congr (Function.update heap r e1) heap hsame items
    simp only [renderLoop, renderItem, hr, hw]
    exact ih _ _ _ _ hheap1 (by rw [hvq, hlen]; omega) (by rw [hvq]; omega)

/-- C25 (as stated, refuted): after `show` of a 1-quad element and of a
65535-quad element `_count` has wrapped to 0 and the capacity is 1, so the
mirror holds 4 vertices; `render()` hands the second element the slice of
262140 vertices from vertex 4, outside the mirror, and its copy leaves the
array. -/
theorem C25_counterexample :
    (run heapWide QuadRendererBase.new [.show_ 1, .show_ 2])._bufferSize = 1 ∧
    (run heapWide QuadRendererBase.new [.show_ 1, .show_ 2])._vCoords.length = 4 ∧
    slices heapWide (run heapWide QuadRendererBase.new [.show_ 1, .show_ 2])._drawItems 0
      = [(0, 4), (4, 262140)] ∧
    (render heapWide (run heapWide QuadRendererBase.new [.show_ 1, .show_ 2])).isSome
      = false := by
  decide

/-- C25 (amended): when every element owns `4 * N` vertices and no `show`
takes the true number of visible quads to 65536 or beyond, then in the
state reached from the new renderer the position mirror holds
`4 * capacity` vertices, every slice that `render()` hands to a visible
element lies inside it, the slices follow each other without overlap in
iteration order, and `render()` completes without leaving the mirror. -/
theorem C25_slices_in_bounds (heap : Heap) (cs : List Call)
    (hheap : ∀ r, (heap r)._vCoords.length = (heap r)._count * 4)
    (hw : NoWrap heap QuadRendererBase.new cs = true) :
    (run heap QuadRendererBase.new cs)._vCoords.length
      = 4 * (run heap QuadRendererBase.new cs)._bufferSize ∧
    (∀ p ∈ slices heap (run heap QuadRendererBase.new cs)._drawItems 0,
      p.1 + p.2 ≤ 4 * (run heap QuadRendererBase.new cs)._bufferSize) ∧
    List.Pairwise (fun p q : Nat × Nat => p.1 + p.2 ≤ q.1)
      (slices heap (run heap QuadRendererBase.new cs)._drawItems 0) ∧
    (render heap (run heap QuadRendererBase.new cs)).isSome = true := by
  obtain ⟨h1, h2, h3, _⟩ := countInv_run heap cs _ (countInv_new heap) hw
  have hlen := vCoords_length_run heap cs QuadRendererBase.new rfl
  have hlt : 0 + visibleQuads heap (run heap QuadRendererBase.new cs)._drawItems < 65536 := by
    omega
  have hs := slices_bounds heap _ 0 hlt
  refine ⟨hlen, ?_, hs.2, ?_⟩
  · intro p hp
    have := (hs.1 p hp).2
    omega
  · have hloop := renderLoop_some (run heap QuadRendererBase.new cs)._drawItems heap
      (run heap QuadRendererBase.new cs)._vCoords 0 false hheap (by rw [hlen]; omega) hlt
    unfold render
    revert hloop
    cases renderLoop (run heap QuadRendererBase.new cs)._drawItems heap
      (run heap QuadRendererBase.new cs)._vCoords 0 false with
    | none => intro h; exact absurd h (by decide)
    | some v => intro _; rfl

/-- Witness for C25: the two one-quad elements of `heapTwo`, shown, one
hidden and shown again. -/
theorem C25_slices_in_bounds_witness :
    ((∀ r, (heapTwo r)._vCoords.length = (heapTwo r)._count * 4) ∧
      NoWrap heapTwo QuadRendererBase.new [.show_ 1, .show_ 2, .hide 1, .show_ 1] = true) ∧
    (render heapTwo
      (run heapTwo QuadRendererBase.new [.show_ 1, .show_ 2, .hide 1, .show_ 1])).isSome
        = true :=
  ⟨⟨fun r => by unfold heapTwo; split <;> decide, by decide⟩,
    (C25_slices_in_bounds heapTwo [.show_ 1, .show_ 2, .hide 1, .show_ 1]
      (fun r => by unfold heapTwo; split <;> decide) (by decide)).2.2.2⟩

end QuadRendererBase
/-! ## `TexturedQuadRenderer::drawElements`: the texture seen by each quad -/

namespace TexturedQuadRenderer

theorem texturesDrawn_append (a c : List GLCall) : ∀ (bound : Nat),
    texturesDrawn bound (a ++ c) = texturesDrawn bound a ++ texturesDrawn (boundAfter bound a) c := by
  induction a with
  | nil => intro _; rfl
  | cons g a ih =>
    intro bound
    cases g <;> rw [List.cons_append] <;> simp only [texturesDrawn, boundAfter] <;>
      first
      | exact ih _
      | exact congrArg _ (ih _)

theorem boundAfter_append (a c : List GLCall) : ∀ (bound : Nat),
    boundAfter bound (a ++ c) = boundAfter (boundAfter bound a) c := by
  induction a with
  | nil => intro _; rfl
  | cons g a ih =>
    intro bound
    cases g <;> rw [List.cons_append] <;> simp only [boundAfter] <;> exact ih _

theorem foldl_drawQuad_bound (hs : List Nat) : ∀ (st : DrawState) (bound : Nat),
    boundAfter bound st.calls = st.lastTextureId →
    texturesDrawn bound (hs.foldl drawQuad st).calls = texturesDrawn bound st.calls ++ hs := by
  induction hs with
  | nil => intro st bound _; simp only [List.foldl_nil, List.append_nil]
  | cons t hs ih =>
    intro st bound hb
    rw [List.foldl_cons]
    by_cases hlt : st.lastTextureId = t
    · have hstep : drawQuad st t = { st with
          calls := st.calls ++ [GLCall.glDrawElements 6 (st.offset * 6 * 2)]
          offset := wrap16 (st.offset + 1) } := by
        simp only [drawQuad, hlt, bne_self_eq_false, Bool.false_eq_true, if_false]
      rw [ih (drawQuad st t) bound (by rw [hstep]; simp only [boundAfter_append, boundAfter, hb])]
      rw [hstep]
      simp only [texturesDrawn_append, texturesDrawn, hb, hlt, List.append_assoc,
        List.singleton_append]
    · have hne : (st.lastTextureId != t) = true := by simpa using hlt
      have hstep : drawQuad st t = { st with
          lastTextureId := t
          calls := st.calls ++ [GLCall.glBindTexture t]
            ++ [GLCall.glDrawElements 6 (st.offset * 6 * 2)]
          offset := wrap16 (st.offset + 1) } := by
        simp only [drawQuad, hne, if_true]
      rw [ih (drawQuad st t) bound (by rw [hstep]; simp only [boundAfter_append, boundAfter])]
      rw [hstep]
      simp only [texturesDrawn_append, texturesDrawn, boundAfter_append, boundAfter,
        List.append_assoc, List.singleton_append, List.append_nil, List.nil_append]

theorem texturesDrawn_of_zero (heap : Nat → iTexturedQuadRenderable) (s : QuadRendererBase) :
    texturesDrawn 0 (drawElements heap s) = handles heap s._drawItems := by
  unfold drawElements
  rw [foldl_drawItem, foldl_drawQuad_bound _ _ 0 rfl]
  rfl

/-- C29 (evaluation at the failing input): the visible set holds a one-quad
element whose handle is 0 and a one-quad element with texture 7. Called
with texture 0 bound, `drawElements` draws the quads with the textures 0
and 7 and leaves texture 7 bound; called again (the next frame) it issues
the same calls, with no bind before the first draw, so the first quad is
drawn with texture 7 although its handle is 0. -/
theorem C29_unset_handle_drawn_with_bound_texture :
    handles heapUnset
      ((QuadRendererBase.new.show_ (fun a => (heapUnset a).toQuad) 1).show_
        (fun a => (heapUnset a).toQuad) 2)._drawItems = [0, 7] ∧
    drawElements heapUnset
      ((QuadRendererBase.new.show_ (fun a => (heapUnset a).toQuad) 1).show_
        (fun a => (heapUnset a).toQuad) 2)
      = [.glActiveTexture, .glUniform1i, .glDrawElements 6 0, .glBindTexture 7,
          .glDrawElements 6 12] ∧
    texturesDrawn 0 (drawElements heapUnset
      ((QuadRendererBase.new.show_ (fun a => (heapUnset a).toQuad) 1).show_
        (fun a => (heapUnset a).toQuad) 2)) = [0, 7] ∧
    boundAfter 0 (drawElements heapUnset
      ((QuadRendererBase.new.show_ (fun a => (heapUnset a).toQuad) 1).show_
        (fun a => (heapUnset a).toQuad) 2)) = 7 ∧
    texturesDrawn 7 (drawElements heapUnset
      ((QuadRendererBase.new.show_ (fun a => (heapUnset a).toQuad) 1).show_
        (fun a => (heapUnset a).toQuad) 2)) = [7, 7] := by
  decide

end TexturedQuadRenderer
/-! ## `QuadTree`: depths of the nodes -/

namespace QuadTree

theorem depths_insertFuel (mbr : Nat → iMBR) (lo : Int) : ∀ (f : Nat) (t : QuadTree) (item : Nat),
    Depths lo t → Depths lo (insertFuel mbr f t item) := by
  intro f
  induction f with
  | zero => intro t item h; exact h
  | succ f ih =>
    intro t item h
    have hfold : ∀ (l : List Nat) (acc : QuadTree),
        Depths lo acc → Depths lo (l.foldl (insertFuel mbr f) acc) := by
      intro l
      induction l with
      | nil => intro acc h; exact h
      | cons a l ihl => intro acc h; rw [List.foldl_cons]; exact ihl _ (ih _ _ h)
    cases t with
    | leaf b d imm =>
      simp only [insertFuel]
      split
      · exact h
      · split
        · rename_i hc
          apply ih
          apply hfold
          simp only [Depths] at h
          simp only [divide, Depths, new, getDepth]
          refine ⟨h, hc.1, trivial, trivial, trivial, trivial, ?_, ?_, ?_, ?_⟩ <;> omega
        · simp only [Depths] at h ⊢
          exact h
    | node b d c0 c1 c2 c3 =>
      simp only [insertFuel]
      split
      · exact h
      · simp only [Depths] at h ⊢
        simp only [insertFuel_getDepth]
        obtain ⟨h1, h2, h3, h4, h5, h6, h7, h8, h9, h10⟩ := h
        exact ⟨h1, h2, h3, h4, h5, h6, ih _ _ h7, ih _ _ h8, ih _ _ h9, ih _ _ h10⟩

theorem depths_remove (mbr : Nat → iMBR) (lo : Int) (item : Nat) : ∀ (t : QuadTree),
    Depths lo t → Depths lo (remove mbr t item) := by
  intro t
  induction t with
  | leaf b d imm =>
    intro h
    simp only [remove]
    split
    · exact h
    · simp only [undivide, Depths] at h ⊢
      exact h
  | node b d c0 c1 c2 c3 ih0 ih1 ih2 ih3 =>
    intro h
    simp only [remove]
    split
    · exact h
    · simp only [Depths] at h
      obtain ⟨h1, h2, h3, h4, h5, h6, h7, h8, h9, h10⟩ := h
      simp only [undivide]
      split
      · simp only [Depths]
        exact h1
      · simp only [Depths, remove_getDepth]
        exact ⟨h1, h2, h3, h4, h5, h6, ih0 h7, ih1 h8, ih2 h9, ih3 h10⟩

theorem depths_run (mbr : Nat → iMBR) (lo : Int) : ∀ (cs : List Call) (t : QuadTree),
    Depths lo t → Depths lo (run mbr t cs) ∧ (run mbr t cs).getDepth = t.getDepth := by
  intro cs
  induction cs with
  | nil => intro t h; exact ⟨h, rfl⟩
  | cons c cs ih =>
    intro t h
    cases c with
    | insert item =>
      have := ih (t.insert mbr item) (depths_insertFuel mbr lo _ t item h)
      exact ⟨this.1, this.2.trans (insertFuel_getDepth mbr _ t item)⟩
    | remove item =>
      have := ih (remove mbr t item) (depths_remove mbr lo item t h)
      exact ⟨this.1, this.2.trans (remove_getDepth mbr t item)⟩

theorem depths_subtrees (lo : Int) : ∀ (t : QuadTree), Depths lo t → t.getDepth ≤ MAX_DEPTH →
    ∀ n ∈ t.subtrees, Depths lo n ∧ lo ≤ n.getDepth ∧ n.getDepth ≤ MAX_DEPTH ∧
      (∀ c ∈ n.children, c.getDepth = n.getDepth + 1) ∧
      (n.getDepth = MAX_DEPTH → n.isLeaf = true) := by
  intro t
  induction t with
  | leaf b d imm =>
    intro h hle n hn
    simp only [subtrees, List.mem_singleton] at hn
    subst hn
    simp only [Depths] at h
    exact ⟨h, h, hle, fun c hc => absurd hc (List.not_mem_nil c), fun _ => rfl⟩
  | node b d c0 c1 c2 c3 ih0 ih1 ih2 ih3 =>
    intro h hle n hn
    have hh := h
    simp only [Depths] at h
    obtain ⟨h1, h2, h3, h4, h5, h6, h7, h8, h9, h10⟩ := h
    simp only [subtrees, List.mem_cons, List.mem_append] at hn
    rcases hn with rfl | ((hn | hn) | hn) | hn
    · refine ⟨hh, h1, hle, ?_, ?_⟩
      · intro c hc
        simp only [children, List.mem_cons, List.mem_singleton, List.not_mem_nil,
          or_false] at hc
        rcases hc with rfl | rfl | rfl | rfl
        · exact h3
        · exact h4
        · exact h5
        · exact h6
      · intro heq
        simp only [getDepth] at heq
        omega
    · exact ih0 h7 (by omega) n hn
    · exact ih1 h8 (by omega) n hn
    · exact ih2 h9 (by omega) n hn
    · exact ih3 h10 (by omega) n hn

theorem insert_leaf_keep (mbr : Nat → iMBR) (b : iMBR) (d : Int) (imm : List Nat)
    (item : Nat) (hov : b.overlaps (mbr item) = true)
    (hc : ¬(d < MAX_DEPTH ∧ imm.length = 4)) :
    (QuadTree.leaf b d imm).insert mbr item = QuadTree.leaf b d (imm ++ [item]) := by
  simp only [insert, need, insertFuel, getMBR_leaf, hov, Bool.not_true, Bool.false_eq_true,
    if_false, hc]

theorem deep_leaf_collects (mbr : Nat → iMBR) (b : iMBR) (d : Int) (hd : ¬ d < MAX_DEPTH) :
    ∀ (fs imm : List Nat), (∀ f ∈ fs, b.overlaps (mbr f) = true) →
      run mbr (QuadTree.leaf b d imm) (fs.map Call.insert) = QuadTree.leaf b d (imm ++ fs) := by
  intro fs
  induction fs with
  | nil => intro imm _; simp only [List.map_nil, run, List.foldl_nil, List.append_nil]
  | cons a fs ih =>
    intro imm hov
    have hstep : run mbr (QuadTree.leaf b d imm) ((a :: fs).map Call.insert)
        = run mbr ((QuadTree.leaf b d imm).insert mbr a) (fs.map Call.insert) := rfl
    rw [hstep, insert_leaf_keep mbr b d imm a (hov a (List.mem_cons_self a fs))
      (fun h => hd h.1), ih _ (fun f hf => hov f (List.mem_cons_of_mem a hf))]
    simp only [List.append_assoc, List.singleton_append]

/-- C22: in every tree reached by `insert` and `remove` from a root created
with depth `d0 <= MAX_DEPTH`, every node has a depth from `d0` to
`MAX_DEPTH`, the children of a node have its depth plus one, and a node at
depth `MAX_DEPTH` is in leaf mode; and a leaf at depth `MAX_DEPTH` stays a
leaf under any number of inserts of items that overlap it and appends each
of them to its list. -/
theorem C22_depth_bounds (mbr : Nat → iMBR) (root : iMBR) (d0 : Int) (cs : List Call)
    (hd0 : d0 ≤ MAX_DEPTH) :
    (∀ n ∈ (run mbr (new root d0) cs).subtrees,
      d0 ≤ n.getDepth ∧ n.getDepth ≤ MAX_DEPTH ∧
      (∀ c ∈ n.children, c.getDepth = n.getDepth + 1) ∧
      (n.getDepth = MAX_DEPTH → n.isLeaf = true)) ∧
    (∀ (b : iMBR) (imm fs : List Nat), (∀ f ∈ fs, b.overlaps (mbr f) = true) →
      run mbr (QuadTree.leaf b MAX_DEPTH imm) (fs.map Call.insert)
        = QuadTree.leaf b MAX_DEPTH (imm ++ fs)) := by
  have hrun := depths_run mbr d0 cs (new root d0) (by simp only [new, Depths, le_refl])
  refine ⟨?_, ?_⟩
  · intro n hn
    have hroot : (run mbr (new root d0) cs).getDepth ≤ MAX_DEPTH := by
      rw [hrun.2]; exact hd0
    exact (depths_subtrees d0 _ hrun.1 hroot n hn).2
  · intro b imm fs hov
    exact deep_leaf_collects mbr b MAX_DEPTH (lt_irrefl _) fs imm hov

/-- Witness for C22: the screen root of depth 1 after the five inserts of
`mbrFive`, which make it subdivide. -/
theorem C22_depth_bounds_witness :
    (1 : Int) ≤ MAX_DEPTH ∧
    ∀ n ∈ (run mbrFive (new ⟨-1, 1, -1, 1⟩ 1)
        [.insert 0, .insert 1, .insert 2, .insert 3, .insert 4]).subtrees,
      1 ≤ n.getDepth ∧ n.getDepth ≤ MAX_DEPTH ∧
      (∀ c ∈ n.children, c.getDepth = n.getDepth + 1) ∧
      (n.getDepth = MAX_DEPTH → n.isLeaf = true) :=
  ⟨by decide, (C22_depth_bounds mbrFive ⟨-1, 1, -1, 1⟩ 1
    [.insert 0, .insert 1, .insert 2, .insert 3, .insert 4] (by decide)).1⟩

end QuadTree
/-! ## `QuadTree`: nodes with children are not empty; `insert` terminates -/

namespace QuadTree

theorem nonempty_has_item : ∀ (t : QuadTree), t.empty = false → ∃ lf ∈ t.leaves, lf.2 ≠ [] := by
  intro t
  induction t with
  | leaf b d imm =>
    intro h
    refine ⟨(b, imm), by simp only [leaves, List.mem_singleton], ?_⟩
    intro hnil
    simp only at hnil
    rw [hnil] at h
    simp [empty] at h
  | node b d c0 c1 c2 c3 ih0 ih1 ih2 ih3 =>
    intro h
    simp only [empty, Bool.and_eq_false_iff] at h
    simp only [leaves, List.mem_append]
    rcases h with ((h | h) | h) | h
    · obtain ⟨lf, h1, h2⟩ := ih0 h
      exact ⟨lf, Or.inl (Or.inl (Or.inl h1)), h2⟩
    · obtain ⟨lf, h1, h2⟩ := ih1 h
      exact ⟨lf, Or.inl (Or.inl (Or.inr h1)), h2⟩
    · obtain ⟨lf, h1, h2⟩ := ih2 h
      exact ⟨lf, Or.inl (Or.inr h1), h2⟩
    · obtain ⟨lf, h1, h2⟩ := ih3 h
      exact ⟨lf, Or.inr h1, h2⟩

theorem full_subtrees : ∀ (t : QuadTree), Full t →
    ∀ n ∈ t.subtrees, n.isLeaf = false → n.empty = false := by
  intro t
  induction t with
  | leaf b d imm =>
    intro _ n hn hleaf
    simp only [subtrees, List.mem_singleton] at hn
    subst hn
    simp [isLeaf] at hleaf
  | node b d c0 c1 c2 c3 ih0 ih1 ih2 ih3 =>
    intro h n hn hleaf
    simp only [Full] at h
    simp only [subtrees, List.mem_cons, List.mem_append] at hn
    rcases hn with rfl | ((hn | hn) | hn) | hn
    · exact h.1
    · exact ih0 h.2.1 n hn hleaf
    · exact ih1 h.2.2.1 n hn hleaf
    · exact ih2 h.2.2.2.1 n hn hleaf
    · exact ih3 h.2.2.2.2 n hn hleaf

/-- In the model `QuadTree.remove`, in every tree reached by `insert` and
`remove` of items with well-formed rectangles from an empty root with a
well-formed rectangle, no node with children is empty: `empty()` is false
on it and some leaf below it has an item in its list. -/
theorem no_empty_internal_node (mbr : Nat → iMBR) (root : iMBR) (depth : Int)
    (cs : List Call) (hroot : root.WF) (hwf : ∀ c ∈ cs, (mbr c.item).WF) :
    ∀ n ∈ (run mbr (new root depth) cs).subtrees, n.isLeaf = false →
      n.empty = false ∧ ∃ lf ∈ n.leaves, lf.2 ≠ [] := by
  intro n hn hleaf
  have hfull := (reach_new mbr root depth cs hroot hwf).2.1
  have hne := full_subtrees _ hfull n hn hleaf
  exact ⟨hne, nonempty_has_item n hne⟩

theorem foldl_insertFuel_getDepth (mbr : Nat → iMBR) (f : Nat) : ∀ (l : List Nat)
    (acc : QuadTree), (l.foldl (insertFuel mbr f) acc).getDepth = acc.getDepth := by
  intro l
  induction l with
  | nil => intro acc; rfl
  | cons a l ihl => intro acc; rw [List.foldl_cons, ihl, insertFuel_getDepth]

theorem foldl_depths_insertFuel (mbr : Nat → iMBR) (lo : Int) (f : Nat) : ∀ (l : List Nat)
    (acc : QuadTree), Depths lo acc → Depths lo (l.foldl (insertFuel mbr f) acc) := by
  intro l
  induction l with
  | nil => intro acc h; exact h
  | cons a l ihl =>
    intro acc h
    rw [List.foldl_cons]
    exact ihl _ (depths_insertFuel mbr lo f acc a h)

theorem insertTrace_spec (mbr : Nat → iMBR) : ∀ (f : Nat) (t : QuadTree) (item : Nat),
    need t ≤ f →
    ∃ n, insertTrace mbr f t item = some (insertFuel mbr f t item, n) ∧
      ∀ lo, Depths lo t → n ≤ (MAX_DEPTH - t.getDepth).toNat := by
  intro f
  induction f with
  | zero =>
    intro t item h
    have := need_pos t
    omega
  | succ f ih =>
    intro t item hneed
    cases t with
    | leaf b d imm =>
      by_cases hov : b.overlaps (mbr item) = true
      · by_cases hc : d < MAX_DEPTH ∧ imm.length = 4
        · have hnd : need (divide b d) ≤ f := by
            have := need_divide b d imm hc.1
            omega
          have hfold : ∀ (l : List Nat) (acc : QuadTree) (k : Nat), need acc ≤ f →
              ∃ n, l.foldlM (fun (acc : QuadTree × Nat) x =>
                  (insertTrace mbr f acc.1 x).map fun r => (r.1, max acc.2 r.2)) (acc, k)
                = some (l.foldl (insertFuel mbr f) acc, n) ∧
                ∀ lo, Depths lo acc → k ≤ (MAX_DEPTH - acc.getDepth).toNat →
                  n ≤ (MAX_DEPTH - acc.getDepth).toNat := by
            intro l
            induction l with
            | nil =>
              intro acc k _
              exact ⟨k, rfl, fun _ _ hk => hk⟩
            | cons x l ihl =>
              intro acc k hacc
              obtain ⟨n1, h1, hb1⟩ := ih acc x hacc
              have hacc' : need (insertFuel mbr f acc x) ≤ f :=
                le_trans (insertFuel_need mbr f acc x hacc) hacc
              obtain ⟨n2, h2, hb2⟩ := ihl (insertFuel mbr f acc x) (max k n1) hacc'
              refine ⟨n2, ?_, ?_⟩
              · rw [List.foldlM_cons, List.foldl_cons]
                simp only [h1, Option.map_some', Option.bind_eq_bind, Option.some_bind]
                exact h2
              · intro lo hD hk
                have := hb2 lo (depths_insertFuel mbr lo f acc x hD)
                rw [insertFuel_getDepth] at this
                exact this (max_le hk (hb1 lo hD))
          obtain ⟨n1, h1, hb1⟩ := hfold imm (divide b d) 0 hnd
          have hneed2 : need (imm.foldl (insertFuel mbr f) (divide b d)) ≤ f :=
            le_trans (foldl_need (insertFuel mbr f) f
              (fun t item h => insertFuel_need mbr f t item h) imm (divide b d) hnd) hnd
          obtain ⟨n2, h2, hb2⟩ := ih (imm.foldl (insertFuel mbr f) (divide b d)) item hneed2
          refine ⟨max n1 n2, ?_, ?_⟩
          · simp only [insertTrace, insertFuel, getMBR_leaf, hov, Bool.not_true,
              Bool.false_eq_true, if_false, hc, and_self, if_true, h1, Option.some_bind,
              Option.bind_eq_bind, h2, Option.map_some']
          · intro lo hD
            simp only [Depths] at hD
            have hDdiv : Depths lo (divide b d) := by
              simp only [divide, Depths, new, getDepth]
              refine ⟨hD, hc.1, trivial, trivial, trivial, trivial, ?_, ?_, ?_, ?_⟩ <;> omega
            have hb1' := hb1 lo hDdiv (Nat.zero_le _)
            have hb2' := hb2 lo (foldl_depths_insertFuel mbr lo f imm _ hDdiv)
            rw [foldl_insertFuel_getDepth] at hb2'
            exact max_le hb1' hb2'
        · refine ⟨0, ?_, fun _ _ => Nat.zero_le _⟩
          simp only [insertTrace, insertFuel, getMBR_leaf, hov, Bool.not_true,
            Bool.false_eq_true, if_false, hc]
      · refine ⟨0, ?_, fun _ _ => Nat.zero_le _⟩
        have hov' : b.overlaps (mbr item) = false := by simpa using hov
        simp only [insertTrace, insertFuel, getMBR_leaf, hov', Bool.not_false, if_true]
    | node b d c0 c1 c2 c3 =>
      by_cases hov : b.overlaps (mbr item) = true
      · simp only [need] at hneed
        obtain ⟨n0, h0, hb0⟩ := ih c0 item (by omega)
        obtain ⟨n1, h1, hb1⟩ := ih c1 item (by omega)
        obtain ⟨n2, h2, hb2⟩ := ih c2 item (by omega)
        obtain ⟨n3, h3, hb3⟩ := ih c3 item (by omega)
        refine ⟨1 + max (max n0 n1) (max n2 n3), ?_, ?_⟩
        · simp only [insertTrace, insertFuel, getMBR_node, hov, Bool.not_true,
            Bool.false_eq_true, if_false, h0, h1, h2, h3, Option.some_bind,
            Option.bind_eq_bind, Option.map_some']
        · intro lo hD
          simp only [Depths] at hD
          obtain ⟨_, hd, e0, e1, e2, e3, d0, d1, d2, d3⟩ := hD
          have g0 := hb0 lo d0
          have g1 := hb1 lo d1
          have g2 := hb2 lo d2
          have g3 := hb3 lo d3
          rw [e0] at g0
          rw [e1] at g1
          rw [e2] at g2
          rw [e3] at g3
          simp only [getDepth]
          have hmax : max (max n0 n1) (max n2 n3) ≤ (MAX_DEPTH - (d + 1)).toNat :=
            max_le (max_le g0 g1) (max_le g2 g3)
          omega
      · refine ⟨0, ?_, fun _ _ => Nat.zero_le _⟩
        have hov' : b.overlaps (mbr item) = false := by simpa using hov
        simp only [insertTrace, insertFuel, getMBR_node, hov', Bool.not_false, if_true]

end QuadTree

namespace QuadTree

theorem depths_of_subtree (lo : Int) : ∀ (t : QuadTree), Depths lo t →
    ∀ n ∈ t.subtrees, Depths lo n := by
  intro t
  induction t with
  | leaf b d imm =>
    intro h n hn
    simp only [subtrees, List.mem_singleton] at hn
    subst hn
    exact h
  | node b d c0 c1 c2 c3 ih0 ih1 ih2 ih3 =>
    intro h n hn
    have hh := h
    simp only [Depths] at h
    obtain ⟨_, _, _, _, _, _, h7, h8, h9, h10⟩ := h
    simp only [subtrees, List.mem_cons, List.mem_append] at hn
    rcases hn with rfl | ((hn | hn) | hn) | hn
    · exact hh
    · exact ih0 h7 n hn
    · exact ih1 h8 n hn
    · exact ih2 h9 n hn
    · exact ih3 h10 n hn

/-- C30: `insert` returns on every tree and every item: when the nesting of
calls is allowed to reach `need t` (at most `2 * (MAX_DEPTH - depth) + 1`
on a leaf) it yields the tree that `insert` is defined to give, and so does
every larger allowance. On every node of a tree reached by `insert` and
`remove` from an empty root the calls reach at most `MAX_DEPTH - depth`
levels below the node (none when the depth is `MAX_DEPTH` or more). The
bound is reached when a fifth item with the same one-point rectangle is
inserted into the screen root of depth 1: the calls end nine levels
below. -/
theorem C30_insert_terminates (mbr : Nat → iMBR) (item : Nat) :
    (∀ (t : QuadTree) (fuel : Nat), t.need ≤ fuel →
      ∃ n, insertTrace mbr fuel t item = some (t.insert mbr item, n)) ∧
    (∀ (root : iMBR) (d0 : Int) (cs : List Call),
      ∀ t ∈ (run mbr (new root d0) cs).subtrees,
        ∃ n, insertTrace mbr t.need t item = some (t.insert mbr item, n) ∧
          n ≤ (MAX_DEPTH - t.getDepth).toNat) ∧
    (insertTrace mbrSame (QuadTree.leaf ⟨-1, 1, -1, 1⟩ 1 [0, 1, 2, 3]).need
      (QuadTree.leaf ⟨-1, 1, -1, 1⟩ 1 [0, 1, 2, 3]) 4).map (fun r => r.2) = some 9 := by
  refine ⟨?_, ?_, ?_⟩
  · intro t fuel hf
    obtain ⟨n, hn, _⟩ := insertTrace_spec mbr fuel t item hf
    refine ⟨n, ?_⟩
    rw [hn, ← insertFuel_enough mbr t item (fuel - t.need)]
    congr 3
    omega
  · intro root d0 cs t ht
    obtain ⟨n, hn, hb⟩ := insertTrace_spec mbr t.need t item (le_refl _)
    have hD := depths_of_subtree d0 _
      (depths_run mbr d0 cs (new root d0) (by simp only [new, Depths, le_refl])).1 t ht
    exact ⟨n, hn, hb d0 hD⟩
  · decide!

end QuadTree
/-! ## `QuadTreeNode`: the objects with every member, and the `QuadTree`
they stand for -/

namespace QuadTreeNode

theorem tidy_new (b : iMBR) (d : Int) : Tidy (new b d) := by
  simp only [new, Tidy, List.length_nil]
  intro _
  omega

theorem abs_new (b : iMBR) (d : Int) : (new b d).abs = QuadTree.new b d := rfl

theorem tidy_insertFuel (mbr : Nat → iMBR) : ∀ (f : Nat) (t : QuadTreeNode) (item : Nat),
    (Tidy t → Tidy (insertFuel mbr f t item) ∧
      (insertFuel mbr f t item).abs = QuadTree.insertFuel mbr f t.abs item) ∧
    (∀ b d imm k0 k1 k2 k3, t = .mk b d imm false k0 k1 k2 k3 →
      Tidy k0 → Tidy k1 → Tidy k2 → Tidy k3 →
      ∃ j0 j1 j2 j3, insertFuel mbr f t item = .mk b d imm false j0 j1 j2 j3 ∧
        Tidy j0 ∧ Tidy j1 ∧ Tidy j2 ∧ Tidy j3 ∧
        (insertFuel mbr f t item).abs = QuadTree.insertFuel mbr f t.abs item) := by
  intro f
  induction f with
  | zero =>
    intro t item
    refine ⟨fun h => ⟨h, rfl⟩, ?_⟩
    rintro b d imm k0 k1 k2 k3 rfl h0 h1 h2 h3
    exact ⟨k0, k1, k2, k3, rfl, h0, h1, h2, h3, rfl⟩
  | succ f ih =>
    intro t item
    have hint : ∀ b d imm k0 k1 k2 k3, Tidy k0 → Tidy k1 → Tidy k2 → Tidy k3 →
        ∃ j0 j1 j2 j3,
          insertFuel mbr (f + 1) (.mk b d imm false k0 k1 k2 k3) item
            = .mk b d imm false j0 j1 j2 j3 ∧
          Tidy j0 ∧ Tidy j1 ∧ Tidy j2 ∧ Tidy j3 ∧
          (insertFuel mbr (f + 1) (.mk b d imm false k0 k1 k2 k3) item).abs
            = QuadTree.insertFuel mbr (f + 1) (QuadTreeNode.mk b d imm false k0 k1 k2 k3).abs
              item := by
      intro b d imm k0 k1 k2 k3 h0 h1 h2 h3
      by_cases hov : b.overlaps (mbr item) = true
      · have g0 := (ih k0 item).1 h0
        have g1 := (ih k1 item).1 h1
        have g2 := (ih k2 item).1 h2
        have g3 := (ih k3 item).1 h3
        refine ⟨insertFuel mbr f k0 item, insertFuel mbr f k1 item, insertFuel mbr f k2 item,
          insertFuel mbr f k3 item, ?_, g0.1, g1.1, g2.1, g3.1, ?_⟩
        · simp only [insertFuel, hov, Bool.not_true, Bool.false_eq_true, if_false]
        · simp only [insertFuel, QuadTree.insertFuel, abs, QuadTree.getMBR_node, hov,
            Bool.not_true, Bool.false_eq_true, if_false, g0.2, g1.2, g2.2, g3.2]
      · have hov' : b.overlaps (mbr item) = false := by simpa using hov
        refine ⟨k0, k1, k2, k3, ?_, h0, h1, h2, h3, ?_⟩
        · simp only [insertFuel, hov', Bool.not_false, if_true]
        · simp only [insertFuel, QuadTree.insertFuel, abs, QuadTree.getMBR_node, hov',
            Bool.not_false, if_true]
    cases t with
    | null =>
      refine ⟨fun h => absurd h (by simp only [Tidy, not_false_eq_true]), ?_⟩
      intro b d imm k0 k1 k2 k3 h
      exact QuadTreeNode.noConfusion h
    | mk b d imm u c0 c1 c2 c3 =>
      cases u with
      | false =>
        refine ⟨?_, ?_⟩
        · intro h
          simp only [Tidy] at h
          obtain ⟨j0, j1, j2, j3, he, t0, t1, t2, t3, ha⟩ :=
            hint b d imm c0 c1 c2 c3 h.2.1 h.2.2.1 h.2.2.2.1 h.2.2.2.2
          refine ⟨?_, ha⟩
          rw [he]
          simp only [Tidy]
          exact ⟨h.1, t0, t1, t2, t3⟩
        · intro b' d' imm' k0 k1 k2 k3 he h0 h1 h2 h3
          cases he
          exact hint b d imm c0 c1 c2 c3 h0 h1 h2 h3
      | true =>
        refine ⟨?_, ?_⟩
        · intro h
          simp only [Tidy] at h
          by_cases hov : b.overlaps (mbr item) = true
          · by_cases hc : d < QuadTree.MAX_DEPTH ∧ imm.length = 4
            · have hfold : ∀ (l : List Nat) (k0 k1 k2 k3 : QuadTreeNode),
                  Tidy k0 → Tidy k1 → Tidy k2 → Tidy k3 →
                  ∃ j0 j1 j2 j3,
                    l.foldl (insertFuel mbr f) (.mk b d imm false k0 k1 k2 k3)
                      = .mk b d imm false j0 j1 j2 j3 ∧
                    Tidy j0 ∧ Tidy j1 ∧ Tidy j2 ∧ Tidy j3 ∧
                    (l.foldl (insertFuel mbr f) (.mk b d imm false k0 k1 k2 k3)).abs
                      = l.foldl (QuadTree.insertFuel mbr f)
                        (QuadTreeNode.mk b d imm false k0 k1 k2 k3).abs := by
                intro l
                induction l with
                | nil =>
                  intro k0 k1 k2 k3 h0 h1 h2 h3
                  exact ⟨k0, k1, k2, k3, rfl, h0, h1, h2, h3, rfl⟩
                | cons x l ihl =>
                  intro k0 k1 k2 k3 h0 h1 h2 h3
                  obtain ⟨j0, j1, j2, j3, he, t0, t1, t2, t3, ha⟩ :=
                    (ih (.mk b d imm false k0 k1 k2 k3) x).2 b d imm k0 k1 k2 k3 rfl h0 h1 h2 h3
                  obtain ⟨i0, i1, i2, i3, he', s0, s1, s2, s3, ha'⟩ := ihl j0 j1 j2 j3 t0 t1 t2 t3
                  refine ⟨i0, i1, i2, i3, ?_, s0, s1, s2, s3, ?_⟩
                  · rw [List.foldl_cons, he, he']
                  · rw [List.foldl_cons, List.foldl_cons, he, ha', ← ha, he]
              obtain ⟨j0, j1, j2, j3, he, t0, t1, t2, t3, ha⟩ :=
                hfold imm (new (QuadTree.bounds0 b) (d + 1)) (new (QuadTree.bounds1 b) (d + 1))
                  (new (QuadTree.bounds2 b) (d + 1)) (new (QuadTree.bounds3 b) (d + 1))
                  (tidy_new _ _) (tidy_new _ _) (tidy_new _ _) (tidy_new _ _)
              have htidy : Tidy (.mk b d [] false j0 j1 j2 j3) := by
                simp only [Tidy]
                exact ⟨trivial, t0, t1, t2, t3⟩
              have hfin := (ih (.mk b d [] false j0 j1 j2 j3) item).1 htidy
              have hraw : insertFuel mbr (f + 1) (.mk b d imm true c0 c1 c2 c3) item
                  = insertFuel mbr f (.mk b d [] false j0 j1 j2 j3) item := by
                simp only [insertFuel, hov, Bool.not_true, Bool.false_eq_true, if_false, hc,
                  and_self, if_true, divide, he, clear]
              have habs : QuadTree.insertFuel mbr (f + 1)
                  (QuadTreeNode.mk b d imm true c0 c1 c2 c3).abs item
                  = QuadTree.insertFuel mbr f (QuadTreeNode.mk b d [] false j0 j1 j2 j3).abs
                    item := by
                simp only [QuadTree.insertFuel, abs, QuadTree.getMBR_leaf, hov, Bool.not_true,
                  Bool.false_eq_true, if_false, hc, and_self, if_true]
                rw [he] at ha
                have ha' : QuadTree.node b d j0.abs j1.abs j2.abs j3.abs
                    = imm.foldl (QuadTree.insertFuel mbr f) (QuadTree.divide b d) := ha
                rw [← ha']
              rw [hraw, habs]
              exact hfin
            · have hraw : insertFuel mbr (f + 1) (.mk b d imm true c0 c1 c2 c3) item
                  = .mk b d (imm ++ [item]) true c0 c1 c2 c3 := by
                simp only [insertFuel, hov, Bool.not_true, Bool.false_eq_true, if_false, hc,
                  if_true]
              rw [hraw]
              refine ⟨?_, ?_⟩
              · simp only [Tidy, List.length_append, List.length_singleton]
                intro hd
                have := h hd
                have hne : imm.length ≠ 4 := fun h4 => hc ⟨hd, h4⟩
                omega
              · simp only [QuadTree.insertFuel, abs, QuadTree.getMBR_leaf, hov, Bool.not_true,
                  Bool.false_eq_true, if_false, hc]
          · have hov' : b.overlaps (mbr item) = false := by simpa using hov
            have hraw : insertFuel mbr (f + 1) (.mk b d imm true c0 c1 c2 c3) item
                = .mk b d imm true c0 c1 c2 c3 := by
              simp only [insertFuel, hov', Bool.not_false, if_true]
            rw [hraw]
            refine ⟨by simp only [Tidy]; exact h, ?_⟩
            simp only [QuadTree.insertFuel, abs, QuadTree.getMBR_leaf, hov', Bool.not_false,
              if_true]
        · intro b' d' imm' k0 k1 k2 k3 he
          cases he

end QuadTreeNode
namespace QuadTreeNode

theorem need_abs : ∀ (t : QuadTreeNode), Tidy t → t.abs.need = t.need := by
  intro t
  induction t with
  | null => intro h; exact absurd h (by simp only [Tidy, not_false_eq_true])
  | mk b d imm u c0 c1 c2 c3 ih0 ih1 ih2 ih3 =>
    intro h
    cases u with
    | true => rfl
    | false =>
      simp only [Tidy] at h
      simp only [abs, QuadTree.need, need, ih0 h.2.1, ih1 h.2.2.1, ih2 h.2.2.2.1,
        ih3 h.2.2.2.2]

theorem empty_abs : ∀ (t : QuadTreeNode), Tidy t → t.abs.empty = t.empty := by
  intro t
  induction t with
  | null => intro h; exact absurd h (by simp only [Tidy, not_false_eq_true])
  | mk b d imm u c0 c1 c2 c3 ih0 ih1 ih2 ih3 =>
    intro h
    cases u with
    | true => rfl
    | false =>
      simp only [Tidy] at h
      simp only [abs, QuadTree.empty, empty, ih0 h.2.1, ih1 h.2.2.1, ih2 h.2.2.2.1,
        ih3 h.2.2.2.2]

theorem tidy_insert (mbr : Nat → iMBR) (t : QuadTreeNode) (item : Nat) (h : Tidy t) :
    Tidy (t.insert mbr item) ∧ (t.insert mbr item).abs = t.abs.insert mbr item := by
  have := (tidy_insertFuel mbr t.need t item).1 h
  refine ⟨this.1, ?_⟩
  unfold insert QuadTree.insert
  rw [this.2, need_abs t h]

theorem tidy_remove (mbr : Nat → iMBR) (item : Nat) : ∀ (t : QuadTreeNode), Tidy t →
    Tidy (remove mbr t item) ∧ (remove mbr t item).abs = QuadTree.remove mbr t.abs item := by
  intro t
  induction t with
  | null => intro h; exact absurd h (by simp only [Tidy, not_false_eq_true])
  | mk b d imm u c0 c1 c2 c3 ih0 ih1 ih2 ih3 =>
    intro h
    by_cases hov : b.overlaps (mbr item) = true
    · cases u with
      | true =>
        have hraw : remove mbr (.mk b d imm true c0 c1 c2 c3) item
            = .mk b d (imm.filter (· ≠ item)) true c0 c1 c2 c3 := by
          simp only [remove, hov, Bool.not_true, Bool.false_eq_true, if_false, if_true,
            undivide, Bool.not_eq_true, ite_self]
        rw [hraw]
        refine ⟨?_, ?_⟩
        · simp only [Tidy] at h ⊢
          intro hd
          exact le_trans (List.length_filter_le _ _) (h hd)
        · simp only [abs, QuadTree.remove, hov, Bool.not_true, Bool.false_eq_true, if_false,
            QuadTree.undivide]
      | false =>
        simp only [Tidy] at h
        obtain ⟨himm, h0, h1, h2, h3⟩ := h
        have g0 := ih0 h0
        have g1 := ih1 h1
        have g2 := ih2 h2
        have g3 := ih3 h3
        have hmid : Tidy (.mk b d imm false (remove mbr c0 item) (remove mbr c1 item)
            (remove mbr c2 item) (remove mbr c3 item)) := by
          simp only [Tidy]
          exact ⟨himm, g0.1, g1.1, g2.1, g3.1⟩
        have hempty := empty_abs _ hmid
        have hraw : remove mbr (.mk b d imm false c0 c1 c2 c3) item
            = undivide (.mk b d imm false (remove mbr c0 item) (remove mbr c1 item)
              (remove mbr c2 item) (remove mbr c3 item)) := by
          simp only [remove, hov, Bool.not_true, Bool.false_eq_true, if_false]
        have habs : QuadTree.remove mbr (QuadTreeNode.mk b d imm false c0 c1 c2 c3).abs item
            = QuadTree.undivide (QuadTreeNode.mk b d imm false (remove mbr c0 item)
              (remove mbr c1 item) (remove mbr c2 item) (remove mbr c3 item)).abs := by
          simp only [abs, QuadTree.remove, hov, Bool.not_true, Bool.false_eq_true, if_false,
            g0.2, g1.2, g2.2, g3.2]
        rw [hraw, habs]
        by_cases he : (QuadTreeNode.mk b d imm false (remove mbr c0 item) (remove mbr c1 item)
            (remove mbr c2 item) (remove mbr c3 item)).empty = true
        · have hu : undivide (.mk b d imm false (remove mbr c0 item) (remove mbr c1 item)
              (remove mbr c2 item) (remove mbr c3 item))
              = .mk b d imm true .null .null .null .null := by
            simp only [undivide, he, Bool.not_true, Bool.false_eq_true, if_false,
              Bool.not_false, if_true]
          rw [hu]
          refine ⟨?_, ?_⟩
          · simp only [Tidy, himm, List.length_nil]
            intro _
            omega
          · rw [he] at hempty
            simp only [abs] at hempty ⊢
            simp only [QuadTree.undivide, hempty, if_true, himm]
        · have he' : (QuadTreeNode.mk b d imm false (remove mbr c0 item) (remove mbr c1 item)
              (remove mbr c2 item) (remove mbr c3 item)).empty = false := by simpa using he
          have hu : undivide (.mk b d imm false (remove mbr c0 item) (remove mbr c1 item)
              (remove mbr c2 item) (remove mbr c3 item))
              = .mk b d imm false (remove mbr c0 item) (remove mbr c1 item)
                (remove mbr c2 item) (remove mbr c3 item) := by
            simp only [undivide, he', Bool.not_false, if_true]
          rw [hu]
          refine ⟨hmid, ?_⟩
          rw [he'] at hempty
          simp only [abs] at hempty ⊢
          simp only [QuadTree.undivide, hempty, Bool.false_eq_true, if_false]
    · have hov' : b.overlaps (mbr item) = false := by simpa using hov
      have hraw : remove mbr (.mk b d imm u c0 c1 c2 c3) item = .mk b d imm u c0 c1 c2 c3 := by
        simp only [remove, hov', Bool.not_false, if_true]
      rw [hraw]
      refine ⟨h, ?_⟩
      cases u with
      | true => simp only [abs, QuadTree.remove, hov', Bool.not_false, if_true]
      | false => simp only [abs, QuadTree.remove, hov', Bool.not_false, if_true]

theorem tidy_run (mbr : Nat → iMBR) : ∀ (cs : List QuadTree.Call) (t : QuadTreeNode), Tidy t →
    Tidy (run mbr t cs) ∧ (run mbr t cs).abs = QuadTree.run mbr t.abs cs := by
  intro cs
  induction cs with
  | nil => intro t h; exact ⟨h, rfl⟩
  | cons c cs ih =>
    intro t h
    cases c with
    | insert item =>
      have h1 := tidy_insert mbr t item h
      have h2 := ih (t.insert mbr item) h1.1
      refine ⟨h2.1, ?_⟩
      have : run mbr t (QuadTree.Call.insert item :: cs) = run mbr (t.insert mbr item) cs := rfl
      rw [this, h2.2, h1.2]
      rfl
    | remove item =>
      have h1 := tidy_remove mbr item t h
      have h2 := ih (remove mbr t item) h1.1
      refine ⟨h2.1, ?_⟩
      have : run mbr t (QuadTree.Call.remove item :: cs) = run mbr (remove mbr t item) cs := rfl
      rw [this, h2.2, h1.2]
      rfl

theorem tidy_nodes : ∀ (t : QuadTreeNode), Tidy t → ∀ n ∈ t.nodes,
    (n.getUseImmediate = true → n.getDepth < QuadTree.MAX_DEPTH →
      n.getImmediates.length ≤ 4) ∧
    (n.getUseImmediate = false → n.getImmediates = []) := by
  intro t
  induction t with
  | null => intro h; exact absurd h (by simp only [Tidy, not_false_eq_true])
  | mk b d imm u c0 c1 c2 c3 ih0 ih1 ih2 ih3 =>
    intro h n hn
    cases u with
    | true =>
      simp only [nodes, List.mem_singleton] at hn
      subst hn
      simp only [Tidy] at h
      exact ⟨fun _ hd => h hd, fun hu => by simp [getUseImmediate] at hu⟩
    | false =>
      simp only [Tidy] at h
      simp only [nodes, List.mem_cons, List.mem_append] at hn
      rcases hn with rfl | ((hn | hn) | hn) | hn
      · exact ⟨fun hu => by simp [getUseImmediate] at hu, fun _ => h.1⟩
      · exact ih0 h.2.1 n hn
      · exact ih1 h.2.2.1 n hn
      · exact ih2 h.2.2.2.1 n hn
      · exact ih3 h.2.2.2.2 n hn

theorem small_abs : ∀ (t : QuadTreeNode), Tidy t → QuadTree.Small t.abs := by
  intro t
  induction t with
  | null => intro h; exact absurd h (by simp only [Tidy, not_false_eq_true])
  | mk b d imm u c0 c1 c2 c3 ih0 ih1 ih2 ih3 =>
    intro h
    cases u with
    | true =>
      simp only [Tidy] at h
      simp only [abs, QuadTree.Small]
      exact h
    | false =>
      simp only [Tidy] at h
      simp only [abs, QuadTree.Small]
      exact ⟨ih0 h.2.1, ih1 h.2.2.1, ih2 h.2.2.2.1, ih3 h.2.2.2.2⟩

theorem small_subtrees : ∀ (t : QuadTree), QuadTree.Small t → ∀ n ∈ t.subtrees,
    ∀ b d imm, n = QuadTree.leaf b d imm → d < QuadTree.MAX_DEPTH → imm.length ≤ 4 := by
  intro t
  induction t with
  | leaf b d imm =>
    intro h n hn b' d' imm' he hd
    simp only [QuadTree.subtrees, List.mem_singleton] at hn
    subst hn
    cases he
    exact h hd
  | node b d c0 c1 c2 c3 ih0 ih1 ih2 ih3 =>
    intro h n hn b' d' imm' he hd
    simp only [QuadTree.Small] at h
    simp only [QuadTree.subtrees, List.mem_cons, List.mem_append] at hn
    rcases hn with rfl | ((hn | hn) | hn) | hn
    · cases he
    · exact ih0 h.1 n hn b' d' imm' he hd
    · exact ih1 h.2.1 n hn b' d' imm' he hd
    · exact ih2 h.2.2.1 n hn b' d' imm' he hd
    · exact ih3 h.2.2.2 n hn b' d' imm' he hd

/-- C27: in every tree reached by `insert` and `remove` from an empty root,
every node in leaf mode whose depth is below `MAX_DEPTH` holds at most four
entries in `_immediates`, and every node with children has an empty
`_immediates`. This holds of the objects with every member
(`QuadTreeNode`); the `QuadTree` they stand for is the one the calls give
on `QuadTree`, and its leaves below `MAX_DEPTH` hold at most four
entries. -/
theorem C27_leaf_size_and_cleared_list (mbr : Nat → iMBR) (root : iMBR) (d0 : Int)
    (cs : List QuadTree.Call) :
    (∀ n ∈ (run mbr (new root d0) cs).nodes,
      (n.getUseImmediate = true → n.getDepth < QuadTree.MAX_DEPTH →
        n.getImmediates.length ≤ 4) ∧
      (n.getUseImmediate = false → n.getImmediates = [])) ∧
    (run mbr (new root d0) cs).abs = QuadTree.run mbr (QuadTree.new root d0) cs ∧
    (∀ n ∈ (QuadTree.run mbr (QuadTree.new root d0) cs).subtrees,
      ∀ b d imm, n = QuadTree.leaf b d imm → d < QuadTree.MAX_DEPTH → imm.length ≤ 4) := by
  have h := tidy_run mbr cs (new root d0) (tidy_new root d0)
  refine ⟨tidy_nodes _ h.1, h.2, ?_⟩
  have hs := small_abs _ h.1
  rw [h.2] at hs
  exact small_subtrees _ hs

/-- Witness for C27: after the five inserts of `mbrFive` the screen root has
children, and its `_immediates` is empty. -/
theorem C27_leaf_size_and_cleared_list_witness :
    (run QuadTree.mbrFive (new ⟨-1, 1, -1, 1⟩ 1)
      [.insert 0, .insert 1, .insert 2, .insert 3, .insert 4]).getUseImmediate = false ∧
    (run QuadTree.mbrFive (new ⟨-1, 1, -1, 1⟩ 1)
      [.insert 0, .insert 1, .insert 2, .insert 3, .insert 4]).getImmediates = [] :=
  ⟨by decide!,
    ((C27_leaf_size_and_cleared_list QuadTree.mbrFive ⟨-1, 1, -1, 1⟩ 1
      [.insert 0, .insert 1, .insert 2, .insert 3, .insert 4]).1 _ (by decide!)).2
      (by decide!)⟩

end QuadTreeNode
/-! ## `QuadTree::insert`: the three cases -/

namespace QuadTree

theorem insertFuel_eq_insert (mbr : Nat → iMBR) (f : Nat) (t : QuadTree) (item : Nat)
    (h : need t ≤ f) : insertFuel mbr f t item = t.insert mbr item := by
  rw [← insertFuel_enough mbr t item (f - need t)]
  congr 1
  omega

theorem insert_need (mbr : Nat → iMBR) (t : QuadTree) (item : Nat) :
    need (t.insert mbr item) ≤ need t :=
  insertFuel_need mbr t.need t item (le_refl _)

theorem foldl_insert_node (mbr : Nat → iMBR) (b : iMBR) (d : Int) (f : Nat) :
    ∀ (l : List Nat) (c0 c1 c2 c3 : QuadTree),
      (∀ x ∈ l, b.overlaps (mbr x) = true) →
      need c0 ≤ f → need c1 ≤ f → need c2 ≤ f → need c3 ≤ f →
      l.foldl (insertFuel mbr (f + 1)) (QuadTree.node b d c0 c1 c2 c3)
        = QuadTree.node b d (l.foldl (insert mbr) c0) (l.foldl (insert mbr) c1)
          (l.foldl (insert mbr) c2) (l.foldl (insert mbr) c3) := by
  intro l
  induction l with
  | nil => intro c0 c1 c2 c3 _ _ _ _ _; rfl
  | cons x l ih =>
    intro c0 c1 c2 c3 hov h0 h1 h2 h3
    have hx := hov x (List.mem_cons_self x l)
    have hstep : insertFuel mbr (f + 1) (QuadTree.node b d c0 c1 c2 c3) x
        = QuadTree.node b d (c0.insert mbr x) (c1.insert mbr x) (c2.insert mbr x)
          (c3.insert mbr x) := by
      simp only [insertFuel, getMBR_node, hx, Bool.not_true, Bool.false_eq_true, if_false,
        insertFuel_eq_insert mbr f _ x h0, insertFuel_eq_insert mbr f _ x h1,
        insertFuel_eq_insert mbr f _ x h2, insertFuel_eq_insert mbr f _ x h3]
    simp only [List.foldl_cons]
    rw [hstep]
    exact ih _ _ _ _ (fun y hy => hov y (List.mem_cons_of_mem x hy))
      (le_trans (insert_need mbr c0 x) h0) (le_trans (insert_need mbr c1 x) h1)
      (le_trans (insert_need mbr c2 x) h2) (le_trans (insert_need mbr c3 x) h3)

theorem insert_leaf_split (mbr : Nat → iMBR) (b : iMBR) (d : Int) (imm : List Nat) (e : Nat)
    (hov : b.overlaps (mbr e) = true) (hd : d < MAX_DEPTH) (hlen : imm.length = 4)
    (hold : ∀ x ∈ imm, b.overlaps (mbr x) = true) :
    (QuadTree.leaf b d imm).insert mbr e
      = QuadTree.node b d ((imm ++ [e]).foldl (insert mbr) (new (bounds0 b) (d + 1)))
        ((imm ++ [e]).foldl (insert mbr) (new (bounds1 b) (d + 1)))
        ((imm ++ [e]).foldl (insert mbr) (new (bounds2 b) (d + 1)))
        ((imm ++ [e]).foldl (insert mbr) (new (bounds3 b) (d + 1))) := by
  obtain ⟨k, hk⟩ : ∃ k, (MAX_DEPTH - d).toNat = k + 1 := ⟨(MAX_DEPTH - d).toNat - 1, by omega⟩
  have hn : ∀ c, need (new c (d + 1)) ≤ 2 * k + 1 := by
    intro c
    simp only [new, need]
    omega
  have hfuel : (QuadTree.leaf b d imm).need = (2 * k + 1 + 1) + 1 := by
    simp only [need]
    omega
  have hall : ∀ x ∈ imm ++ [e], b.overlaps (mbr x) = true := by
    intro x hx
    rcases List.mem_append.mp hx with h | h
    · exact hold x h
    · rw [List.mem_singleton.mp h]; exact hov
  have h1 : (QuadTree.leaf b d imm).insert mbr e
      = (imm ++ [e]).foldl (insertFuel mbr (2 * k + 1 + 1)) (divide b d) := by
    unfold insert
    rw [hfuel]
    simp only [insertFuel, getMBR_leaf, hov, Bool.not_true, Bool.false_eq_true, if_false, hd,
      hlen, and_self, if_true, List.foldl_append, List.foldl_cons, List.foldl_nil]
  rw [h1]
  exact foldl_insert_node mbr b d (2 * k + 1) (imm ++ [e]) _ _ _ _ hall (hn _) (hn _) (hn _)
    (hn _)

theorem run_map_insert (mbr : Nat → iMBR) : ∀ (l : List Nat) (t : QuadTree),
    run mbr t (l.map Call.insert) = l.foldl (insert mbr) t := by
  intro l
  induction l with
  | nil => intro t; rfl
  | cons x l ih =>
    intro t
    have : run mbr t ((x :: l).map Call.insert) = run mbr (t.insert mbr x) (l.map Call.insert) :=
      rfl
    rw [this, ih, List.foldl_cons]

theorem leaf_overlaps_root (mbr : Nat → iMBR) (s : List Nat) (e : iMBR) : ∀ (t : QuadTree),
    Good mbr s t → ∀ lf ∈ t.leaves, lf.1.overlaps e = true → t.getMBR.overlaps e = true := by
  intro t
  induction t with
  | leaf b d imm =>
    intro _ lf hlf ho
    simp only [leaves, List.mem_singleton] at hlf
    subst hlf
    exact ho
  | node b d c0 c1 c2 c3 ih0 ih1 ih2 ih3 =>
    intro h lf hlf ho
    simp only [Good] at h
    obtain ⟨hb, e0, e1, e2, e3, g0, g1, g2, g3⟩ := h
    simp only [leaves, List.mem_append] at hlf
    rw [getMBR_node]
    rcases hlf with ((hlf | hlf) | hlf) | hlf
    · have := ih0 g0 lf hlf ho
      rw [e0] at this
      exact overlaps_of_bounds0 b e hb this
    · have := ih1 g1 lf hlf ho
      rw [e1] at this
      exact overlaps_of_bounds1 b e hb this
    · have := ih2 g2 lf hlf ho
      rw [e2] at this
      exact overlaps_of_bounds2 b e hb this
    · have := ih3 g3 lf hlf ho
      rw [e3] at this
      exact overlaps_of_bounds3 b e hb this

theorem stored_in_fresh (mbr : Nat → iMBR) (c : iMBR) (d : Int) (l : List Nat) (hc : c.WF)
    (hl : ∀ x ∈ l, (mbr x).WF) (x : Nat) :
    (∃ lf ∈ (l.foldl (insert mbr) (new c d)).leaves, x ∈ lf.2) ↔
      (x ∈ l ∧ c.overlaps (mbr x) = true) := by
  have hwf : ∀ k ∈ l.map Call.insert, (mbr k.item).WF := by
    intro k hk
    obtain ⟨a, ha, rfl⟩ := List.mem_map.mp hk
    exact hl a ha
  have hreach := reach_new mbr c d (l.map Call.insert) hc hwf
  rw [run_map_insert, inserted_map_insert, List.append_nil] at hreach
  obtain ⟨hgood, _, hmbr, _, _⟩ := hreach
  constructor
  · rintro ⟨lf, hlf, hx⟩
    have := (good_leaves mbr _ _ hgood lf hlf x).mp hx
    refine ⟨List.mem_reverse.mp this.1, ?_⟩
    have ho := leaf_overlaps_root mbr _ (mbr x) _ hgood lf hlf this.2
    rw [hmbr] at ho
    exact ho
  · rintro ⟨hx, ho⟩
    obtain ⟨lf, hlf, hlo⟩ := leaves_cover mbr _ x (hl x hx) _ hgood (by rw [hmbr]; exact ho)
    exact ⟨lf, hlf, (good_leaves mbr _ _ hgood lf hlf x).mpr ⟨List.mem_reverse.mpr hx, hlo⟩⟩

/-- C21: `insert(e)` of an item that does not overlap the node returns the
node unchanged. On a leaf that it overlaps and that does not both lie
below `MAX_DEPTH` and hold exactly four items, it appends `e` to the list
and the node stays a leaf. On a leaf below `MAX_DEPTH` that holds exactly
four items, each overlapping the leaf, the node gets four children of
depth plus one with the quadrant rectangles, each child being the new
leaf into which the four old items and then `e` have been inserted, so
that (for well-formed rectangles) a child stores an item exactly when the
item is one of the five and overlaps the child's rectangle; on the object
with every member, `_immediates` is empty and `_useImmediate` false
afterwards. -/
theorem C21_insert_cases (mbr : Nat → iMBR) (b : iMBR) (d : Int) (imm : List Nat) (e : Nat) :
    (∀ t : QuadTree, t.getMBR.overlaps (mbr e) = false → t.insert mbr e = t) ∧
    (b.overlaps (mbr e) = true → ¬(d < MAX_DEPTH ∧ imm.length = 4) →
      (QuadTree.leaf b d imm).insert mbr e = QuadTree.leaf b d (imm ++ [e])) ∧
    (b.overlaps (mbr e) = true → d < MAX_DEPTH → imm.length = 4 →
      (∀ x ∈ imm, b.overlaps (mbr x) = true) →
      (QuadTree.leaf b d imm).insert mbr e
        = QuadTree.node b d ((imm ++ [e]).foldl (insert mbr) (new (bounds0 b) (d + 1)))
          ((imm ++ [e]).foldl (insert mbr) (new (bounds1 b) (d + 1)))
          ((imm ++ [e]).foldl (insert mbr) (new (bounds2 b) (d + 1)))
          ((imm ++ [e]).foldl (insert mbr) (new (bounds3 b) (d + 1))) ∧
      (∀ c ∈ ((QuadTree.leaf b d imm).insert mbr e).children, c.getDepth = d + 1) ∧
      (b.WF → (∀ x ∈ imm ++ [e], (mbr x).WF) →
        ∀ c ∈ ((QuadTree.leaf b d imm).insert mbr e).children, ∀ x,
          (∃ lf ∈ c.leaves, x ∈ lf.2) ↔
            (x ∈ imm ++ [e] ∧ c.getMBR.overlaps (mbr x) = true)) ∧
      ∀ k0 k1 k2 k3 : QuadTreeNode, ∃ c0 c1 c2 c3,
        (QuadTreeNode.mk b d imm true k0 k1 k2 k3).insert mbr e
          = QuadTreeNode.mk b d [] false c0 c1 c2 c3 ∧
        (QuadTreeNode.mk b d [] false c0 c1 c2 c3).abs
          = (QuadTree.leaf b d imm).insert mbr e) := by
  refine ⟨fun t h => insertFuel_skip mbr _ t e h,
    fun hov hc => insert_leaf_keep mbr b d imm e hov hc, ?_⟩
  intro hov hd hlen hold
  have hsplit := insert_leaf_split mbr b d imm e hov hd hlen hold
  have hdepth : ∀ (c : iMBR) (l : List Nat),
      (l.foldl (insert mbr) (new c (d + 1))).getDepth = d + 1 := by
    intro c l
    rw [← run_map_insert]
    exact (depths_run mbr (d + 1) _ (new c (d + 1)) (by simp only [new, Depths, le_refl])).2
  have hmbr : ∀ (c : iMBR) (l : List Nat),
      (l.foldl (insert mbr) (new c (d + 1))).getMBR = c := by
    intro c l
    induction l using List.reverseRecOn with
    | nil => rfl
    | append_singleton l x ih =>
      rw [List.foldl_append, List.foldl_cons, List.foldl_nil, insert_getMBR, ih]
  refine ⟨hsplit, ?_, ?_, ?_⟩
  · intro c hc
    rw [hsplit] at hc
    simp only [children, List.mem_cons, List.mem_singleton, List.not_mem_nil, or_false] at hc
    rcases hc with rfl | rfl | rfl | rfl <;> exact hdepth _ _
  · intro hb hwf c hc x
    rw [hsplit] at hc
    simp only [children, List.mem_cons, List.mem_singleton, List.not_mem_nil, or_false] at hc
    rcases hc with rfl | rfl | rfl | rfl
    · rw [hmbr]; exact stored_in_fresh mbr _ _ _ (bounds0_wf b hb) hwf x
    · rw [hmbr]; exact stored_in_fresh mbr _ _ _ (bounds1_wf b hb) hwf x
    · rw [hmbr]; exact stored_in_fresh mbr _ _ _ (bounds2_wf b hb) hwf x
    · rw [hmbr]; exact stored_in_fresh mbr _ _ _ (bounds3_wf b hb) hwf x
  · intro k0 k1 k2 k3
    have htidy : QuadTreeNode.Tidy (QuadTreeNode.mk b d imm true k0 k1 k2 k3) := by
      simp only [QuadTreeNode.Tidy]
      intro _
      omega
    obtain ⟨ht, ha⟩ := QuadTreeNode.tidy_insert mbr _ e htidy
    have ha' : ((QuadTreeNode.mk b d imm true k0 k1 k2 k3).insert mbr e).abs
        = (QuadTree.leaf b d imm).insert mbr e := ha
    revert ht ha'
    rw [hsplit]
    cases (QuadTreeNode.mk b d imm true k0 k1 k2 k3).insert mbr e with
    | null => intro ht _; exact absurd ht (by simp only [QuadTreeNode.Tidy, not_false_eq_true])
    | mk b' d' imm' u c0 c1 c2 c3 =>
      cases u with
      | true =>
        intro _ ha'
        simp only [QuadTreeNode.abs] at ha'
        exact QuadTree.noConfusion ha'
      | false =>
        intro ht ha'
        simp only [QuadTreeNode.Tidy] at ht
        have hb' : b' = b := by
          simp only [QuadTreeNode.abs] at ha'
          exact (QuadTree.node.inj ha').1
        have hd' : d' = d := by
          simp only [QuadTreeNode.abs] at ha'
          exact (QuadTree.node.inj ha').2.1
        subst hb' hd'
        rw [ht.1]
        exact ⟨c0, c1, c2, c3, rfl, ha'⟩

/-- Witness for C21: the fifth square of `mbrFive` inserted into the screen
root that holds the other four. -/
theorem C21_insert_cases_witness :
    ((⟨-1, 1, -1, 1⟩ : iMBR).overlaps (mbrFive 4) = true ∧ (1 : Int) < MAX_DEPTH ∧
      [0, 1, 2, 3].length = 4 ∧
      ∀ x ∈ [0, 1, 2, 3], (⟨-1, 1, -1, 1⟩ : iMBR).overlaps (mbrFive x) = true) ∧
    (QuadTree.leaf ⟨-1, 1, -1, 1⟩ 1 [0, 1, 2, 3]).insert mbrFive 4
      = QuadTree.node ⟨-1, 1, -1, 1⟩ 1
        (([0, 1, 2, 3] ++ [4]).foldl (insert mbrFive) (new (bounds0 ⟨-1, 1, -1, 1⟩) (1 + 1)))
        (([0, 1, 2, 3] ++ [4]).foldl (insert mbrFive) (new (bounds1 ⟨-1, 1, -1, 1⟩) (1 + 1)))
        (([0, 1, 2, 3] ++ [4]).foldl (insert mbrFive) (new (bounds2 ⟨-1, 1, -1, 1⟩) (1 + 1)))
        (([0, 1, 2, 3] ++ [4]).foldl (insert mbrFive) (new (bounds3 ⟨-1, 1, -1, 1⟩) (1 + 1))) :=
  ⟨⟨by decide!, by decide, rfl, by decide!⟩,
    ((C21_insert_cases mbrFive ⟨-1, 1, -1, 1⟩ 1 [0, 1, 2, 3] 4).2.2
      (by decide!) (by decide) rfl (by decide!)).1⟩

end QuadTree

end gui2d
